import Mathlib

/-!
# ActiveVerticesConnected: a connectivity propagator for MiniSat

A shallow embedding of `minisat/example/Graph.cpp` (class `ActiveVerticesConnected`,
an implementation of the `Constraint` interface of `minisat/core/Constraint.h`)
together with theorems about its propagation, explanation and undo operations.

Conventions of the embedding.

* `std::vector<T>` is a `List T`; `v[i]` is `List.getD` and `v[i] = x` is `List.set`.
  All indices used by the code are below `lits_.size()` for a constraint built by the
  constructor from an edge list whose indices are in range.
* C++ `int` is `Int`; every integer the code computes is bounded in absolute value by the
  number of vertices, so no wrap-around can occur and none is modelled.
* The recursion of `buildTree` is driven by a fuel argument and returns `none` when the
  fuel runs out; `propagate` supplies `lits_.size()` units, which is shown to be enough.
* `abort()` is the outcome `Outcome.aborted`.
* The host `Solver` is not part of the sources. Its operations used by the constraint are
  taken as a parameter (`SolverOps`); `Trail` is a concrete host modelled from the spec.
* `buildLoopG`, `buildTreeG` and `censusG` are copies of `buildLoop`, `buildTree` and
  `census` that also return two ghost values, the vertices for which `buildTree` was
  entered and the depth of the call stack; they are proved to compute the same results.
-/

namespace Minisat

/-- A variable is MiniSat's `typedef int Var`. -/
abbrev Var := Nat

/-- A literal: a variable and a polarity (`sign = true` is the negated literal). -/
structure Lit where
  var : Var
  sign : Bool
deriving DecidableEq, Repr

/-- The literal `~p`. -/
def Lit.neg (p : Lit) : Lit := { var := p.var, sign := !p.sign }

/-- The positive literal `mkLit(x)`. -/
def mkLit (x : Var) : Lit := { var := x, sign := false }

/-- MiniSat's lifted Booleans. -/
inductive lbool where
  | l_True
  | l_False
  | l_Undef
deriving DecidableEq, Repr

/-- The enum `NodeState` of `Graph.h`; as integers `kUndecided = 0`. -/
inductive NodeState where
  | kUndecided
  | kActive
  | kInactive
deriving DecidableEq, Repr

open NodeState lbool

/-- The value of a literal whose variable has value `b`: `b` itself for a positive literal
and its opposite for a negated one (MiniSat's `assigns[var(p)] ^ sign(p)`). -/
def lbool.xor (b : lbool) (sign : Bool) : lbool :=
  match b with
  | l_True => if sign then l_False else l_True
  | l_False => if sign then l_True else l_False
  | l_Undef => l_Undef

/-- Modelled from the spec: the operations of the host `Solver` (its source is not part of
the repository files at hand) that the constraint calls. `assigns` is the current
assignment value of a variable, from which `value(literal)` is derived;
`enqueue(literal, propagator)` answers `false` on a conflict; `registerUndo(variable,
propagator)` records a request. The solver state `S` is threaded explicitly. -/
structure SolverOps (S : Type) where
  assigns : S → Var → lbool
  enqueue : S → Lit → Bool × S
  registerUndo : S → Var → S

/-- Modelled from the spec: `value(literal)`, the assignment value of the literal's
variable, flipped when the literal is negated. -/
def SolverOps.value {S : Type} (ops : SolverOps S) (s : S) (l : Lit) : lbool :=
  (ops.assigns s l.var).xor l.sign

/-- The data members of `class ActiveVerticesConnected`. -/
structure ActiveVerticesConnected where
  lits_ : List Lit
  adj_ : List (List Nat)
  state_ : List NodeState
  rank_ : List Int
  lowlink_ : List Int
  subtree_active_count_ : List Int
  cluster_id_ : List Int
  parent_ : List Int
  next_rank_ : Int
deriving DecidableEq, Repr

/-- How a call of a member function ends: it returns a value, it reaches `abort()`, or
(in the model only) the recursion fuel is exhausted. -/
inductive Outcome (α : Type) where
  | returned (a : α)
  | aborted
  | outOfFuel
deriving DecidableEq, Repr

/-- One call `solver.enqueue(lit, this)` made by `propagate`: the vertex whose loop
iteration made the call, the literal passed, and the host's answer. -/
structure EnqCall where
  vertex : Nat
  lit : Lit
  answer : Bool
deriving DecidableEq, Repr

namespace ActiveVerticesConnected

/-- The constant `kUnvisited`. -/
def kUnvisited : Int := -1

/-- Reading `lits_[i]`. -/
def lit (c : ActiveVerticesConnected) (i : Nat) : Lit := c.lits_.getD i (mkLit 0)

/-- Reading `adj_[v]`. -/
def adj (c : ActiveVerticesConnected) (v : Nat) : List Nat := c.adj_.getD v []

/-- Reading `state_[i]`. -/
def state (c : ActiveVerticesConnected) (i : Nat) : NodeState := c.state_.getD i kUndecided

/-- Reading `rank_[v]`. -/
def rank (c : ActiveVerticesConnected) (v : Nat) : Int := c.rank_.getD v 0

/-- Reading `lowlink_[v]`. -/
def lowlink (c : ActiveVerticesConnected) (v : Nat) : Int := c.lowlink_.getD v 0

/-- Reading `subtree_active_count_[v]`. -/
def subtreeActiveCount (c : ActiveVerticesConnected) (v : Nat) : Int :=
  c.subtree_active_count_.getD v 0

/-- Reading `cluster_id_[v]`. -/
def clusterId (c : ActiveVerticesConnected) (v : Nat) : Int := c.cluster_id_.getD v 0

/-- Reading `parent_[v]`. -/
def parent (c : ActiveVerticesConnected) (v : Nat) : Int := c.parent_.getD v 0

/-- The loop `for (auto& e : edges)` of the constructor: both directions of every edge are
appended to the adjacency lists. -/
def addEdges : List (Nat × Nat) → List (List Nat) → List (List Nat)
  | [], adj => adj
  | e :: es, adj =>
    let adj1 := adj.set e.1 (adj.getD e.1 [] ++ [e.2])
    let adj2 := adj1.set e.2 (adj1.getD e.2 [] ++ [e.1])
    addEdges es adj2

/-- The constructor `ActiveVerticesConnected(lits, edges)`. The vectors are value-initialised
(zeros); `next_rank_`, which the constructor leaves uninitialised and `propagate` sets
before every use, is taken to be 0. -/
def new (lits : List Lit) (edges : List (Nat × Nat)) : ActiveVerticesConnected :=
  { lits_ := lits
    adj_ := addEdges edges (List.replicate lits.length [])
    state_ := List.replicate lits.length kUndecided
    rank_ := List.replicate lits.length 0
    lowlink_ := List.replicate lits.length 0
    subtree_active_count_ := List.replicate lits.length 0
    cluster_id_ := List.replicate lits.length 0
    parent_ := List.replicate lits.length 0
    next_rank_ := 0 }

/-- The first three statements of `buildTree`: stamp `rank_`, `cluster_id_`, `parent_`. -/
def enter (c : ActiveVerticesConnected) (v : Nat) (parent cluster_id : Int) :
    ActiveVerticesConnected :=
  { c with
    rank_ := c.rank_.set v c.next_rank_
    next_rank_ := c.next_rank_ + 1
    cluster_id_ := c.cluster_id_.set v cluster_id
    parent_ := c.parent_.set v parent }

/-- The last two statements of `buildTree`: store the count and the low-link. -/
def leave (c : ActiveVerticesConnected) (v : Nat) (lowlink cnt : Int) :
    ActiveVerticesConnected :=
  { c with
    subtree_active_count_ := c.subtree_active_count_.set v cnt
    lowlink_ := c.lowlink_.set v lowlink }

/-- The loop `for (int w : adj_[v])` of `buildTree`, over the remaining neighbours, with
the local variables `lowlink` and `subtree_active_count`; `call` is the recursive call. -/
def buildLoop (call : Nat → Int → Int → ActiveVerticesConnected →
      Option (Int × ActiveVerticesConnected)) (v : Nat) (parent cluster_id : Int) :
    List Nat → Int → Int → ActiveVerticesConnected →
      Option (Int × Int × ActiveVerticesConnected)
  | [], lowlink, cnt, c => some (lowlink, cnt, c)
  | w :: ws, lowlink, cnt, c =>
    if (w : Int) = parent ∨ c.state w = kInactive then
      buildLoop call v parent cluster_id ws lowlink cnt c
    else if c.rank w = -1 then
      match call w (v : Int) cluster_id c with
      | none => none
      | some (r, c1) =>
        buildLoop call v parent cluster_id ws (min lowlink r)
          (cnt + c1.subtreeActiveCount w) c1
    else
      buildLoop call v parent cluster_id ws (min lowlink (c.rank w)) cnt c

/-- The member function `buildTree(v, parent, cluster_id)`; `none` when the fuel is
exhausted. The result is the returned low-link and the updated object. -/
def buildTree : Nat → Nat → Int → Int → ActiveVerticesConnected →
    Option (Int × ActiveVerticesConnected)
  | 0, _, _, _, _ => none
  | fuel + 1, v, parent, cluster_id, c =>
    let c1 := c.enter v parent cluster_id
    match buildLoop (buildTree fuel) v parent cluster_id (c1.adj v) (c1.rank v)
        (if c1.state v = kActive then 1 else 0) c1 with
    | none => none
    | some (lowlink, cnt, c2) => some (lowlink, c2.leave v lowlink cnt)

/-- The refresh loop of `propagate` (lines 31-40): `none` stands for `abort()`. -/
def refresh {S : Type} (ops : SolverOps S) (s : S) (p : Lit) (lits : List Lit) :
    List Nat → List NodeState → Option (List NodeState)
  | [], st => some st
  | i :: is, st =>
    if (lits.getD i (mkLit 0)).var = p.var then
      match ops.value s (lits.getD i (mkLit 0)) with
      | l_True => refresh ops s p lits is (st.set i kActive)
      | l_False => refresh ops s p lits is (st.set i kInactive)
      | l_Undef => none
    else refresh ops s p lits is st

/-- The five `std::fill` calls and `next_rank_ = 0` (lines 42-47). -/
def resetDfs (c : ActiveVerticesConnected) : ActiveVerticesConnected :=
  { c with
    rank_ := List.replicate c.rank_.length kUnvisited
    lowlink_ := List.replicate c.lowlink_.length 0
    subtree_active_count_ := List.replicate c.subtree_active_count_.length 0
    cluster_id_ := List.replicate c.cluster_id_.length 0
    parent_ := List.replicate c.parent_.length (-1)
    next_rank_ := 0 }

/-- How the census loop (lines 51-60) ends. -/
inductive Census where
  | conflict (c : ActiveVerticesConnected)
  | done (nonempty_cluster : Int) (c : ActiveVerticesConnected)
  | outOfFuel
deriving DecidableEq, Repr

/-- The census loop `for (int i = 0; i < n; ++i)` of lines 51-60 over the remaining
indices, with the local variable `nonempty_cluster`. -/
def census (fuel : Nat) : List Nat → Int → ActiveVerticesConnected → Census
  | [], nonempty_cluster, c => Census.done nonempty_cluster c
  | i :: is, nonempty_cluster, c =>
    if c.state i ≠ kInactive ∧ c.rank i = kUnvisited then
      match buildTree fuel i (-1) (i : Int) c with
      | none => Census.outOfFuel
      | some (_, c1) =>
        if c1.subtreeActiveCount i ≥ 1 then
          if nonempty_cluster ≠ -1 then Census.conflict c1
          else census fuel is (i : Int) c1
        else census fuel is nonempty_cluster c1
    else census fuel is nonempty_cluster c

/-- The loop `for (auto w : adj_[v])` of lines 73-83 over the remaining neighbours, with
the local variables `parent_side_count` and `n_nonempty_subgraph`. -/
def branchLoop (c : ActiveVerticesConnected) (v : Nat) : List Nat → Int → Int → Int × Int
  | [], parent_side_count, n_nonempty_subgraph => (parent_side_count, n_nonempty_subgraph)
  | w :: ws, parent_side_count, n_nonempty_subgraph =>
    if c.rank v < c.rank w ∧ c.parent w = (v : Int) then
      if c.lowlink w < c.rank v then
        branchLoop c v ws (parent_side_count + c.subtreeActiveCount w) n_nonempty_subgraph
      else if c.subtreeActiveCount w > 0 then
        branchLoop c v ws parent_side_count (n_nonempty_subgraph + 1)
      else branchLoop c v ws parent_side_count n_nonempty_subgraph
    else branchLoop c v ws parent_side_count n_nonempty_subgraph

/-- Lines 71-85: the final value of `n_nonempty_subgraph` for vertex `v`. -/
def branchCount (c : ActiveVerticesConnected) (nonempty_cluster : Int) (v : Nat) : Int :=
  let r := branchLoop c v (c.adj v)
    (c.subtreeActiveCount nonempty_cluster.toNat - c.subtreeActiveCount v) 0
  if r.1 > 0 then r.2 + 1 else r.2

/-- The forcing loop `for (int v = 0; v < n; ++v)` of lines 63-90 over the remaining
vertices. The result is `false` when the loop executes `return false`, the solver state,
and the calls of `enqueue` made so far. -/
def forceLoop {S : Type} (ops : SolverOps S) (c : ActiveVerticesConnected)
    (nonempty_cluster : Int) : List Nat → S → List EnqCall → Bool × S × List EnqCall
  | [], s, calls => (true, s, calls)
  | v :: vs, s, calls =>
    if c.state v ≠ kUndecided then forceLoop ops c nonempty_cluster vs s calls
    else if c.clusterId v ≠ nonempty_cluster then
      let r := ops.enqueue s (c.lit v).neg
      if r.1 = false then (false, r.2, calls ++ [⟨v, (c.lit v).neg, false⟩])
      else forceLoop ops c nonempty_cluster vs r.2 (calls ++ [⟨v, (c.lit v).neg, true⟩])
    else if branchCount c nonempty_cluster v ≥ 2 then
      let r := ops.enqueue s (c.lit v)
      if r.1 = false then (false, r.2, calls ++ [⟨v, c.lit v, false⟩])
      else forceLoop ops c nonempty_cluster vs r.2 (calls ++ [⟨v, c.lit v, true⟩])
    else forceLoop ops c nonempty_cluster vs s calls

/-- What a returning call of `propagate` leaves behind: the returned Boolean, the solver
state, the object, and the calls of `enqueue` it made, in order. -/
structure PropagateResult (S : Type) where
  ret : Bool
  solver : S
  self : ActiveVerticesConnected
  calls : List EnqCall

/-- The member function `propagate(solver, p)`. -/
def propagate {S : Type} (ops : SolverOps S) (s : S) (p : Lit)
    (c : ActiveVerticesConnected) : Outcome (PropagateResult S) :=
  let n := c.lits_.length
  let s1 := ops.registerUndo s p.var
  match refresh ops s1 p c.lits_ (List.range n) c.state_ with
  | none => Outcome.aborted
  | some st =>
    let c1 := resetDfs { c with state_ := st }
    match census n (List.range n) (-1) c1 with
    | Census.outOfFuel => Outcome.outOfFuel
    | Census.conflict c2 => Outcome.returned ⟨false, s1, c2, []⟩
    | Census.done nonempty_cluster c2 =>
      if nonempty_cluster ≠ -1 then
        let r := forceLoop ops c2 nonempty_cluster (List.range n) s1 []
        Outcome.returned ⟨r.1, r.2.1, c2, r.2.2⟩
      else Outcome.returned ⟨true, s1, c2, []⟩

/-- The first loop of `calcReason` (lines 122-126) over the remaining indices. -/
def reasonLoop (c : ActiveVerticesConnected) (p : Lit) : List Nat → List Lit → List Lit
  | [], out_reason => out_reason
  | i :: is, out_reason =>
    if (c.lit i).var = p.var then reasonLoop c p is out_reason
    else if c.state i = kActive then reasonLoop c p is (out_reason ++ [c.lit i])
    else if c.state i = kInactive then reasonLoop c p is (out_reason ++ [(c.lit i).neg])
    else reasonLoop c p is out_reason

/-- The second loop of `calcReason` (lines 127-130): `false` when it reaches `abort()`. -/
def reasonCheck {S : Type} (ops : SolverOps S) (s : S) (c : ActiveVerticesConnected) :
    List Nat → Bool
  | [] => true
  | i :: is =>
    if c.state i = kActive ∧ ops.value s (c.lit i) ≠ l_True then false
    else if c.state i = kInactive ∧ ops.value s (c.lit i) ≠ l_False then false
    else reasonCheck ops s c is

/-- The member function `calcReason(solver, p, out_reason)`: the final `out_reason`. -/
def calcReason {S : Type} (ops : SolverOps S) (s : S) (p : Lit)
    (c : ActiveVerticesConnected) (out_reason : List Lit) : Outcome (List Lit) :=
  let n := c.lits_.length
  let out := reasonLoop c p (List.range n) out_reason
  if reasonCheck ops s c (List.range n) then Outcome.returned out else Outcome.aborted

/-- The loop of `undo` over the remaining indices. -/
def undoLoop (lits : List Lit) (p : Lit) : List Nat → List NodeState → List NodeState
  | [], st => st
  | i :: is, st =>
    if (lits.getD i (mkLit 0)).var = p.var then undoLoop lits p is (st.set i kUndecided)
    else undoLoop lits p is st

/-- The member function `undo(solver, p)`. -/
def undo (p : Lit) (c : ActiveVerticesConnected) : ActiveVerticesConnected :=
  { c with state_ := undoLoop c.lits_ p (List.range c.lits_.length) c.state_ }


/-! ### Predicates used to state and prove the properties of the depth-first search -/

/-- All vectors of the object have `n` entries, as the constructor makes them. -/
structure Sized (c : ActiveVerticesConnected) (n : Nat) : Prop where
  lits : c.lits_.length = n
  adj : c.adj_.length = n
  state : c.state_.length = n
  rank : c.rank_.length = n
  lowlink : c.lowlink_.length = n
  cnt : c.subtree_active_count_.length = n
  cid : c.cluster_id_.length = n
  par : c.parent_.length = n

/-- The members that `buildTree` never writes are the same in both objects. -/
def SameStatic (c c1 : ActiveVerticesConnected) : Prop :=
  c1.lits_ = c.lits_ ∧ c1.adj_ = c.adj_ ∧ c1.state_ = c.state_

/-- Every adjacency list holds vertices below `n` only. -/
def AdjBound (c : ActiveVerticesConnected) (n : Nat) : Prop :=
  ∀ x, ∀ w ∈ c.adj x, w < n

/-- Adjacency is symmetric, as it is for lists built from undirected edges. -/
def AdjSymm (c : ActiveVerticesConnected) : Prop :=
  ∀ x w, w ∈ c.adj x → x ∈ c.adj w

/-- The ranks handed out so far are distinct and lie in `0 .. next_rank_ - 1`. -/
structure RankInv (c : ActiveVerticesConnected) (n : Nat) : Prop where
  nonneg : 0 ≤ c.next_rank_
  bound : ∀ x, x < n → c.rank x ≠ -1 → 0 ≤ c.rank x ∧ c.rank x < c.next_rank_
  inj : ∀ x y, x < n → y < n → c.rank x ≠ -1 → c.rank x = c.rank y → x = y

/-- The number of vertices below `n` that the search has not visited. -/
def unvisitedCount (c : ActiveVerticesConnected) (n : Nat) : Nat :=
  ((Finset.range n).filter (fun x => c.rank x = -1)).card

/-- The fields of `x` written by `buildTree` are the same in both objects. -/
def SameAt (c c1 : ActiveVerticesConnected) (x : Nat) : Prop :=
  c1.rank x = c.rank x ∧ c1.parent x = c.parent x ∧ c1.clusterId x = c.clusterId x ∧
    c1.lowlink x = c.lowlink x ∧ c1.subtreeActiveCount x = c.subtreeActiveCount x

/-- The trace of one activation of `buildTree` for `v`, read off the final vectors:
`Tr c v ws S cnt low` says that after `v` was entered and the neighbours `ws` were
processed in order, the vertices visited by this activation are `S`, and the local
variables `subtree_active_count` and `lowlink` hold `cnt` and `low`. A neighbour is
skipped (the parent, or Inactive), or it is a child whose own activation is complete, or
it was visited before (by this activation, or before `v` was entered) and contributes its
rank. -/
inductive Tr (c : ActiveVerticesConnected) : Nat → List Nat → Finset Nat → Int → Int → Prop
  | leaf (v : Nat) : v < c.lits_.length → c.state v ≠ kInactive → c.rank v ≠ -1 →
      Tr c v [] {v} (if c.state v = kActive then 1 else 0) (c.rank v)
  | skip {v : Nat} {ws : List Nat} {S : Finset Nat} {cnt low : Int} (w : Nat) :
      Tr c v ws S cnt low →
      ((w : Int) = c.parent v ∨ c.state w = kInactive) →
      (c.state w ≠ kInactive → c.rank w ≠ -1) →
      Tr c v (ws ++ [w]) S cnt low
  | child {v : Nat} {ws : List Nat} {S : Finset Nat} {cnt low : Int} (w : Nat)
      (Sw : Finset Nat) :
      Tr c v ws S cnt low →
      (w : Int) ≠ c.parent v →
      c.parent w = (v : Int) →
      c.clusterId w = c.clusterId v →
      (∀ y ∈ S, c.rank y < c.rank w) →
      Tr c w (c.adj w) Sw (c.subtreeActiveCount w) (c.lowlink w) →
      Disjoint S Sw →
      Tr c v (ws ++ [w]) (S ∪ Sw) (cnt + c.subtreeActiveCount w) (min low (c.lowlink w))
  | back {v : Nat} {ws : List Nat} {S : Finset Nat} {cnt low : Int} (z : Nat) :
      Tr c v ws S cnt low →
      (z : Int) ≠ c.parent v → c.state z ≠ kInactive → c.rank z ≠ -1 →
      (z ∈ S ∨ c.rank z < c.rank v) →
      Tr c v (ws ++ [z]) S cnt (min low (c.rank z))

/-- The activation of `buildTree` for `v` is complete and visited exactly `S`. -/
def Done (c : ActiveVerticesConnected) (v : Nat) (S : Finset Nat) : Prop :=
  Tr c v (c.adj v) S (c.subtreeActiveCount v) (c.lowlink v)

/-- One step along an adjacency list between two vertices satisfying `P`. -/
def Step (c : ActiveVerticesConnected) (P : Nat → Prop) (a b : Nat) : Prop :=
  b ∈ c.adj a ∧ P a ∧ P b

/-- A path along adjacency lists through vertices satisfying `P`. -/
def Conn (c : ActiveVerticesConnected) (P : Nat → Prop) : Nat → Nat → Prop :=
  Relation.ReflTransGen (Step c P)

/-- What `buildTree fuel v par cid c` needs to run to completion. -/
structure Pre (c : ActiveVerticesConnected) (n v : Nat) (par : Int) (fuel : Nat) : Prop where
  sized : Sized c n
  adjBound : AdjBound c n
  rankInv : RankInv c n
  hv : v < n
  unvisited : c.rank v = -1
  alive : c.state v ≠ kInactive
  parVisited : ∀ p : Nat, (p : Int) = par → c.rank p ≠ -1
  fuel : unvisitedCount c n ≤ fuel

/-- What `buildTree fuel v par cid c` guarantees about the returned low-link and object. -/
structure Post (c : ActiveVerticesConnected) (n v : Nat) (par cid low : Int)
    (c1 : ActiveVerticesConnected) : Prop where
  sized : Sized c1 n
  static : SameStatic c c1
  rankInv : RankInv c1 n
  frame : ∀ x, c.rank x ≠ -1 → SameAt c c1 x
  tree : ∃ S : Finset Nat, (∀ x, x ∈ S ↔ x < n ∧ c.rank x = -1 ∧ c1.rank x ≠ -1) ∧ Done c1 v S
  hlow : low = c1.lowlink v
  hpar : c1.parent v = par
  hcid : c1.clusterId v = cid
  hrank : c1.rank v = c.next_rank_
  newRanks : ∀ x, x < n → c.rank x = -1 → c1.rank x ≠ -1 → c.next_rank_ ≤ c1.rank x

/-- The invariant of the loop of `buildTree` for `v`, entered from `c0`, after the
neighbours `done` have been processed. -/
structure LoopInv (c0 : ActiveVerticesConnected) (n v : Nat) (par cid : Int)
    (done : List Nat) (low cnt : Int) (ci : ActiveVerticesConnected) (fuel : Nat) : Prop where
  sized : Sized ci n
  static : SameStatic c0 ci
  adjBound : AdjBound ci n
  rankInv : RankInv ci n
  hv : v < n
  frame : ∀ x, c0.rank x ≠ -1 → SameAt c0 ci x
  tree : ∃ S : Finset Nat, (∀ x, x ∈ S ↔ x < n ∧ c0.rank x = -1 ∧ ci.rank x ≠ -1) ∧
    Tr ci v done S cnt low
  hpar : ci.parent v = par
  hcid : ci.clusterId v = cid
  hrank : ci.rank v = c0.next_rank_
  parVisited : ∀ p : Nat, (p : Int) = par → ci.rank p ≠ -1
  newRanks : ∀ x, x < n → c0.rank x = -1 → ci.rank x ≠ -1 → c0.next_rank_ ≤ ci.rank x
  oldRanks : ∀ x, x < n → c0.rank x ≠ -1 → c0.rank x < c0.next_rank_
  fuel : unvisitedCount ci n ≤ fuel

end ActiveVerticesConnected

end Minisat

open Minisat Minisat.ActiveVerticesConnected NodeState lbool

/-! ## Further definitions: invariants, the graph of the specification, the host -/

namespace Minisat
namespace ActiveVerticesConnected

/-- The statement proved by induction on the fuel: a call that meets `Pre` returns and
meets `Post`. -/
def BuildOk (fuel n : Nat) : Prop :=
  ∀ (c : ActiveVerticesConnected) (v : Nat) (par cid : Int), Pre c n v par fuel →
    ∃ low c1, buildTree fuel v par cid c = some (low, c1) ∧ Post c n v par cid low c1

/-- The invariant of the census loop between two depth-first trees: every visited vertex
lies in the complete tree of the root named by its `cluster_id_`, and the visited set is
closed under adjacency between vertices that are not Inactive. -/
structure Forest (c : ActiveVerticesConnected) (n : Nat) : Prop where
  sized : Sized c n
  adjBound : AdjBound c n
  adjSymm : AdjSymm c
  rankInv : RankInv c n
  alive : ∀ x, x < n → c.rank x ≠ -1 → c.state x ≠ kInactive
  root : ∀ x, x < n → c.rank x ≠ -1 → ∃ (r : Nat) (S : Finset Nat),
    c.clusterId x = (r : Int) ∧ r < n ∧ c.parent r = -1 ∧ Done c r S ∧
      (∀ y, y ∈ S ↔ y < n ∧ c.rank y ≠ -1 ∧ c.clusterId y = (r : Int))
  closed : ∀ x, x < n → c.rank x ≠ -1 → ∀ z ∈ c.adj x, c.state z ≠ kInactive →
    c.rank z ≠ -1 ∧ c.clusterId z = c.clusterId x

/-- What the local variable `nonempty_cluster` of `propagate` records about the trees
built so far. -/
structure CensusFacts (c : ActiveVerticesConnected) (n : Nat) (ne : Int) : Prop where
  empty : ne = -1 → ∀ x, x < n → c.rank x ≠ -1 → c.state x ≠ kActive
  single : ne ≠ -1 → ∃ r0 : Nat, ne = (r0 : Int) ∧ r0 < n ∧ c.rank r0 ≠ -1 ∧
    c.clusterId r0 = (r0 : Int) ∧
    (∃ a, a < n ∧ c.rank a ≠ -1 ∧ c.state a = kActive ∧ c.clusterId a = (r0 : Int)) ∧
    ∀ x, x < n → c.rank x ≠ -1 → c.state x = kActive → c.clusterId x = (r0 : Int)

/-- What the census loop guarantees when it ends: it never runs out of fuel; on a conflict
two visited Active vertices carry different cluster ids; otherwise every listed vertex
that is not Inactive has been visited. -/
def CensusPost (c : ActiveVerticesConnected) (n : Nat) (todo : List Nat) : Census → Prop
  | Census.outOfFuel => False
  | Census.conflict c1 => Forest c1 n ∧ SameStatic c c1 ∧
      ∃ a b, a < n ∧ b < n ∧ c1.rank a ≠ -1 ∧ c1.rank b ≠ -1 ∧ c1.state a = kActive ∧
        c1.state b = kActive ∧ c1.clusterId a ≠ c1.clusterId b
  | Census.done ne c1 => Forest c1 n ∧ SameStatic c c1 ∧ CensusFacts c1 n ne ∧
      (∀ x, c.rank x ≠ -1 → c1.rank x ≠ -1) ∧
      (∀ j ∈ todo, c1.state j ≠ kInactive → c1.rank j ≠ -1)

/-- The edge list joins `u` and `w` (in either direction). -/
def Adjacent (edges : List (Nat × Nat)) (u w : Nat) : Prop :=
  (u, w) ∈ edges ∨ (w, u) ∈ edges

/-- A path of the graph given by `edges` all of whose vertices satisfy `P`. -/
def Path (edges : List (Nat × Nat)) (P : Nat → Prop) : Nat → Nat → Prop :=
  Relation.ReflTransGen (fun a b => Adjacent edges a b ∧ P a ∧ P b)

/-- Vertex `x` is not Inactive in the VertexState array `st`. -/
def NotInactive (st : List NodeState) (x : Nat) : Prop := st.getD x kUndecided ≠ kInactive

/-- `a` and `b` are joined by a path in the graph restricted to the vertices that are not
Inactive. -/
def Connected (edges : List (Nat × Nat)) (st : List NodeState) (a b : Nat) : Prop :=
  Path edges (NotInactive st) a b

/-- `a` and `b` are joined by a path in the graph restricted to the vertices that are not
Inactive, after vertex `v` has been deleted. -/
def ConnectedWithout (edges : List (Nat × Nat)) (st : List NodeState) (v a b : Nat) : Prop :=
  Path edges (fun x => NotInactive st x ∧ x ≠ v) a b

/-- Every index of the edge list is a vertex. -/
def InRange (n : Nat) (edges : List (Nat × Nat)) : Prop :=
  ∀ e ∈ edges, e.1 < n ∧ e.2 < n

/-- The object was built by the constructor from `lits` and `edges`; its VertexState and
its search vectors may hold anything. -/
structure Built (lits : List Lit) (edges : List (Nat × Nat)) (c : ActiveVerticesConnected) :
    Prop where
  hlits : c.lits_ = lits
  hadj : c.adj_ = addEdges edges (List.replicate lits.length [])
  sized : Sized c lits.length

/-- The VertexState that corresponds to a value of the vertex literal on the trail:
Active for True, Inactive for False, Undecided for Unknown. -/
def ofValue : lbool → NodeState
  | l_True => kActive
  | l_False => kInactive
  | l_Undef => kUndecided

/-- The loop of `loadState` over the remaining indices. -/
def loadLoop {S : Type} (ops : SolverOps S) (s : S) (lits : List Lit) :
    List Nat → List NodeState → List NodeState
  | [], st => st
  | i :: is, st =>
    match ops.value s (lits.getD i (mkLit 0)) with
    | l_Undef => loadLoop ops s lits is (st.set i kUndecided)
    | l_True => loadLoop ops s lits is (st.set i kActive)
    | l_False => loadLoop ops s lits is (st.set i kInactive)

/-- The member function `loadState(solver)` (never called: its only call is commented
out in `calcReason`). -/
def loadState {S : Type} (ops : SolverOps S) (s : S) (c : ActiveVerticesConnected) :
    ActiveVerticesConnected :=
  { c with state_ := loadLoop ops s c.lits_ (List.range c.lits_.length) c.state_ }

/-- The VertexState array that the refresh loop of `propagate(solver, p)` produces,
`none` when it reaches `abort()`. -/
def refreshed {S : Type} (ops : SolverOps S) (s : S) (p : Lit)
    (c : ActiveVerticesConnected) : Option (List NodeState) :=
  refresh ops (ops.registerUndo s p.var) p c.lits_ (List.range c.lits_.length) c.state_

/-- The calls of `enqueue` that the forcing loop may make for vertex `e.vertex`: the
vertex is Undecided and either lies outside the nonempty cluster and its negated literal
is passed, or lies inside with two branches or more and its literal is passed. -/
def Justified (c : ActiveVerticesConnected) (ne : Int) (e : EnqCall) : Prop :=
  c.state e.vertex = kUndecided ∧
    ((c.clusterId e.vertex ≠ ne ∧ e.lit = (c.lit e.vertex).neg) ∨
      (c.clusterId e.vertex = ne ∧ branchCount c ne e.vertex ≥ 2 ∧ e.lit = c.lit e.vertex))

/-- The two ways in which a call of `propagate` that passed the refresh loop returns:
from the census loop with a conflict, or after the census loop completed, with the
forcing loop run when `nonempty_cluster` is set. -/
def Summary {S : Type} (ops : SolverOps S) (s : S) (p : Lit) (n : Nat)
    (r : PropagateResult S) : Prop :=
  (r.ret = false ∧ r.calls = [] ∧
    ∃ a b, a < n ∧ b < n ∧ r.self.rank a ≠ -1 ∧ r.self.rank b ≠ -1 ∧
      r.self.state a = kActive ∧ r.self.state b = kActive ∧
      r.self.clusterId a ≠ r.self.clusterId b) ∨
  (∃ ne : Int, CensusFacts r.self n ne ∧
    (∀ j, j < n → r.self.state j ≠ kInactive → r.self.rank j ≠ -1) ∧
    ((ne = -1 ∧ r.ret = true ∧ r.calls = []) ∨
      (ne ≠ -1 ∧ (r.ret, r.solver, r.calls) =
        forceLoop ops r.self ne (List.range n) (ops.registerUndo s p.var) [])))

/-- The test of line 74: `w` is a child of `v` in the depth-first tree. -/
def IsChild (c : ActiveVerticesConnected) (v w : Nat) : Prop :=
  c.rank v < c.rank w ∧ c.parent w = (v : Int)

instance (c : ActiveVerticesConnected) (v w : Nat) : Decidable (IsChild c v w) := by
  unfold IsChild; infer_instance

/-- A path along adjacency lists that avoids Inactive vertices and the vertex `v`. -/
def ConnAvoid (c : ActiveVerticesConnected) (v : Nat) : Nat → Nat → Prop :=
  Conn c (fun x => c.state x ≠ kInactive ∧ x ≠ v)

end ActiveVerticesConnected
end Minisat

namespace Minisat

/-- Modelled from the spec: the assignment trail of the host `Solver`, which is not part
of the repository files at hand. `assigns` is the value of every variable, `pending` holds
the literals that have been assigned and whose `propagate` call the host has still to make
(the propagation queue), and `undos` holds the variables for which the constraint has
called `registerUndo`. -/
structure Trail where
  assigns : Var → lbool
  pending : List Lit
  undos : List Var

namespace Trail

/-- The trail on which every variable is unassigned. -/
def empty : Trail := { assigns := fun _ => l_Undef, pending := [], undos := [] }

/-- Modelled from the spec: `value(literal)`, the value of the variable, flipped for a
negated literal. -/
def value (t : Trail) (l : Lit) : lbool := (t.assigns l.var).xor l.sign

/-- Making `l` true on the trail and queueing it for propagation. -/
def assign (t : Trail) (l : Lit) : Trail :=
  { t with
    assigns := fun x => if x = l.var then (if l.sign then l_False else l_True) else t.assigns x
    pending := t.pending ++ [l] }

/-- Modelled from the spec: `enqueue(literal, propagator)` "attempts to assign `literal`
True" and "returns false if this literal is already assigned False"; a literal that is
already True is accepted without change. The call does not run the propagators: the
literal is queued and the host calls `propagate` for it later. -/
def enqueue (t : Trail) (l : Lit) : Bool × Trail :=
  match t.value l with
  | l_True => (true, t)
  | l_False => (false, t)
  | l_Undef => (true, t.assign l)

/-- Modelled from the spec: `registerUndo(variable, propagator)`. -/
def registerUndo (t : Trail) (x : Var) : Trail := { t with undos := x :: t.undos }

/-- The three operations of the trail as the constraint sees them. -/
def ops : SolverOps Trail :=
  { assigns := assigns, enqueue := enqueue, registerUndo := registerUndo }

end Trail

namespace ActiveVerticesConnected

/-- The Boolean returned by a call of `propagate`, if it returned. -/
def retOf {S : Type} : Outcome (PropagateResult S) → Option Bool
  | Outcome.returned r => some r.ret
  | _ => none

/-- The calls of `enqueue` made by a call of `propagate`, if it returned. -/
def callsOf {S : Type} : Outcome (PropagateResult S) → Option (List EnqCall)
  | Outcome.returned r => some r.calls
  | _ => none

/-- The VertexState array left by a call of `propagate`, if it returned. -/
def stateOf {S : Type} : Outcome (PropagateResult S) → Option (List NodeState)
  | Outcome.returned r => some r.self.state_
  | _ => none

/-- The second object has the same literals, adjacency lists and VertexState as the first
and search vectors of the same sizes. -/
def SameShape (c c1 : ActiveVerticesConnected) : Prop :=
  SameStatic c c1 ∧ c1.rank_.length = c.rank_.length ∧
    c1.lowlink_.length = c.lowlink_.length ∧
    c1.subtree_active_count_.length = c.subtree_active_count_.length ∧
    c1.cluster_id_.length = c.cluster_id_.length ∧ c1.parent_.length = c.parent_.length

/-- VertexState agrees with the trail: every vertex is Active iff its literal is True,
Inactive iff it is False and Undecided iff it is Unknown. -/
def Agrees {S : Type} (ops : SolverOps S) (s : S) (c : ActiveVerticesConnected) : Prop :=
  ∀ i, i < c.lits_.length → c.state i = ofValue (ops.value s (c.lit i))

/-- The explanation in the words of the specification: for every vertex whose variable
differs from the variable of `p`, in vertex order, its literal if it is Active, the
negation of its literal if it is Inactive, and nothing if it is Undecided. -/
def reasonSpec (c : ActiveVerticesConnected) (p : Lit) : List Lit :=
  (List.range c.lits_.length).filterMap (fun i =>
    if (c.lit i).var = p.var then none
    else match c.state i with
      | kActive => some (c.lit i)
      | kInactive => some (c.lit i).neg
      | kUndecided => none)

/-- A sequence of calls `propagate(solver, p)`, each made in the solver state that the
host has reached by then; the object left by the last call, if all of them returned. -/
def propagateAll {S : Type} (ops : SolverOps S) :
    List (S × Lit) → ActiveVerticesConnected → Outcome ActiveVerticesConnected
  | [], c => Outcome.returned c
  | sp :: rest, c =>
    match propagate ops sp.1 sp.2 c with
    | Outcome.returned r => propagateAll ops rest r.self
    | Outcome.aborted => Outcome.aborted
    | Outcome.outOfFuel => Outcome.outOfFuel

/-- A sequence of calls `undo(solver, p)`. -/
def undoAll : List Lit → ActiveVerticesConnected → ActiveVerticesConnected
  | [], c => c
  | p :: ps, c => undoAll ps (undo p c)

end ActiveVerticesConnected
end Minisat

namespace Minisat

/-- What the host does to the trail and, through it, to the constraint: a literal becomes
true (by a decision or by another propagator) and is queued; the host calls `propagate`
for the literal at the head of the queue; a variable is unassigned on backtracking. -/
inductive HostEvent where
  | assign (l : Lit)
  | propagateNext
  | unassign (x : Var)
deriving DecidableEq, Repr

namespace Trail

/-- The trail after variable `x` has been unassigned. -/
def unassign (t : Trail) (x : Var) : Trail :=
  { assigns := fun y => if y = x then l_Undef else t.assigns y
    pending := t.pending.filter (fun q => q.var ≠ x)
    undos := t.undos.filter (fun y => y ≠ x) }

/-- The propagation of variable `x` is pending: a literal of `x` is in the queue. -/
def Awaits (t : Trail) (x : Var) : Prop := ∃ q ∈ t.pending, q.var = x

/-- The second trail extends the first by assignments of variables that were unassigned,
each of them queued. -/
structure Extends (t0 t : Trail) : Prop where
  keep : ∀ x, t0.assigns x ≠ l_Undef → t.assigns x = t0.assigns x
  undos : t.undos = t0.undos
  queued : ∀ q ∈ t0.pending, q ∈ t.pending
  fresh : ∀ q ∈ t.pending, q ∈ t0.pending ∨ t0.assigns q.var = l_Undef
  added : ∀ x, t0.assigns x = l_Undef → t.assigns x ≠ l_Undef → t.Awaits x

/-- Every queued literal is true, and no variable is queued twice. -/
structure QueueOk (t : Trail) : Prop where
  allTrue : ∀ q ∈ t.pending, t.value q = l_True
  nodup : (t.pending.map Lit.var).Nodup

end Trail

namespace ActiveVerticesConnected

/-- Modelled from the spec: one step of the host protocol of section 4.1. A literal that
becomes true is put on the trail and queued; `propagate(p)` is called for the queued
literals in order; when a variable is unassigned, `undo` is called if the constraint
registered for it. A call that does not return ends the run. -/
def hostStep (e : HostEvent) (t : Trail) (c : ActiveVerticesConnected) :
    Outcome (Trail × ActiveVerticesConnected) :=
  match e with
  | HostEvent.assign l =>
    if t.value l = l_Undef then Outcome.returned (t.assign l, c) else Outcome.returned (t, c)
  | HostEvent.propagateNext =>
    match t.pending with
    | [] => Outcome.returned (t, c)
    | p :: rest =>
      match propagate Trail.ops { t with pending := rest } p c with
      | Outcome.returned r => Outcome.returned (r.solver, r.self)
      | Outcome.aborted => Outcome.aborted
      | Outcome.outOfFuel => Outcome.outOfFuel
  | HostEvent.unassign x =>
    if x ∈ t.undos then Outcome.returned (t.unassign x, undo (mkLit x) c)
    else Outcome.returned (t.unassign x, c)

/-- A run of the host protocol. -/
def hostRun : List HostEvent → Trail → ActiveVerticesConnected →
    Outcome (Trail × ActiveVerticesConnected)
  | [], t, c => Outcome.returned (t, c)
  | e :: es, t, c =>
    match hostStep e t c with
    | Outcome.returned tc => hostRun es tc.1 tc.2
    | Outcome.aborted => Outcome.aborted
    | Outcome.outOfFuel => Outcome.outOfFuel

/-- The value of the literal of vertex `i` on the trail and the VertexState of vertex `i`
at the end of a run. -/
def observe (o : Outcome (Trail × ActiveVerticesConnected)) (i : Nat) :
    Option (lbool × NodeState) :=
  match o with
  | Outcome.returned tc => some (tc.1.value (tc.2.lit i), tc.2.state i)
  | _ => none

/-- The invariant of the host protocol. -/
structure HostInv (lits : List Lit) (edges : List (Nat × Nat)) (t : Trail)
    (c : ActiveVerticesConnected) : Prop where
  built : Built lits edges c
  queue : t.QueueOk
  active : ∀ i, i < lits.length → c.state i = kActive → t.value (c.lit i) = l_True
  inactive : ∀ i, i < lits.length → c.state i = kInactive → t.value (c.lit i) = l_False
  undecided : ∀ i, i < lits.length → c.state i = kUndecided →
    t.value (c.lit i) = l_Undef ∨ t.Awaits (c.lit i).var
  waiting : ∀ i, i < lits.length → t.Awaits (c.lit i).var → c.state i = kUndecided
  registered : ∀ i, i < lits.length → c.state i ≠ kUndecided → (c.lit i).var ∈ t.undos

end ActiveVerticesConnected
end Minisat

namespace Minisat

/-- A trail on which the variables `ts` are True, the variables `fs` are False and every
other variable is unassigned; nothing is queued. -/
def Trail.ofAssigned (ts fs : List Var) : Trail :=
  { assigns := fun x => if x ∈ ts then l_True else if x ∈ fs then l_False else l_Undef
    pending := []
    undos := [] }

namespace ActiveVerticesConnected

/-- The literals `x0, ..., x(n-1)`, one fresh variable for each vertex. -/
def vertexLits (n : Nat) : List Lit := (List.range n).map mkLit

/-- The edges of the path 0-1-2-3-4. -/
def pathEdges : List (Nat × Nat) := [(0, 1), (1, 2), (2, 3), (3, 4)]

/-- The VertexState left by a sequence of `propagate` calls followed by the `undo` calls
for the same literals in reverse order, if all the `propagate` calls returned. -/
def undoneState {S : Type} (ops : SolverOps S) (calls : List (S × Lit))
    (c : ActiveVerticesConnected) : Option (List NodeState) :=
  match propagateAll ops calls c with
  | Outcome.returned c1 => some (undoAll (calls.map Prod.snd).reverse c1).state_
  | _ => none

end ActiveVerticesConnected
end Minisat

namespace Minisat

/-- The integer by which MiniSat represents and orders a literal (`SolverTypes.h`, which
is not among the files at hand): `var + var + (int)sign`. -/
def Lit.toInt (p : Lit) : Nat := p.var + p.var + (if p.sign then 1 else 0)

namespace ActiveVerticesConnected

/-- The call `lits_unique.insert(l)` on a `std::set<Lit>`, kept as the list of its elements
in increasing order: nothing happens when `l` is already present. -/
def setInsert (l : Lit) : List Lit → List Lit
  | [] => [l]
  | q :: qs =>
    if l.toInt < q.toInt then l :: q :: qs
    else if q.toInt < l.toInt then q :: setInsert l qs
    else q :: qs

/-- The first loop of `getWatchers` (lines 19-22) over the remaining literals. -/
def watchLoop : List Lit → List Lit → List Lit
  | [], lits_unique => lits_unique
  | l :: ls, lits_unique => watchLoop ls (setInsert l.neg (setInsert l lits_unique))

/-- The member function `getWatchers(solver, out_watchers)`: the final `out_watchers`. -/
def getWatchers (c : ActiveVerticesConnected) (out_watchers : List Lit) : List Lit :=
  out_watchers ++ watchLoop c.lits_ []

/-- The elements of the list are in strictly increasing order of `Lit.toInt`. -/
def SetOk (s : List Lit) : Prop := s.Pairwise (fun a b => a.toInt < b.toInt)

/-- Vertex `w` is a child of `v` in the depth-first forest: `w` is a vertex for which the
test of line 74, `rank_[v] < rank_[w] && parent_[w] == v`, holds. -/
def TreeChild (c : ActiveVerticesConnected) (v w : Nat) : Prop :=
  w < c.lits_.length ∧ IsChild c v w

/-- Vertex `y` is a descendant of `v` in the depth-first forest recorded in `parent_`, or
`v` itself: the vertices of the subtree of `v`. -/
def Desc (c : ActiveVerticesConnected) : Nat → Nat → Prop :=
  Relation.ReflTransGen (TreeChild c)

/-- The object left by a call of `propagate`, if it returned. -/
def selfOf {S : Type} : Outcome (PropagateResult S) → Option ActiveVerticesConnected
  | Outcome.returned r => some r.self
  | _ => none

/-- The loop of `buildTree` (see `buildLoop`) with two ghost values that the code does not
compute: `entered`, the vertices for which `buildTree` has been entered so far, in order,
and `depth`, the greatest recursion depth reached below the current activation. -/
def buildLoopG (call : Nat → Int → Int → ActiveVerticesConnected →
      Option (Int × ActiveVerticesConnected × List Nat × Nat)) (v : Nat)
    (parent cluster_id : Int) :
    List Nat → Int → Int → ActiveVerticesConnected → List Nat → Nat →
      Option (Int × Int × ActiveVerticesConnected × List Nat × Nat)
  | [], lowlink, cnt, c, entered, depth => some (lowlink, cnt, c, entered, depth)
  | w :: ws, lowlink, cnt, c, entered, depth =>
    if (w : Int) = parent ∨ c.state w = kInactive then
      buildLoopG call v parent cluster_id ws lowlink cnt c entered depth
    else if c.rank w = -1 then
      match call w (v : Int) cluster_id c with
      | none => none
      | some (r, c1, entered1, depth1) =>
        buildLoopG call v parent cluster_id ws (min lowlink r)
          (cnt + c1.subtreeActiveCount w) c1 (entered ++ entered1) (max depth depth1)
    else
      buildLoopG call v parent cluster_id ws (min lowlink (c.rank w)) cnt c entered depth

/-- The member function `buildTree` (see `buildTree`) with the ghost results `entered`, the
vertices for which the call and its nested calls entered `buildTree`, in order, and
`depth`, the number of activations of `buildTree` that were on the call stack at the
deepest point of the call, this one included. -/
def buildTreeG : Nat → Nat → Int → Int → ActiveVerticesConnected →
    Option (Int × ActiveVerticesConnected × List Nat × Nat)
  | 0, _, _, _, _ => none
  | fuel + 1, v, parent, cluster_id, c =>
    let c1 := c.enter v parent cluster_id
    match buildLoopG (buildTreeG fuel) v parent cluster_id (c1.adj v) (c1.rank v)
        (if c1.state v = kActive then 1 else 0) c1 [v] 0 with
    | none => none
    | some (lowlink, cnt, c2, entered, depth) =>
      some (lowlink, c2.leave v lowlink cnt, entered, depth + 1)

/-- The census loop (see `census`) with the ghost values `entered`, the vertices for which
`buildTree` has been entered since the start of `propagate`, in order, and `trees`, the
root and the recursion depth of every call `buildTree(i, -1, i)` made so far. -/
def censusG (fuel : Nat) : List Nat → Int → ActiveVerticesConnected → List Nat →
    List (Nat × Nat) → Census × List Nat × List (Nat × Nat)
  | [], nonempty_cluster, c, entered, trees => (Census.done nonempty_cluster c, entered, trees)
  | i :: is, nonempty_cluster, c, entered, trees =>
    if c.state i ≠ kInactive ∧ c.rank i = kUnvisited then
      match buildTreeG fuel i (-1) (i : Int) c with
      | none => (Census.outOfFuel, entered, trees)
      | some (_, c1, entered1, depth1) =>
        if c1.subtreeActiveCount i ≥ 1 then
          if nonempty_cluster ≠ -1 then
            (Census.conflict c1, entered ++ entered1, trees ++ [(i, depth1)])
          else censusG fuel is (i : Int) c1 (entered ++ entered1) (trees ++ [(i, depth1)])
        else censusG fuel is nonempty_cluster c1 (entered ++ entered1)
          (trees ++ [(i, depth1)])
    else censusG fuel is nonempty_cluster c entered trees

/-- The vertices in `entered` are the vertices visited since the state `c0`, and they got
the ranks `c0.next_rank_`, `c0.next_rank_ + 1`, ... in the order of the list. -/
structure LogInv (c0 ci : ActiveVerticesConnected) (n : Nat) (entered : List Nat) : Prop where
  ranks : entered.map ci.rank =
    (List.range entered.length).map (fun (i : Nat) => c0.next_rank_ + (i : Int))
  next : ci.next_rank_ = c0.next_rank_ + (entered.length : Int)
  fresh : ∀ x ∈ entered, x < n ∧ c0.rank x = -1
  all : ∀ x, x < n → c0.rank x = -1 → ci.rank x ≠ -1 → x ∈ entered

/-- The statement proved by induction on the fuel about the ghost results of `buildTreeG`. -/
def GhostOk (fuel n : Nat) : Prop :=
  ∀ (c : ActiveVerticesConnected) (v : Nat) (par cid : Int), Pre c n v par fuel →
    ∃ low c1 entered depth, buildTreeG fuel v par cid c = some (low, c1, entered, depth) ∧
      LogInv c c1 n entered ∧ 1 ≤ depth ∧ depth ≤ entered.length

/-- The invariant of the census loop with ghost values, started in the state `z` in which no
vertex is visited: the vertices entered so far are the visited ones, with the ranks
`0, 1, ...` in the order of entering; the cluster id of a visited vertex is a vertex not
above it; the trees recorded are the visited roots, and the recursion depth recorded for a
tree is at most the size of any set that holds the connected component of its root. -/
structure GhostInv (lits : List Lit) (edges : List (Nat × Nat)) (z c : ActiveVerticesConnected)
    (entered : List Nat) (trees : List (Nat × Nat)) : Prop where
  forest : Forest c lits.length
  built : Built lits edges c
  zero : z.next_rank_ = 0
  unvisited : ∀ x, x < lits.length → z.rank x = -1
  log : LogInv z c lits.length entered
  least : ∀ x, x < lits.length → c.rank x ≠ -1 → ∃ r : Nat, c.clusterId x = (r : Int) ∧ r ≤ x
  depth : ∀ kd ∈ trees, ∀ R : Finset Nat,
    (∀ y, y < lits.length → Connected edges c.state_ kd.1 y → y ∈ R) →
      1 ≤ kd.2 ∧ kd.2 ≤ R.card
  roots : ∀ k, (∃ d, (k, d) ∈ trees) ↔ k < lits.length ∧ c.rank k ≠ -1 ∧ c.parent k = -1

end ActiveVerticesConnected
end Minisat

/-! ## Theorems -/

namespace Minisat
namespace ActiveVerticesConnected

/-! ### Reading and writing the vectors -/

theorem getD_set {α : Type} (l : List α) (i j : Nat) (a d : α) :
    (l.set i a).getD j d = if i = j ∧ i < l.length then a else l.getD j d := by
  simp only [List.getD_eq_getElem?_getD, List.getElem?_set]
  by_cases h : i = j
  · subst h
    by_cases hl : i < l.length
    · simp [hl]
    · simp [hl]
      rw [List.getElem?_eq_none (by omega)]
      rfl
  · simp [h]

theorem sameStatic_refl (c : ActiveVerticesConnected) : SameStatic c c := ⟨rfl, rfl, rfl⟩

theorem SameStatic.andThen {a b c : ActiveVerticesConnected} (h1 : SameStatic a b)
    (h2 : SameStatic b c) : SameStatic a c :=
  ⟨h2.1.trans h1.1, h2.2.1.trans h1.2.1, h2.2.2.trans h1.2.2⟩

theorem SameStatic.state_eq {a b : ActiveVerticesConnected} (h : SameStatic a b) (x : Nat) :
    b.state x = a.state x := by
  unfold state; rw [h.2.2]

theorem SameStatic.adj_eq {a b : ActiveVerticesConnected} (h : SameStatic a b) (x : Nat) :
    b.adj x = a.adj x := by
  unfold adj; rw [h.2.1]

theorem SameStatic.lit_eq {a b : ActiveVerticesConnected} (h : SameStatic a b) (x : Nat) :
    b.lit x = a.lit x := by
  unfold lit; rw [h.1]

theorem enter_static (c : ActiveVerticesConnected) (v : Nat) (p k : Int) :
    SameStatic c (c.enter v p k) := ⟨rfl, rfl, rfl⟩

theorem leave_static (c : ActiveVerticesConnected) (v : Nat) (l k : Int) :
    SameStatic c (c.leave v l k) := ⟨rfl, rfl, rfl⟩

theorem enter_sized {c : ActiveVerticesConnected} {n : Nat} (h : Sized c n) (v : Nat)
    (p k : Int) : Sized (c.enter v p k) n := by
  constructor <;> simp [enter, h.lits, h.adj, h.state, h.rank, h.lowlink, h.cnt, h.cid, h.par]

theorem leave_sized {c : ActiveVerticesConnected} {n : Nat} (h : Sized c n) (v : Nat)
    (l k : Int) : Sized (c.leave v l k) n := by
  constructor <;> simp [leave, h.lits, h.adj, h.state, h.rank, h.lowlink, h.cnt, h.cid, h.par]

theorem enter_rank {c : ActiveVerticesConnected} {n : Nat} (h : Sized c n) {v : Nat}
    (hv : v < n) (p k : Int) (x : Nat) :
    (c.enter v p k).rank x = if x = v then c.next_rank_ else c.rank x := by
  simp only [enter, rank, getD_set, h.rank, hv, and_true]
  by_cases hx : x = v
  · simp [hx]
  · simp [hx, Ne.symm hx]

theorem enter_parent {c : ActiveVerticesConnected} {n : Nat} (h : Sized c n) {v : Nat}
    (hv : v < n) (p k : Int) (x : Nat) :
    (c.enter v p k).parent x = if x = v then p else c.parent x := by
  simp only [enter, parent, getD_set, h.par, hv, and_true]
  by_cases hx : x = v
  · simp [hx]
  · simp [hx, Ne.symm hx]

theorem enter_clusterId {c : ActiveVerticesConnected} {n : Nat} (h : Sized c n) {v : Nat}
    (hv : v < n) (p k : Int) (x : Nat) :
    (c.enter v p k).clusterId x = if x = v then k else c.clusterId x := by
  simp only [enter, clusterId, getD_set, h.cid, hv, and_true]
  by_cases hx : x = v
  · simp [hx]
  · simp [hx, Ne.symm hx]

theorem enter_lowlink (c : ActiveVerticesConnected) (v : Nat) (p k : Int) (x : Nat) :
    (c.enter v p k).lowlink x = c.lowlink x := rfl

theorem enter_count (c : ActiveVerticesConnected) (v : Nat) (p k : Int) (x : Nat) :
    (c.enter v p k).subtreeActiveCount x = c.subtreeActiveCount x := rfl

theorem enter_next (c : ActiveVerticesConnected) (v : Nat) (p k : Int) :
    (c.enter v p k).next_rank_ = c.next_rank_ + 1 := rfl

theorem leave_rank (c : ActiveVerticesConnected) (v : Nat) (l k : Int) (x : Nat) :
    (c.leave v l k).rank x = c.rank x := rfl

theorem leave_parent (c : ActiveVerticesConnected) (v : Nat) (l k : Int) (x : Nat) :
    (c.leave v l k).parent x = c.parent x := rfl

theorem leave_clusterId (c : ActiveVerticesConnected) (v : Nat) (l k : Int) (x : Nat) :
    (c.leave v l k).clusterId x = c.clusterId x := rfl

theorem leave_next (c : ActiveVerticesConnected) (v : Nat) (l k : Int) :
    (c.leave v l k).next_rank_ = c.next_rank_ := rfl

theorem leave_lowlink {c : ActiveVerticesConnected} {n : Nat} (h : Sized c n) {v : Nat}
    (hv : v < n) (l k : Int) (x : Nat) :
    (c.leave v l k).lowlink x = if x = v then l else c.lowlink x := by
  simp only [leave, lowlink, getD_set, h.lowlink, hv, and_true]
  by_cases hx : x = v
  · simp [hx]
  · simp [hx, Ne.symm hx]

theorem leave_count {c : ActiveVerticesConnected} {n : Nat} (h : Sized c n) {v : Nat}
    (hv : v < n) (l k : Int) (x : Nat) :
    (c.leave v l k).subtreeActiveCount x = if x = v then k else c.subtreeActiveCount x := by
  simp only [leave, subtreeActiveCount, getD_set, h.cnt, hv, and_true]
  by_cases hx : x = v
  · simp [hx]
  · simp [hx, Ne.symm hx]

/-! ### Traces of `buildTree` -/

theorem sameAt_refl (c : ActiveVerticesConnected) (x : Nat) : SameAt c c x :=
  ⟨rfl, rfl, rfl, rfl, rfl⟩

theorem SameAt.andThenAt {a b c : ActiveVerticesConnected} {x : Nat} (h1 : SameAt a b x)
    (h2 : SameAt b c x) : SameAt a c x :=
  ⟨h2.1.trans h1.1, h2.2.1.trans h1.2.1, h2.2.2.1.trans h1.2.2.1,
    h2.2.2.2.1.trans h1.2.2.2.1, h2.2.2.2.2.trans h1.2.2.2.2⟩

theorem Tr.root_mem {c : ActiveVerticesConnected} {v : Nat} {ws : List Nat} {S : Finset Nat}
    {cnt low : Int} (h : Tr c v ws S cnt low) : v ∈ S := by
  induction h with
  | leaf v _ _ _ => simp
  | skip w _ _ _ ih => exact ih
  | child w Sw _ _ _ _ _ _ _ ih _ => exact Finset.mem_union_left _ ih
  | back z _ _ _ _ _ ih => exact ih

theorem Tr.root_ok {c : ActiveVerticesConnected} {v : Nat} {ws : List Nat} {S : Finset Nat}
    {cnt low : Int} (h : Tr c v ws S cnt low) :
    v < c.lits_.length ∧ c.state v ≠ kInactive ∧ c.rank v ≠ -1 := by
  induction h with
  | leaf v h1 h2 h3 => exact ⟨h1, h2, h3⟩
  | skip w _ _ _ ih => exact ih
  | child w Sw _ _ _ _ _ _ _ ih _ => exact ih
  | back z _ _ _ _ _ ih => exact ih

theorem Tr.mem_ok {c : ActiveVerticesConnected} {v : Nat} {ws : List Nat} {S : Finset Nat}
    {cnt low : Int} (h : Tr c v ws S cnt low) :
    ∀ y ∈ S, y < c.lits_.length ∧ c.state y ≠ kInactive ∧ c.rank y ≠ -1 ∧
      c.rank v ≤ c.rank y ∧ c.clusterId y = c.clusterId v := by
  induction h with
  | leaf v h1 h2 h3 =>
    intro y hy
    simp at hy
    subst hy
    exact ⟨h1, h2, h3, le_refl _, rfl⟩
  | skip w _ _ _ ih => exact ih
  | @child v ws S cnt low w Sw ht _ _ hcid hlt _ _ ih ihw =>
    intro y hy
    rcases Finset.mem_union.mp hy with hy | hy
    · exact ih y hy
    · obtain ⟨a, b, d, e, f⟩ := ihw y hy
      have := hlt v ht.root_mem
      exact ⟨a, b, d, by omega, by rw [f, hcid]⟩
  | back z _ _ _ _ _ ih => exact ih

theorem Tr.count_eq {c : ActiveVerticesConnected} {v : Nat} {ws : List Nat} {S : Finset Nat}
    {cnt low : Int} (h : Tr c v ws S cnt low) :
    cnt = ((S.filter (fun y => c.state y = kActive)).card : Int) := by
  induction h with
  | leaf v h1 h2 h3 =>
    by_cases hs : c.state v = kActive
    · simp [hs, Finset.filter_singleton]
    · simp [hs, Finset.filter_singleton]
  | skip w _ _ _ ih => exact ih
  | @child v ws S cnt low w Sw ht _ _ hcid hlt _ hd ih ihw =>
    rw [Finset.filter_union, Finset.card_union_of_disjoint, Nat.cast_add, ← ih, ← ihw]
    exact Finset.disjoint_filter_filter hd
  | back z _ _ _ _ _ ih => exact ih

/-- Every processed neighbour that is not Inactive has been visited. -/
theorem Tr.processed_visited {c : ActiveVerticesConnected} {v : Nat} {ws : List Nat}
    {S : Finset Nat} {cnt low : Int} (h : Tr c v ws S cnt low) :
    ∀ z ∈ ws, c.state z ≠ kInactive → c.rank z ≠ -1 := by
  induction h with
  | leaf v h1 h2 h3 => intro z hz; simp at hz
  | skip w _ _ hw ih =>
    intro z hz hst
    rcases List.mem_append.mp hz with hz | hz
    · exact ih z hz hst
    · simp at hz; subst hz; exact hw hst
  | @child v ws S cnt low w Sw ht _ _ hcid hlt hw hd ih ihw =>
    intro z hz hst
    rcases List.mem_append.mp hz with hz | hz
    · exact ih z hz hst
    · simp at hz; subst hz; exact hw.root_ok.2.2
  | back z _ _ _ hz2 _ ih =>
    intro z1 hz hst
    rcases List.mem_append.mp hz with hz | hz
    · exact ih z1 hz hst
    · simp at hz; subst hz; exact hz2

/-- The visited set is closed: every neighbour, not Inactive, of a vertex of a complete
activation other than its root has been visited; for the root, the processed ones. -/
theorem Tr.closed_below {c : ActiveVerticesConnected} {v : Nat} {ws : List Nat}
    {S : Finset Nat} {cnt low : Int} (h : Tr c v ws S cnt low) :
    ∀ x ∈ S, x ≠ v → ∀ z ∈ c.adj x, c.state z ≠ kInactive → c.rank z ≠ -1 := by
  induction h with
  | leaf v h1 h2 h3 => intro x hx hne; simp at hx; exact absurd hx hne
  | skip w _ _ hw ih => exact ih
  | @child v ws S cnt low w Sw ht _ _ hcid hlt hw hd ih ihw =>
    intro x hx hne z hz hst
    rcases Finset.mem_union.mp hx with hx | hx
    · exact ih x hx hne z hz hst
    · by_cases hxw : x = w
      · subst hxw
        exact hw.processed_visited z hz hst
      · exact ihw x hx hxw z hz hst
  | back z _ _ _ hz2 _ ih => exact ih

theorem Done.closed_all {c : ActiveVerticesConnected} {v : Nat} {S : Finset Nat} (h : Done c v S) :
    ∀ x ∈ S, ∀ z ∈ c.adj x, c.state z ≠ kInactive → c.rank z ≠ -1 := by
  intro x hx z hz hst
  by_cases hxv : x = v
  · subst hxv; exact Tr.processed_visited h z hz hst
  · exact Tr.closed_below h x hx hxv z hz hst

/-- A trace only depends on the fields of the vertices it visited. -/
theorem Tr.stable {c c1 : ActiveVerticesConnected} {v : Nat} {ws : List Nat}
    {S : Finset Nat} {cnt low : Int} (h : Tr c v ws S cnt low) (hs : SameStatic c c1)
    (h1 : ∀ x, c.rank x ≠ -1 → c1.rank x = c.rank x ∧ c1.parent x = c.parent x ∧
      c1.clusterId x = c.clusterId x)
    (h2 : ∀ x ∈ S, x ≠ v → c1.lowlink x = c.lowlink x ∧
      c1.subtreeActiveCount x = c.subtreeActiveCount x) :
    Tr c1 v ws S cnt low := by
  induction h with
  | leaf v ha hb hc =>
    have := Tr.leaf (c := c1) v (by rw [hs.1]; exact ha) (by rw [hs.state_eq]; exact hb)
      (by rw [(h1 v hc).1]; exact hc)
    rw [hs.state_eq, (h1 v hc).1] at this
    exact this
  | @skip v ws S cnt low w ht hw hw2 ih =>
    have hv := ht.root_ok.2.2
    refine Tr.skip w (ih h2) ?_ ?_
    · rw [(h1 v hv).2.1, hs.state_eq]; exact hw
    · rw [hs.state_eq]
      intro hst
      rw [(h1 w (hw2 hst)).1]; exact hw2 hst
  | @child v ws S cnt low w Sw ht hwp hpar hcid hlt hw hd ih ihw =>
    have hv := ht.root_ok.2.2
    have hwv := hw.root_ok.2.2
    have hvS := ht.root_mem
    have hwS := hw.root_mem
    have hwne : w ≠ v := by
      intro e; subst e
      exact (Finset.disjoint_left.mp hd hvS) hwS
    have e2 := h2 w (Finset.mem_union_right _ hwS) hwne
    have ihw2 := ihw (fun x hx hxw => h2 x (Finset.mem_union_right _ hx) (by
      intro e; subst e
      exact (Finset.disjoint_left.mp hd hvS) hx))
    have ih2 := ih (fun x hx hxv => h2 x (Finset.mem_union_left _ hx) hxv)
    rw [← e2.1, ← e2.2, ← hs.adj_eq] at ihw2
    have := Tr.child (c := c1) w Sw ih2 (by rw [(h1 v hv).2.1]; exact hwp)
      (by rw [(h1 w hwv).2.1]; exact hpar)
      (by rw [(h1 w hwv).2.2, (h1 v hv).2.2]; exact hcid)
      (by
        intro y hy
        have hy2 := (ht.mem_ok y hy).2.2.1
        rw [(h1 y hy2).1, (h1 w hwv).1]; exact hlt y hy)
      ihw2 hd
    rw [e2.1, e2.2] at this
    exact this
  | @back v ws S cnt low z ht hzp hst hz hold ih =>
    have hv := ht.root_ok.2.2
    have := Tr.back (c := c1) z (ih h2) (by rw [(h1 v hv).2.1]; exact hzp)
      (by rw [hs.state_eq]; exact hst) (by rw [(h1 z hz).1]; exact hz)
      (by rw [(h1 z hz).1, (h1 v hv).1]; exact hold)
    rw [(h1 z hz).1] at this
    exact this

/-! ### `buildTree` runs to completion and meets its postcondition -/

theorem unvisitedCount_mono {c d : ActiveVerticesConnected} {n : Nat}
    (h : ∀ x, x < n → d.rank x = -1 → c.rank x = -1) :
    unvisitedCount d n ≤ unvisitedCount c n := by
  unfold unvisitedCount
  apply Finset.card_le_card
  intro x hx
  simp only [Finset.mem_filter, Finset.mem_range] at hx ⊢
  exact ⟨hx.1, h x hx.1 hx.2⟩

theorem unvisitedCount_lt {c d : ActiveVerticesConnected} {n v : Nat}
    (h : ∀ x, x < n → d.rank x = -1 → c.rank x = -1) (hv : v < n) (h0 : c.rank v = -1)
    (h1 : d.rank v ≠ -1) : unvisitedCount d n < unvisitedCount c n := by
  unfold unvisitedCount
  apply Finset.card_lt_card
  rw [Finset.ssubset_iff_of_subset]
  · refine ⟨v, ?_, ?_⟩
    · simp [hv, h0]
    · simp [h1]
  · intro x hx
    simp only [Finset.mem_filter, Finset.mem_range] at hx ⊢
    exact ⟨hx.1, h x hx.1 hx.2⟩

theorem AdjBound.bound_of_static {c c1 : ActiveVerticesConnected} {n : Nat} (h : AdjBound c n)
    (hs : SameStatic c c1) : AdjBound c1 n := by
  intro x w hw
  rw [hs.adj_eq] at hw
  exact h x w hw

/-- Entering `v` establishes the loop invariant with no neighbour processed. -/
theorem enter_loopInv {c : ActiveVerticesConnected} {n v : Nat} {par : Int} {fuel : Nat}
    (cid : Int) (h : Pre c n v par (fuel + 1)) :
    LoopInv c n v par cid [] ((c.enter v par cid).rank v)
      (if (c.enter v par cid).state v = kActive then 1 else 0) (c.enter v par cid) fuel := by
  have hsz := h.sized
  have hv := h.hv
  have hR := h.rankInv
  have er := fun x => enter_rank hsz hv par cid x
  have hvr : (c.enter v par cid).rank v = c.next_rank_ := by rw [er]; simp
  have hvis : (c.enter v par cid).rank v ≠ -1 := by
    rw [hvr]; have := hR.nonneg; omega
  have hne : ∀ x, c.rank x ≠ -1 → x ≠ v := by
    intro x hx e; subst e; exact hx h.unvisited
  have hsame : ∀ x, x ≠ v → (c.enter v par cid).rank x = c.rank x := by
    intro x hx; rw [er]; simp [hx]
  refine
    { sized := enter_sized hsz v par cid
      static := enter_static c v par cid
      adjBound := h.adjBound.bound_of_static (enter_static c v par cid)
      rankInv := ?_
      hv := hv
      frame := ?_
      tree := ?_
      hpar := by rw [enter_parent hsz hv]; simp
      hcid := by rw [enter_clusterId hsz hv]; simp
      hrank := hvr
      parVisited := ?_
      newRanks := ?_
      oldRanks := fun x hx hxr => (hR.bound x hx hxr).2
      fuel := ?_ }
  · refine ⟨?_, ?_, ?_⟩
    · rw [enter_next]; have := hR.nonneg; omega
    · intro x hx hxr
      rw [enter_next]
      by_cases hxv : x = v
      · subst hxv; rw [hvr]; have := hR.nonneg; omega
      · rw [hsame x hxv] at hxr ⊢
        have := hR.bound x hx hxr; omega
    · intro x y hx hy hxr hxy
      by_cases hxv : x = v
      · by_cases hyv : y = v
        · rw [hxv, hyv]
        · subst hxv
          rw [hvr, hsame y hyv] at hxy
          have hyr : c.rank y ≠ -1 := by rw [← hxy]; have := hR.nonneg; omega
          have := hR.bound y hy hyr; omega
      · by_cases hyv : y = v
        · subst hyv
          rw [hvr, hsame x hxv] at hxy
          rw [hsame x hxv] at hxr
          have := hR.bound x hx hxr; omega
        · rw [hsame x hxv, hsame y hyv] at hxy
          rw [hsame x hxv] at hxr
          exact hR.inj x y hx hy hxr hxy
  · intro x hx
    have hxv := hne x hx
    refine ⟨hsame x hxv, ?_, ?_, rfl, rfl⟩
    · rw [enter_parent hsz hv]; simp [hxv]
    · rw [enter_clusterId hsz hv]; simp [hxv]
  · refine ⟨{v}, ?_, ?_⟩
    · intro x
      simp only [Finset.mem_singleton]
      constructor
      · intro e; subst e; exact ⟨hv, h.unvisited, hvis⟩
      · intro ⟨_, h0, h1⟩
        by_contra hxv
        rw [hsame x hxv] at h1
        exact h1 h0
    · exact Tr.leaf v (by rw [(enter_static c v par cid).1, hsz.lits]; exact hv)
        (by rw [(enter_static c v par cid).state_eq]; exact h.alive) hvis
  · intro p hp
    have := h.parVisited p hp
    rw [hsame p (hne p this)]; exact this
  · intro x hx h0 h1
    by_cases hxv : x = v
    · subst hxv; rw [hvr]
    · rw [hsame x hxv] at h1; exact absurd h0 h1
  · have := unvisitedCount_lt (c := c) (d := c.enter v par cid) (n := n) (v := v) (by
      intro x _ hx1
      by_cases hxv : x = v
      · subst hxv; exact h.unvisited
      · rw [hsame x hxv] at hx1; exact hx1) hv h.unvisited hvis
    have := h.fuel
    omega

theorem LoopInv.root_visited {c0 : ActiveVerticesConnected} {n v : Nat} {par cid : Int}
    {done : List Nat} {low cnt : Int} {ci : ActiveVerticesConnected} {fuel : Nat}
    (h : LoopInv c0 n v par cid done low cnt ci fuel) : ci.rank v ≠ -1 := by
  obtain ⟨S, _, ht⟩ := h.tree
  exact ht.root_ok.2.2

theorem LoopInv.next_le {c0 : ActiveVerticesConnected} {n v : Nat} {par cid : Int}
    {done : List Nat} {low cnt : Int} {ci : ActiveVerticesConnected} {fuel : Nat}
    (h : LoopInv c0 n v par cid done low cnt ci fuel) : c0.next_rank_ < ci.next_rank_ := by
  have := h.rankInv.bound v h.hv h.root_visited
  rw [h.hrank] at this
  exact this.2

theorem buildLoop_ok {fuel n : Nat} (IH : BuildOk fuel n) {c0 : ActiveVerticesConnected}
    {v : Nat} {par cid : Int} :
    ∀ (rest done : List Nat) (low cnt : Int) (ci : ActiveVerticesConnected),
      LoopInv c0 n v par cid done low cnt ci fuel → (∀ w ∈ rest, w < n) →
      ∃ low1 cnt1 c1, buildLoop (buildTree fuel) v par cid rest low cnt ci
          = some (low1, cnt1, c1) ∧
        LoopInv c0 n v par cid (done ++ rest) low1 cnt1 c1 fuel := by
  intro rest
  induction rest with
  | nil =>
    intro done low cnt ci h _
    exact ⟨low, cnt, ci, rfl, by simpa using h⟩
  | cons w rest ih =>
    intro done low cnt ci h hb
    have hw : w < n := hb w (List.mem_cons_self _ _)
    have hb2 : ∀ w ∈ rest, w < n := fun x hx => hb x (List.mem_cons_of_mem _ hx)
    have happ : done ++ w :: rest = (done ++ [w]) ++ rest := by simp
    obtain ⟨S, hS, ht⟩ := h.tree
    by_cases hskip : (w : Int) = par ∨ ci.state w = kInactive
    · -- the neighbour is skipped
      have hinv : LoopInv c0 n v par cid (done ++ [w]) low cnt ci fuel :=
        { h with
          tree := ⟨S, hS, Tr.skip w ht (by rw [h.hpar]; exact hskip) (by
            intro hst
            rcases hskip with hp | hi
            · exact h.parVisited w hp
            · exact absurd hi hst)⟩ }
      obtain ⟨l1, k1, c1, e, hres⟩ := ih (done ++ [w]) low cnt ci hinv hb2
      refine ⟨l1, k1, c1, ?_, by rw [happ]; exact hres⟩
      rw [buildLoop, if_pos hskip]; exact e
    · have hwp : ¬ (w : Int) = par := fun e => hskip (Or.inl e)
      have hwst : ci.state w ≠ kInactive := fun e => hskip (Or.inr e)
      by_cases hun : ci.rank w = -1
      · -- the neighbour is unvisited: recursive call
        have hpre : Pre ci n w (v : Int) fuel :=
          { sized := h.sized
            adjBound := h.adjBound
            rankInv := h.rankInv
            hv := hw
            unvisited := hun
            alive := hwst
            parVisited := by
              intro p hp
              have : p = v := by exact_mod_cast hp
              subst this; exact h.root_visited
            fuel := h.fuel }
        obtain ⟨r, c1, ecall, hpost⟩ := IH ci w (v : Int) cid hpre
        obtain ⟨Sw, hSw, hdone⟩ := hpost.tree
        have hfr : ∀ x, ci.rank x ≠ -1 → SameAt ci c1 x := hpost.frame
        have hvv := h.root_visited
        have hdisj : Disjoint S Sw := by
          rw [Finset.disjoint_left]
          intro x hx hx2
          exact ((hS x).mp hx).2.2 ((hSw x).mp hx2).2.1
        have ht1 : Tr c1 v done S cnt low :=
          ht.stable hpost.static (fun x hx => ⟨(hfr x hx).1, (hfr x hx).2.1, (hfr x hx).2.2.1⟩)
            (fun x hx _ => ⟨(hfr x ((hS x).mp hx).2.2).2.2.2.1,
              (hfr x ((hS x).mp hx).2.2).2.2.2.2⟩)
        have htree : Tr c1 v (done ++ [w]) (S ∪ Sw) (cnt + c1.subtreeActiveCount w)
            (min low (c1.lowlink w)) := by
          refine Tr.child w Sw ht1 ?_ hpost.hpar ?_ ?_ hdone hdisj
          · rw [(hfr v hvv).2.1, h.hpar]; exact hwp
          · rw [hpost.hcid, (hfr v hvv).2.2.1, h.hcid]
          · intro y hy
            have hy2 := (hS y).mp hy
            rw [(hfr y hy2.2.2).1, hpost.hrank]
            exact (h.rankInv.bound y hy2.1 hy2.2.2).2
        have hinv : LoopInv c0 n v par cid (done ++ [w]) (min low r)
            (cnt + c1.subtreeActiveCount w) c1 fuel :=
          { sized := hpost.sized
            static := h.static.andThen hpost.static
            adjBound := h.adjBound.bound_of_static hpost.static
            rankInv := hpost.rankInv
            hv := h.hv
            frame := by
              intro x hx
              have h1 := h.frame x hx
              exact h1.andThenAt (hfr x (by rw [h1.1]; exact hx))
            tree := by
              refine ⟨S ∪ Sw, ?_, by rw [hpost.hlow]; exact htree⟩
              intro x
              rw [Finset.mem_union, hS, hSw]
              constructor
              · rintro (⟨a, b, d⟩ | ⟨a, b, d⟩)
                · exact ⟨a, b, by rw [(hfr x d).1]; exact d⟩
                · refine ⟨a, ?_, d⟩
                  by_contra hx0
                  exact (by rw [(h.frame x hx0).1]; exact hx0 : ci.rank x ≠ -1) b
              · rintro ⟨a, b, d⟩
                by_cases hxi : ci.rank x = -1
                · exact Or.inr ⟨a, hxi, d⟩
                · exact Or.inl ⟨a, b, hxi⟩
            hpar := by rw [(hfr v hvv).2.1]; exact h.hpar
            hcid := by rw [(hfr v hvv).2.2.1]; exact h.hcid
            hrank := by rw [(hfr v hvv).1]; exact h.hrank
            parVisited := by
              intro p hp
              have := h.parVisited p hp
              rw [(hfr p this).1]; exact this
            newRanks := by
              intro x hx h0 h1
              by_cases hxi : ci.rank x = -1
              · have := hpost.newRanks x hx hxi h1
                have := h.next_le
                omega
              · rw [(hfr x hxi).1]; exact h.newRanks x hx h0 hxi
            oldRanks := h.oldRanks
            fuel := by
              have := unvisitedCount_mono (c := ci) (d := c1) (n := n) (by
                intro x _ hx1
                by_contra hx0
                rw [(hfr x hx0).1] at hx1
                exact hx0 hx1)
              have := h.fuel
              omega }
        obtain ⟨l1, k1, c2, e, hres⟩ := ih (done ++ [w]) _ _ c1 hinv hb2
        refine ⟨l1, k1, c2, ?_, by rw [happ]; exact hres⟩
        rw [buildLoop, if_neg hskip, if_pos hun, ecall]; exact e
      · -- the neighbour was visited before
        have hinv : LoopInv c0 n v par cid (done ++ [w]) (min low (ci.rank w)) cnt ci fuel :=
          { h with
            tree := ⟨S, hS, Tr.back w ht (by rw [h.hpar]; exact hwp) hwst hun (by
              by_cases h0 : c0.rank w = -1
              · exact Or.inl ((hS w).mpr ⟨hw, h0, hun⟩)
              · right
                rw [(h.frame w h0).1, h.hrank]
                exact h.oldRanks w hw h0)⟩ }
        obtain ⟨l1, k1, c1, e, hres⟩ := ih (done ++ [w]) _ cnt ci hinv hb2
        refine ⟨l1, k1, c1, ?_, by rw [happ]; exact hres⟩
        rw [buildLoop, if_neg hskip, if_neg hun]; exact e

theorem buildTree_ok (n : Nat) : ∀ fuel, BuildOk fuel n := by
  intro fuel
  induction fuel with
  | zero =>
    intro c v par cid h
    exfalso
    have h1 : 0 < unvisitedCount c n := by
      unfold unvisitedCount
      apply Finset.card_pos.mpr
      exact ⟨v, by simp [h.hv, h.unvisited]⟩
    have := h.fuel
    omega
  | succ fuel IH =>
    intro c v par cid h
    have hinv := enter_loopInv cid h
    have hadj : ∀ w ∈ (c.enter v par cid).adj v, w < n := fun w hw => hinv.adjBound v w hw
    obtain ⟨low, cnt, c2, e, hL⟩ := buildLoop_ok IH _ [] _ _ _ hinv hadj
    refine ⟨low, c2.leave v low cnt, ?_, ?_⟩
    · simp only [buildTree]
      rw [e]
    · have hsz := hL.sized
      have hv := h.hv
      obtain ⟨S, hS, ht⟩ := hL.tree
      have hst : SameStatic c2 (c2.leave v low cnt) := leave_static c2 v low cnt
      have hne : ∀ x, c.rank x ≠ -1 → x ≠ v := by
        intro x hx e; subst e; exact hx h.unvisited
      refine
        { sized := leave_sized hsz v low cnt
          static := hL.static.andThen hst
          rankInv := ⟨hL.rankInv.nonneg, hL.rankInv.bound, hL.rankInv.inj⟩
          frame := ?_
          tree := ⟨S, hS, ?_⟩
          hlow := by rw [leave_lowlink hsz hv]; simp
          hpar := hL.hpar
          hcid := hL.hcid
          hrank := hL.hrank
          newRanks := hL.newRanks }
      · intro x hx
        have h1 := hL.frame x hx
        have hxv := hne x hx
        refine ⟨h1.1, h1.2.1, h1.2.2.1, ?_, ?_⟩
        · rw [leave_lowlink hsz hv]; simp [hxv]; exact h1.2.2.2.1
        · rw [leave_count hsz hv]; simp [hxv]; exact h1.2.2.2.2
      · have ht2 : Tr (c2.leave v low cnt) v ([] ++ (c.enter v par cid).adj v) S cnt low :=
          ht.stable hst (fun x _ => ⟨rfl, rfl, rfl⟩) (fun x _ hxv => by
            constructor
            · rw [leave_lowlink hsz hv]; simp [hxv]
            · rw [leave_count hsz hv]; simp [hxv])
        unfold Done
        have e1 : (c2.leave v low cnt).adj v = (c.enter v par cid).adj v := by
          rw [hst.adj_eq, hL.static.adj_eq, (enter_static c v par cid).adj_eq]
        have e2 : (c2.leave v low cnt).subtreeActiveCount v = cnt := by
          rw [leave_count hsz hv]; simp
        have e3 : (c2.leave v low cnt).lowlink v = low := by
          rw [leave_lowlink hsz hv]; simp
        rw [e1, e2, e3]
        simpa using ht2

/-! ### The census loop builds a forest of connected components -/

theorem Done.stable_done {c c1 : ActiveVerticesConnected} {v : Nat} {S : Finset Nat}
    (h : Done c v S) (hs : SameStatic c c1) (hf : ∀ x ∈ S, SameAt c c1 x)
    (hr : ∀ x, c.rank x ≠ -1 → c1.rank x = c.rank x ∧ c1.parent x = c.parent x ∧
      c1.clusterId x = c.clusterId x) : Done c1 v S := by
  unfold Done at h ⊢
  have hv := hf v h.root_mem
  rw [hs.adj_eq, hv.2.2.2.1, hv.2.2.2.2]
  exact Tr.stable h hs hr (fun x hx _ => ⟨(hf x hx).2.2.2.1, (hf x hx).2.2.2.2⟩)

theorem AdjSymm.symm_of_static {c c1 : ActiveVerticesConnected} (h : AdjSymm c)
    (hs : SameStatic c c1) : AdjSymm c1 := by
  intro x w hw
  rw [hs.adj_eq] at hw ⊢
  exact h x w hw

/-- Building one more tree, from an unvisited root, keeps the forest invariant. -/
theorem Forest.grow {c c1 : ActiveVerticesConnected} {n i : Nat} {low : Int}
    (hF : Forest c n) (hi0 : c.rank i = -1)
    (hP : Post c n i (-1) (i : Int) low c1) : Forest c1 n := by
  obtain ⟨T, hT, hdone⟩ := hP.tree
  have hfr := hP.frame
  have hst := hP.static
  have hin : i < n := by
    have := hdone.root_ok.1; rw [hP.sized.lits] at this; exact this
  have hnew : ∀ x, x < n → c1.rank x ≠ -1 → c.rank x = -1 → x ∈ T :=
    fun x hx h1 h0 => (hT x).mpr ⟨hx, h0, h1⟩
  have hcidT : ∀ x ∈ T, c1.clusterId x = (i : Int) := by
    intro x hx
    rw [(Tr.mem_ok hdone x hx).2.2.2.2, hP.hcid]
  have hroot_old : ∀ x, x < n → c.rank x ≠ -1 → c1.clusterId x ≠ (i : Int) := by
    intro x hx hxr e
    obtain ⟨r, S, h1, h2, h3, h4, h5⟩ := hF.root x hx hxr
    rw [(hfr x hxr).2.2.1, h1] at e
    have : r = i := by exact_mod_cast e
    subst this
    have := (h5 r).mp (Tr.root_mem h4)
    exact this.2.1 hi0
  refine
    { sized := hP.sized
      adjBound := hF.adjBound.bound_of_static hst
      adjSymm := hF.adjSymm.symm_of_static hst
      rankInv := hP.rankInv
      alive := ?_
      root := ?_
      closed := ?_ }
  · intro x hx hxr
    by_cases h0 : c.rank x = -1
    · exact (Tr.mem_ok hdone x (hnew x hx hxr h0)).2.1
    · rw [hst.state_eq]; exact hF.alive x hx h0
  · intro x hx hxr
    by_cases h0 : c.rank x = -1
    · refine ⟨i, T, hcidT x (hnew x hx hxr h0), hin, hP.hpar, hdone, ?_⟩
      intro y
      constructor
      · intro hy
        exact ⟨((hT y).mp hy).1, ((hT y).mp hy).2.2, hcidT y hy⟩
      · rintro ⟨a, b, d⟩
        by_cases hy0 : c.rank y = -1
        · exact hnew y a b hy0
        · exact absurd d (hroot_old y a hy0)
    · obtain ⟨r, S, h1, h2, h3, h4, h5⟩ := hF.root x hx h0
      have hSv : ∀ y ∈ S, c.rank y ≠ -1 := fun y hy => ((h5 y).mp hy).2.1
      have hrv := hSv r (Tr.root_mem h4)
      refine ⟨r, S, by rw [(hfr x h0).2.2.1]; exact h1, h2,
        by rw [(hfr r hrv).2.1]; exact h3,
        h4.stable_done hst (fun y hy => hfr y (hSv y hy))
          (fun y hy => ⟨(hfr y hy).1, (hfr y hy).2.1, (hfr y hy).2.2.1⟩), ?_⟩
      intro y
      constructor
      · intro hy
        have := (h5 y).mp hy
        exact ⟨this.1, by rw [(hfr y this.2.1).1]; exact this.2.1,
          by rw [(hfr y this.2.1).2.2.1]; exact this.2.2⟩
      · rintro ⟨a, b, d⟩
        by_cases hy0 : c.rank y = -1
        · exfalso
          have e := hcidT y (hnew y a b hy0)
          rw [d] at e
          have : r = i := by exact_mod_cast e
          subst this
          exact hrv hi0
        · rw [(hfr y hy0).2.2.1] at d
          exact (h5 y).mpr ⟨a, hy0, d⟩
  · intro x hx hxr z hz hzs
    have hzn : z < n := hF.adjBound.bound_of_static hst x z hz
    by_cases h0 : c.rank x = -1
    · have hxT := hnew x hx hxr h0
      have hzv := Done.closed_all hdone x hxT z hz hzs
      refine ⟨hzv, ?_⟩
      by_cases hz0 : c.rank z = -1
      · rw [hcidT z (hnew z hzn hzv hz0), hcidT x hxT]
      · exfalso
        rw [hst.adj_eq] at hz
        have hxz := hF.adjSymm x z hz
        have hxa : c.state x ≠ kInactive := by
          rw [← hst.state_eq]; exact (Tr.mem_ok hdone x hxT).2.1
        exact (hF.closed z hzn hz0 x hxz hxa).1 h0
    · rw [hst.adj_eq] at hz
      rw [hst.state_eq] at hzs
      have := hF.closed x hx h0 z hz hzs
      rw [(hfr z this.1).1, (hfr z this.1).2.2.1, (hfr x h0).2.2.1]
      exact this

theorem unvisitedCount_le (c : ActiveVerticesConnected) (n : Nat) : unvisitedCount c n ≤ n := by
  unfold unvisitedCount
  calc ((Finset.range n).filter (fun x => c.rank x = -1)).card
      ≤ (Finset.range n).card := Finset.card_filter_le _ _
    _ = n := Finset.card_range n

theorem Forest.pre {c : ActiveVerticesConnected} {n i : Nat} (hF : Forest c n) (hi : i < n)
    (hi0 : c.rank i = -1) (hal : c.state i ≠ kInactive) : Pre c n i (-1) n :=
  { sized := hF.sized
    adjBound := hF.adjBound
    rankInv := hF.rankInv
    hv := hi
    unvisited := hi0
    alive := hal
    parVisited := by intro p hp; omega
    fuel := unvisitedCount_le c n }

theorem CensusPost.widen {c c1 : ActiveVerticesConnected} {n : Nat} {todo : List Nat}
    {r : Census} (hs : SameStatic c c1) (hm : ∀ x, c.rank x ≠ -1 → c1.rank x ≠ -1)
    (h : CensusPost c1 n todo r) : CensusPost c n todo r := by
  cases r with
  | outOfFuel => exact h
  | conflict c2 => exact ⟨h.1, hs.andThen h.2.1, h.2.2⟩
  | done ne c2 =>
    exact ⟨h.1, hs.andThen h.2.1, h.2.2.1, fun x hx => h.2.2.2.1 x (hm x hx), h.2.2.2.2⟩

theorem census_ok {n : Nat} : ∀ (todo done : List Nat) (ne : Int) (c : ActiveVerticesConnected),
    Forest c n → CensusFacts c n ne →
    (∀ j ∈ done, c.state j ≠ kInactive → c.rank j ≠ -1) → (∀ i ∈ todo, i < n) →
    CensusPost c n (done ++ todo) (census n todo ne c) := by
  intro todo
  induction todo with
  | nil =>
    intro done ne c hF hC hd _
    simp only [census, CensusPost, List.append_nil]
    exact ⟨hF, sameStatic_refl c, hC, fun x hx => hx, hd⟩
  | cons i todo ih =>
    intro done ne c hF hC hd hb
    have hi : i < n := hb i (List.mem_cons_self _ _)
    have hb2 : ∀ w ∈ todo, w < n := fun x hx => hb x (List.mem_cons_of_mem _ hx)
    have happ : done ++ i :: todo = (done ++ [i]) ++ todo := by simp
    rw [happ]
    by_cases hcond : c.state i ≠ kInactive ∧ c.rank i = kUnvisited
    · have hi0 : c.rank i = -1 := hcond.2
      obtain ⟨low, c1, e, hP⟩ := buildTree_ok n n c i (-1) (i : Int) (hF.pre hi hi0 hcond.1)
      have hF1 : Forest c1 n := hF.grow hi0 hP
      obtain ⟨T, hT, hdone⟩ := hP.tree
      have hfr := hP.frame
      have hst := hP.static
      have hmono : ∀ x, c.rank x ≠ -1 → c1.rank x ≠ -1 := by
        intro x hx; rw [(hfr x hx).1]; exact hx
      have hcidT : ∀ x ∈ T, c1.clusterId x = (i : Int) := by
        intro x hx
        rw [(Tr.mem_ok hdone x hx).2.2.2.2, hP.hcid]
      have hi1 : c1.rank i ≠ -1 := hdone.root_ok.2.2
      have hd1 : ∀ j ∈ done ++ [i], c1.state j ≠ kInactive → c1.rank j ≠ -1 := by
        intro j hj hjs
        rcases List.mem_append.mp hj with hj | hj
        · rw [hst.state_eq] at hjs
          exact hmono j (hd j hj hjs)
        · simp at hj; subst hj; exact hi1
      have hcnt := Tr.count_eq hdone
      have hold : ∀ x, x < n → c1.rank x ≠ -1 → x ∉ T → c.rank x ≠ -1 := by
        intro x hx h1 hxT h0
        exact hxT ((hT x).mpr ⟨hx, h0, h1⟩)
      have hstep : census n (i :: todo) ne c =
          if c1.subtreeActiveCount i ≥ 1 then
            if ne ≠ -1 then Census.conflict c1 else census n todo (i : Int) c1
          else census n todo ne c1 := by
        rw [census, if_pos hcond, e]
      rw [hstep]
      by_cases hpos : c1.subtreeActiveCount i ≥ 1
      · rw [if_pos hpos]
        have hex : ∃ a ∈ T, c1.state a = kActive := by
          rw [hcnt] at hpos
          have : 0 < (T.filter (fun y => c1.state y = kActive)).card := by omega
          obtain ⟨a, ha⟩ := Finset.card_pos.mp this
          rw [Finset.mem_filter] at ha
          exact ⟨a, ha.1, ha.2⟩
        obtain ⟨a, haT, haA⟩ := hex
        have haT2 := (hT a).mp haT
        by_cases hne : ne ≠ -1
        · rw [if_pos hne]
          obtain ⟨r0, h1, h2, h3, h4, ⟨a0, g1, g2, g3, g4⟩, h6⟩ := hC.single hne
          refine ⟨hF1, hst, a0, a, g1, haT2.1, hmono a0 g2, haT2.2.2,
            by rw [hst.state_eq]; exact g3, haA, ?_⟩
          rw [(hfr a0 g2).2.2.1, g4, hcidT a haT]
          intro e2
          have : r0 = i := by exact_mod_cast e2
          subst this
          exact h3 hi0
        · rw [if_neg hne]
          have hne1 : ne = -1 := not_not.mp hne
          have hC1 : CensusFacts c1 n (i : Int) := by
            constructor
            · intro e2; omega
            · intro _
              refine ⟨i, rfl, hi, hi1, hcidT i (Tr.root_mem hdone),
                ⟨a, haT2.1, haT2.2.2, haA, hcidT a haT⟩, ?_⟩
              intro x hx hxr hxA
              by_cases hxT : x ∈ T
              · exact hcidT x hxT
              · exfalso
                have := hC.empty hne1 x hx (hold x hx hxr hxT)
                rw [hst.state_eq] at hxA
                exact this hxA
          exact CensusPost.widen hst hmono (ih (done ++ [i]) (i : Int) c1 hF1 hC1 hd1 hb2)
      · rw [if_neg hpos]
        have hnoA : ∀ x ∈ T, c1.state x ≠ kActive := by
          intro x hx hxA
          have : 0 < (T.filter (fun y => c1.state y = kActive)).card :=
            Finset.card_pos.mpr ⟨x, Finset.mem_filter.mpr ⟨hx, hxA⟩⟩
          rw [hcnt] at hpos
          omega
        have hC1 : CensusFacts c1 n ne := by
          constructor
          · intro hne1 x hx hxr
            by_cases hxT : x ∈ T
            · exact hnoA x hxT
            · rw [hst.state_eq]
              exact hC.empty hne1 x hx (hold x hx hxr hxT)
          · intro hne
            obtain ⟨r0, h1, h2, h3, h4, ⟨a0, g1, g2, g3, g4⟩, h6⟩ := hC.single hne
            refine ⟨r0, h1, h2, hmono r0 h3, by rw [(hfr r0 h3).2.2.1]; exact h4,
              ⟨a0, g1, hmono a0 g2, by rw [hst.state_eq]; exact g3,
                by rw [(hfr a0 g2).2.2.1]; exact g4⟩, ?_⟩
            intro x hx hxr hxA
            by_cases hxT : x ∈ T
            · exact absurd hxA (hnoA x hxT)
            · have hx0 := hold x hx hxr hxT
              rw [(hfr x hx0).2.2.1]
              rw [hst.state_eq] at hxA
              exact h6 x hx hx0 hxA
        exact CensusPost.widen hst hmono (ih (done ++ [i]) ne c1 hF1 hC1 hd1 hb2)
    · have hd1 : ∀ j ∈ done ++ [i], c.state j ≠ kInactive → c.rank j ≠ -1 := by
        intro j hj hjs
        rcases List.mem_append.mp hj with hj | hj
        · exact hd j hj hjs
        · simp at hj; subst hj
          intro h0
          exact hcond ⟨hjs, h0⟩
      rw [census, if_neg hcond]
      exact ih (done ++ [i]) ne c hF hC hd1 hb2

/-! ### The constructor and the graph of the edge list -/

theorem addEdges_length : ∀ (es : List (Nat × Nat)) (adj : List (List Nat)),
    (addEdges es adj).length = adj.length := by
  intro es
  induction es with
  | nil => intro adj; rfl
  | cons e es ih => intro adj; simp only [addEdges]; rw [ih]; simp

theorem mem_addEdges : ∀ (es : List (Nat × Nat)) (adj : List (List Nat)),
    InRange adj.length es → ∀ u w,
    (w ∈ (addEdges es adj).getD u [] ↔ w ∈ adj.getD u [] ∨ Adjacent es u w) := by
  intro es
  induction es with
  | nil => intro adj _ u w; simp [addEdges, Adjacent]
  | cons e es ih =>
    intro adj hr u w
    have he := hr e (List.mem_cons_self _ _)
    have hr2 : InRange ((adj.set e.1 (adj.getD e.1 [] ++ [e.2])).set e.2
        ((adj.set e.1 (adj.getD e.1 [] ++ [e.2])).getD e.2 [] ++ [e.1])).length es := by
      intro x hx
      simp only [List.length_set]
      exact hr x (List.mem_cons_of_mem _ hx)
    simp only [addEdges]
    rw [ih _ hr2 u w]
    have h1 : e.1 < adj.length := he.1
    have h2 : e.2 < adj.length := he.2
    rw [getD_set, getD_set, getD_set]
    simp only [List.length_set, h1, h2, and_true]
    obtain ⟨a, b⟩ := e
    simp only [Adjacent, List.mem_cons, Prod.mk.injEq]
    by_cases hb : b = u <;> by_cases ha : a = u
    · subst ha; subst hb
      simp only [if_true, List.mem_append, List.mem_singleton, true_and, and_true]
      tauto
    · subst hb
      have ha2 : ¬ b = a := fun e => ha e.symm
      simp only [if_true, ha, ha2, if_false, List.mem_append, List.mem_singleton, true_and,
        and_true, false_and, and_false]
      tauto
    · subst ha
      have hb2 : ¬ a = b := fun e => hb e.symm
      simp only [hb, hb2, if_false, if_true, List.mem_append, List.mem_singleton, true_and,
        and_true, false_and, and_false]
      tauto
    · have ha2 : ¬ u = a := fun e => ha e.symm
      have hb2 : ¬ u = b := fun e => hb e.symm
      simp only [hb, ha, ha2, hb2, if_false, false_and, and_false]
      tauto

theorem getD_replicate_nil (n u : Nat) : (List.replicate n ([] : List Nat)).getD u [] = [] := by
  simp only [List.getD_eq_getElem?_getD]
  by_cases h : u < n
  · simp [List.getElem?_replicate, h]
  · simp [List.getElem?_replicate, h]

theorem Built.mem_adj {lits : List Lit} {edges : List (Nat × Nat)}
    {c : ActiveVerticesConnected} (h : Built lits edges c) (hr : InRange lits.length edges)
    (u w : Nat) : w ∈ c.adj u ↔ Adjacent edges u w := by
  unfold adj
  rw [h.hadj, mem_addEdges edges _ (by simpa using hr) u w, getD_replicate_nil]
  simp

theorem Adjacent.symm {edges : List (Nat × Nat)} {u w : Nat} (h : Adjacent edges u w) :
    Adjacent edges w u := Or.symm h

theorem Built.adjBound {lits : List Lit} {edges : List (Nat × Nat)}
    {c : ActiveVerticesConnected} (h : Built lits edges c) (hr : InRange lits.length edges) :
    AdjBound c lits.length := by
  intro x w hw
  rcases (h.mem_adj hr x w).mp hw with e | e
  · exact (hr _ e).2
  · exact (hr _ e).1

theorem Built.adjSymm {lits : List Lit} {edges : List (Nat × Nat)}
    {c : ActiveVerticesConnected} (h : Built lits edges c) (hr : InRange lits.length edges) :
    AdjSymm c := by
  intro x w hw
  exact (h.mem_adj hr w x).mpr ((h.mem_adj hr x w).mp hw).symm

theorem Built.of_static {lits : List Lit} {edges : List (Nat × Nat)}
    {c c1 : ActiveVerticesConnected} (h : Built lits edges c) (hs : SameStatic c c1)
    (hz : Sized c1 lits.length) : Built lits edges c1 :=
  ⟨hs.1.trans h.hlits, hs.2.1.trans h.hadj, hz⟩

theorem new_built (lits : List Lit) (edges : List (Nat × Nat)) :
    Built lits edges (new lits edges) := by
  refine ⟨rfl, rfl, ?_⟩
  constructor <;> simp [new, addEdges_length]

/-- Paths along adjacency lists are paths of the edge list. -/
theorem Built.conn_iff {lits : List Lit} {edges : List (Nat × Nat)}
    {c : ActiveVerticesConnected} (h : Built lits edges c) (hr : InRange lits.length edges)
    (P : Nat → Prop) (a b : Nat) : Conn c P a b ↔ Path edges P a b := by
  have e : Step c P = fun a b => Adjacent edges a b ∧ P a ∧ P b := by
    funext a b
    unfold Step
    rw [h.mem_adj hr]
  unfold Conn Path
  rw [e]

theorem Path.mono_path {edges : List (Nat × Nat)} {P Q : Nat → Prop} (hPQ : ∀ x, P x → Q x)
    {a b : Nat} (h : Path edges P a b) : Path edges Q a b := by
  unfold Path at h ⊢
  exact Relation.ReflTransGen.mono (fun x y hxy => ⟨hxy.1, hPQ x hxy.2.1, hPQ y hxy.2.2⟩) h

theorem Path.symm_path {edges : List (Nat × Nat)} {P : Nat → Prop} {a b : Nat}
    (h : Path edges P a b) : Path edges P b a := by
  unfold Path at h ⊢
  exact Relation.ReflTransGen.symmetric (fun x y hxy => ⟨hxy.1.symm, hxy.2.2, hxy.2.1⟩) h

theorem Path.trans_path {edges : List (Nat × Nat)} {P : Nat → Prop} {a b d : Nat}
    (h : Path edges P a b) (h2 : Path edges P b d) : Path edges P a d :=
  Relation.ReflTransGen.trans h h2

theorem Conn.mono {c : ActiveVerticesConnected} {P Q : Nat → Prop} (hPQ : ∀ x, P x → Q x)
    {a b : Nat} (h : Conn c P a b) : Conn c Q a b := by
  unfold Conn at h ⊢
  exact Relation.ReflTransGen.mono (fun x y hxy => ⟨hxy.1, hPQ x hxy.2.1, hPQ y hxy.2.2⟩) h

/-- Every vertex of a trace is joined to its root by a path inside the trace. -/
theorem Tr.rootPath {c : ActiveVerticesConnected} {v : Nat} {ws : List Nat} {S : Finset Nat}
    {cnt low : Int} (h : Tr c v ws S cnt low) :
    (∀ w ∈ ws, w ∈ c.adj v) → ∀ y ∈ S, Conn c (fun x => x ∈ S) v y := by
  induction h with
  | leaf v _ _ _ =>
    intro _ y hy
    simp at hy; subst hy
    exact Relation.ReflTransGen.refl
  | skip w _ _ _ ih =>
    intro hws y hy
    exact ih (fun x hx => hws x (List.mem_append_left _ hx)) y hy
  | @child v ws S cnt low w Sw ht _ _ _ _ hw _ ih ihw =>
    intro hws y hy
    rcases Finset.mem_union.mp hy with hy | hy
    · exact Conn.mono (fun x hx => Finset.mem_union_left _ hx)
        (ih (fun x hx => hws x (List.mem_append_left _ hx)) y hy)
    · have h1 := Conn.mono (Q := fun x => x ∈ S ∪ Sw) (fun x hx => Finset.mem_union_right _ hx)
        (ihw (fun x hx => hx) y hy)
      have hvw : Step c (fun x => x ∈ S ∪ Sw) v w :=
        ⟨hws w (by simp), Finset.mem_union_left _ ht.root_mem,
          Finset.mem_union_right _ hw.root_mem⟩
      exact Relation.ReflTransGen.head hvw h1
  | back z _ _ _ _ _ ih =>
    intro hws y hy
    exact ih (fun x hx => hws x (List.mem_append_left _ hx)) y hy

/-! ### The refresh loop, the fills and the forcing loop -/

theorem refresh_length {S : Type} (ops : SolverOps S) (s : S) (p : Lit) (lits : List Lit) :
    ∀ (is : List Nat) (st st1 : List NodeState), refresh ops s p lits is st = some st1 →
      st1.length = st.length := by
  intro is
  induction is with
  | nil => intro st st1 h; simp only [refresh, Option.some.injEq] at h; rw [← h]
  | cons i is ih =>
    intro st st1 h
    simp only [refresh] at h
    split at h
    · split at h
      · rw [ih _ _ h]; simp
      · rw [ih _ _ h]; simp
      · exact absurd h (by simp)
    · exact ih _ _ h

theorem refresh_getD {S : Type} (ops : SolverOps S) (s : S) (p : Lit) (lits : List Lit) :
    ∀ (is : List Nat) (st st1 : List NodeState), refresh ops s p lits is st = some st1 →
      ∀ j, st1.getD j kUndecided =
        if j ∈ is ∧ j < st.length ∧ (lits.getD j (mkLit 0)).var = p.var then
          ofValue (ops.value s (lits.getD j (mkLit 0)))
        else st.getD j kUndecided := by
  intro is
  induction is with
  | nil => intro st st1 h j; simp only [refresh, Option.some.injEq] at h; rw [← h]; simp
  | cons i is ih =>
    intro st st1 h j
    simp only [refresh] at h
    by_cases hv : (lits.getD i (mkLit 0)).var = p.var
    · rw [if_pos hv] at h
      have key : ∀ x : NodeState, x = ofValue (ops.value s (lits.getD i (mkLit 0))) →
          refresh ops s p lits is (st.set i x) = some st1 →
          st1.getD j kUndecided =
            if j ∈ i :: is ∧ j < st.length ∧ (lits.getD j (mkLit 0)).var = p.var then
              ofValue (ops.value s (lits.getD j (mkLit 0)))
            else st.getD j kUndecided := by
        intro x hx h2
        rw [ih _ _ h2 j, List.length_set, getD_set]
        by_cases hc : j < st.length ∧ (lits.getD j (mkLit 0)).var = p.var
        · by_cases hm : j ∈ is
          · rw [if_pos ⟨hm, hc⟩, if_pos ⟨List.mem_cons_of_mem _ hm, hc⟩]
          · rw [if_neg (fun e => hm e.1)]
            by_cases hj : i = j
            · subst hj
              rw [if_pos ⟨rfl, hc.1⟩, if_pos ⟨List.mem_cons_self _ _, hc⟩, hx]
            · rw [if_neg (fun e => hj e.1), if_neg]
              rintro ⟨e1, _⟩
              rcases List.mem_cons.mp e1 with e1 | e1
              · exact hj e1.symm
              · exact hm e1
        · have n1 : ¬ (j ∈ is ∧ j < st.length ∧ (lits.getD j (mkLit 0)).var = p.var) :=
            fun e => hc e.2
          have n2 : ¬ (j ∈ i :: is ∧ j < st.length ∧ (lits.getD j (mkLit 0)).var = p.var) :=
            fun e => hc e.2
          have n3 : ¬ (i = j ∧ i < st.length) := by
            rintro ⟨e1, e2⟩
            subst e1
            exact hc ⟨e2, hv⟩
          rw [if_neg n1, if_neg n2, if_neg n3]
      cases hval : ops.value s (lits.getD i (mkLit 0)) with
      | l_True => rw [hval] at h; exact key kActive (by rw [hval]; rfl) h
      | l_False => rw [hval] at h; exact key kInactive (by rw [hval]; rfl) h
      | l_Undef => rw [hval] at h; exact absurd h (by simp)
    · rw [if_neg hv] at h
      rw [ih _ _ h j]
      by_cases hc : j ∈ is ∧ j < st.length ∧ (lits.getD j (mkLit 0)).var = p.var
      · rw [if_pos hc, if_pos ⟨List.mem_cons_of_mem _ hc.1, hc.2⟩]
      · rw [if_neg hc, if_neg]
        rintro ⟨e1, e2⟩
        rcases List.mem_cons.mp e1 with e1 | e1
        · subst e1; exact hv e2.2
        · exact hc ⟨e1, e2⟩

theorem refresh_some {S : Type} (ops : SolverOps S) (s : S) (p : Lit) (lits : List Lit) :
    ∀ (is : List Nat) (st : List NodeState),
      (∀ i ∈ is, (lits.getD i (mkLit 0)).var = p.var →
        ops.value s (lits.getD i (mkLit 0)) ≠ l_Undef) →
      ∃ st1, refresh ops s p lits is st = some st1 := by
  intro is
  induction is with
  | nil => intro st _; exact ⟨st, rfl⟩
  | cons i is ih =>
    intro st h
    have h2 : ∀ j ∈ is, (lits.getD j (mkLit 0)).var = p.var →
        ops.value s (lits.getD j (mkLit 0)) ≠ l_Undef :=
      fun j hj => h j (List.mem_cons_of_mem _ hj)
    simp only [refresh]
    by_cases hv : (lits.getD i (mkLit 0)).var = p.var
    · rw [if_pos hv]
      have := h i (List.mem_cons_self _ _) hv
      cases hval : ops.value s (lits.getD i (mkLit 0)) with
      | l_True => exact ih _ h2
      | l_False => exact ih _ h2
      | l_Undef => exact absurd hval this
    · rw [if_neg hv]; exact ih _ h2

theorem getD_replicate {α : Type} (n x : Nat) (a d : α) (h : x < n) :
    (List.replicate n a).getD x d = a := by
  simp [List.getD_eq_getElem?_getD, List.getElem?_replicate, h]

theorem resetDfs_static (c : ActiveVerticesConnected) : SameStatic c (resetDfs c) :=
  ⟨rfl, rfl, rfl⟩

theorem resetDfs_sized {c : ActiveVerticesConnected} {n : Nat} (h : Sized c n) :
    Sized (resetDfs c) n := by
  constructor <;> simp [resetDfs, h.lits, h.adj, h.state, h.rank, h.lowlink, h.cnt, h.cid, h.par]

theorem resetDfs_rank {c : ActiveVerticesConnected} {n : Nat} (h : Sized c n) (x : Nat)
    (hx : x < n) : (resetDfs c).rank x = -1 := by
  simp only [resetDfs, rank, kUnvisited, h.rank]
  exact getD_replicate n x _ _ hx

/-- After the `std::fill` calls the forest invariant holds: nothing is visited. -/
theorem resetDfs_forest {lits : List Lit} {edges : List (Nat × Nat)}
    {c : ActiveVerticesConnected} (h : Built lits edges c) (hr : InRange lits.length edges) :
    Forest (resetDfs c) lits.length ∧ CensusFacts (resetDfs c) lits.length (-1) := by
  have hB : Built lits edges (resetDfs c) :=
    h.of_static (resetDfs_static c) (resetDfs_sized h.sized)
  have hun := resetDfs_rank h.sized
  constructor
  · exact
      { sized := hB.sized
        adjBound := hB.adjBound hr
        adjSymm := hB.adjSymm hr
        rankInv := ⟨le_refl _, fun x hx hxr => absurd (hun x hx) hxr,
          fun x y hx _ hxr _ => absurd (hun x hx) hxr⟩
        alive := fun x hx hxr => absurd (hun x hx) hxr
        root := fun x hx hxr => absurd (hun x hx) hxr
        closed := fun x hx hxr => absurd (hun x hx) hxr }
  · constructor
    · intro _ x hx hxr; exact absurd (hun x hx) hxr
    · intro h0; exact absurd rfl h0

/-- The forcing loop: the calls it adds are justified, it returns `false` exactly when
one of them was answered `false`, and when it returns `true` it has made, with answer
`true`, every call that the listed vertices justify. -/
theorem forceLoop_spec {S : Type} (ops : SolverOps S) (c : ActiveVerticesConnected)
    (ne : Int) : ∀ (vs : List Nat) (s : S) (calls : List EnqCall),
    ∃ added : List EnqCall,
      (forceLoop ops c ne vs s calls).2.2 = calls ++ added ∧
      (∀ e ∈ added, e.vertex ∈ vs ∧ Justified c ne e) ∧
      ((forceLoop ops c ne vs s calls).1 = false ↔ ∃ e ∈ added, e.answer = false) ∧
      ((forceLoop ops c ne vs s calls).1 = true →
        ∀ v ∈ vs, c.state v = kUndecided →
          (c.clusterId v ≠ ne → (⟨v, (c.lit v).neg, true⟩ : EnqCall) ∈ added) ∧
          (c.clusterId v = ne → branchCount c ne v ≥ 2 →
            (⟨v, c.lit v, true⟩ : EnqCall) ∈ added)) := by
  intro vs
  induction vs with
  | nil =>
    intro s calls
    exact ⟨[], by simp [forceLoop], by simp, by simp [forceLoop], by simp⟩
  | cons v vs ih =>
    intro s calls
    by_cases hst : c.state v ≠ kUndecided
    · obtain ⟨added, h1, h2, h3, h4⟩ := ih s calls
      have e : forceLoop ops c ne (v :: vs) s calls = forceLoop ops c ne vs s calls := by
        rw [forceLoop, if_pos hst]
      rw [e]
      refine ⟨added, h1, fun x hx => ⟨List.mem_cons_of_mem _ (h2 x hx).1, (h2 x hx).2⟩, h3, ?_⟩
      intro ht u hu hus
      rcases List.mem_cons.mp hu with hu | hu
      · subst hu; exact absurd hus hst
      · exact h4 ht u hu hus
    · have hst2 : c.state v = kUndecided := not_not.mp hst
      -- a call of `enqueue` with literal `l` for vertex `v`
      have call : ∀ (l : Lit), Justified c ne ⟨v, l, true⟩ →
          (∀ u, u = v → c.state u = kUndecided →
            (c.clusterId u ≠ ne → (c.lit u).neg = l) ∧
            (c.clusterId u = ne → branchCount c ne u ≥ 2 → c.lit u = l)) →
          ∃ added : List EnqCall,
            (if (ops.enqueue s l).1 = false then
                (false, (ops.enqueue s l).2, calls ++ [(⟨v, l, false⟩ : EnqCall)])
              else forceLoop ops c ne vs (ops.enqueue s l).2
                (calls ++ [(⟨v, l, true⟩ : EnqCall)])).2.2 = calls ++ added ∧
            (∀ e ∈ added, e.vertex ∈ v :: vs ∧ Justified c ne e) ∧
            ((if (ops.enqueue s l).1 = false then
                (false, (ops.enqueue s l).2, calls ++ [(⟨v, l, false⟩ : EnqCall)])
              else forceLoop ops c ne vs (ops.enqueue s l).2
                (calls ++ [(⟨v, l, true⟩ : EnqCall)])).1 = false ↔
              ∃ e ∈ added, e.answer = false) ∧
            ((if (ops.enqueue s l).1 = false then
                (false, (ops.enqueue s l).2, calls ++ [(⟨v, l, false⟩ : EnqCall)])
              else forceLoop ops c ne vs (ops.enqueue s l).2
                (calls ++ [(⟨v, l, true⟩ : EnqCall)])).1 = true →
              ∀ u ∈ v :: vs, c.state u = kUndecided →
                (c.clusterId u ≠ ne → (⟨u, (c.lit u).neg, true⟩ : EnqCall) ∈ added) ∧
                (c.clusterId u = ne → branchCount c ne u ≥ 2 →
                  (⟨u, c.lit u, true⟩ : EnqCall) ∈ added)) := by
        intro l hj hv
        by_cases ha : (ops.enqueue s l).1 = false
        · rw [if_pos ha]
          refine ⟨[⟨v, l, false⟩], rfl, ?_, ?_, ?_⟩
          · intro e he
            simp only [List.mem_singleton] at he
            subst he
            exact ⟨List.mem_cons_self _ _, hj⟩
          · simp
          · intro h; simp at h
        · rw [if_neg ha]
          obtain ⟨added, h1, h2, h3, h4⟩ :=
            ih (ops.enqueue s l).2 (calls ++ [(⟨v, l, true⟩ : EnqCall)])
          refine ⟨⟨v, l, true⟩ :: added, by rw [h1]; simp, ?_, ?_, ?_⟩
          · intro e he
            rcases List.mem_cons.mp he with he | he
            · subst he; exact ⟨List.mem_cons_self _ _, hj⟩
            · exact ⟨List.mem_cons_of_mem _ (h2 e he).1, (h2 e he).2⟩
          · rw [h3]
            constructor
            · rintro ⟨e, he, hf⟩; exact ⟨e, List.mem_cons_of_mem _ he, hf⟩
            · rintro ⟨e, he, hf⟩
              rcases List.mem_cons.mp he with he | he
              · subst he; simp at hf
              · exact ⟨e, he, hf⟩
          · intro ht u hu hus
            rcases List.mem_cons.mp hu with hu | hu
            · have := hv u hu hus
              subst hu
              constructor
              · intro hc; rw [this.1 hc]; exact List.mem_cons_self _ _
              · intro hc hb; rw [this.2 hc hb]; exact List.mem_cons_self _ _
            · have := h4 ht u hu hus
              exact ⟨fun hc => List.mem_cons_of_mem _ (this.1 hc),
                fun hc hb => List.mem_cons_of_mem _ (this.2 hc hb)⟩
      by_cases hcid : c.clusterId v ≠ ne
      · have e : forceLoop ops c ne (v :: vs) s calls =
            (if (ops.enqueue s (c.lit v).neg).1 = false then
                (false, (ops.enqueue s (c.lit v).neg).2,
                  calls ++ [(⟨v, (c.lit v).neg, false⟩ : EnqCall)])
              else forceLoop ops c ne vs (ops.enqueue s (c.lit v).neg).2
                (calls ++ [(⟨v, (c.lit v).neg, true⟩ : EnqCall)])) := by
          rw [forceLoop, if_neg hst, if_pos hcid]
        rw [e]
        exact call (c.lit v).neg ⟨hst2, Or.inl ⟨hcid, rfl⟩⟩ (by
          intro u hu _
          subst hu
          exact ⟨fun _ => rfl, fun hc => absurd hc hcid⟩)
      · have hcid2 : c.clusterId v = ne := not_not.mp hcid
        by_cases hbc : branchCount c ne v ≥ 2
        · have e : forceLoop ops c ne (v :: vs) s calls =
              (if (ops.enqueue s (c.lit v)).1 = false then
                  (false, (ops.enqueue s (c.lit v)).2,
                    calls ++ [(⟨v, c.lit v, false⟩ : EnqCall)])
                else forceLoop ops c ne vs (ops.enqueue s (c.lit v)).2
                  (calls ++ [(⟨v, c.lit v, true⟩ : EnqCall)])) := by
            rw [forceLoop, if_neg hst, if_neg hcid, if_pos hbc]
          rw [e]
          exact call (c.lit v) ⟨hst2, Or.inr ⟨hcid2, hbc, rfl⟩⟩ (by
            intro u hu _
            subst hu
            exact ⟨fun hc => absurd hcid2 hc, fun _ _ => rfl⟩)
        · obtain ⟨added, h1, h2, h3, h4⟩ := ih s calls
          have e : forceLoop ops c ne (v :: vs) s calls = forceLoop ops c ne vs s calls := by
            rw [forceLoop, if_neg hst, if_neg hcid, if_neg hbc]
          rw [e]
          refine ⟨added, h1, fun x hx => ⟨List.mem_cons_of_mem _ (h2 x hx).1, (h2 x hx).2⟩,
            h3, ?_⟩
          intro ht u hu hus
          rcases List.mem_cons.mp hu with hu | hu
          · subst hu
            exact ⟨fun hc => absurd hcid2 hc, fun _ hb => absurd hb hbc⟩
          · exact h4 ht u hu hus

/-! ### The two ways `propagate` returns -/

theorem propagate_summary {S : Type} (ops : SolverOps S) (s : S) (p : Lit)
    {lits : List Lit} {edges : List (Nat × Nat)} {c : ActiveVerticesConnected}
    {st : List NodeState} (hB : Built lits edges c) (hE : InRange lits.length edges)
    (hr : refreshed ops s p c = some st) :
    ∃ r, propagate ops s p c = Outcome.returned r ∧ r.self.state_ = st ∧
      Forest r.self lits.length ∧ Built lits edges r.self ∧ Summary ops s p lits.length r := by
  have hl := hB.hlits
  subst hl
  unfold refreshed at hr
  have hlen := refresh_length _ _ _ _ _ _ _ hr
  have hB0 : Built c.lits_ edges { c with state_ := st } :=
    ⟨rfl, hB.hadj, ⟨hB.sized.lits, hB.sized.adj, by rw [← hB.sized.state]; exact hlen,
      hB.sized.rank, hB.sized.lowlink, hB.sized.cnt, hB.sized.cid, hB.sized.par⟩⟩
  obtain ⟨hF, hC⟩ := resetDfs_forest hB0 hE
  have hcen := census_ok (n := c.lits_.length) (List.range c.lits_.length) [] (-1) _ hF hC
    (by simp) (by intro i hi; exact List.mem_range.mp hi)
  have e : propagate ops s p c =
      match census c.lits_.length (List.range c.lits_.length) (-1)
          (resetDfs { c with state_ := st }) with
      | Census.outOfFuel => Outcome.outOfFuel
      | Census.conflict c2 => Outcome.returned ⟨false, ops.registerUndo s p.var, c2, []⟩
      | Census.done nonempty_cluster c2 =>
        if nonempty_cluster ≠ -1 then
          Outcome.returned ⟨(forceLoop ops c2 nonempty_cluster (List.range c.lits_.length)
              (ops.registerUndo s p.var) []).1,
            (forceLoop ops c2 nonempty_cluster (List.range c.lits_.length)
              (ops.registerUndo s p.var) []).2.1, c2,
            (forceLoop ops c2 nonempty_cluster (List.range c.lits_.length)
              (ops.registerUndo s p.var) []).2.2⟩
        else Outcome.returned ⟨true, ops.registerUndo s p.var, c2, []⟩ := by
    simp only [propagate, hr]
  rw [e]
  generalize census c.lits_.length (List.range c.lits_.length) (-1)
    (resetDfs { c with state_ := st }) = res at hcen
  have hst0 : (resetDfs { c with state_ := st }).state_ = st := rfl
  cases res with
  | outOfFuel => exact absurd hcen (by simp [CensusPost])
  | conflict c2 =>
    obtain ⟨hF2, hs2, hab⟩ := hcen
    refine ⟨_, rfl, hs2.2.2.trans hst0, hF2,
      hB0.of_static ((resetDfs_static _).andThen hs2) hF2.sized, Or.inl ⟨rfl, rfl, hab⟩⟩
  | done ne c2 =>
    obtain ⟨hF2, hs2, hC2, _, hall⟩ := hcen
    have hall2 : ∀ j, j < c.lits_.length → c2.state j ≠ kInactive → c2.rank j ≠ -1 :=
      fun j hj => hall j (by simpa using hj)
    have hB2 := hB0.of_static ((resetDfs_static _).andThen hs2) hF2.sized
    by_cases hne : ne ≠ -1
    · simp only [if_pos hne]
      exact ⟨_, rfl, hs2.2.2.trans hst0, hF2, hB2, Or.inr ⟨ne, hC2, hall2, Or.inr ⟨hne, rfl⟩⟩⟩
    · simp only [if_neg hne]
      exact ⟨_, rfl, hs2.2.2.trans hst0, hF2, hB2,
        Or.inr ⟨ne, hC2, hall2, Or.inl ⟨not_not.mp hne, rfl, rfl⟩⟩⟩

/-- In a forest, a path between vertices that are not Inactive stays among the visited
vertices of one cluster. -/
theorem Forest.path_cluster {lits : List Lit} {edges : List (Nat × Nat)}
    {c : ActiveVerticesConnected} (hF : Forest c lits.length) (hB : Built lits edges c)
    (hE : InRange lits.length edges) {a b : Nat} (ha : a < lits.length) (hav : c.rank a ≠ -1)
    (h : Connected edges c.state_ a b) :
    b < lits.length ∧ c.rank b ≠ -1 ∧ c.clusterId b = c.clusterId a := by
  unfold Connected Path at h
  induction h with
  | refl => exact ⟨ha, hav, rfl⟩
  | @tail x y _ hxy ih =>
    obtain ⟨hx, hxv, hxc⟩ := ih
    have hadj : y ∈ c.adj x := (hB.mem_adj hE x y).mpr hxy.1
    have := hF.closed x hx hxv y hadj hxy.2.2
    exact ⟨hF.adjBound x y hadj, this.1, by rw [this.2, hxc]⟩

/-- In a forest, two visited vertices of one cluster are connected. -/
theorem Forest.cluster_connected {lits : List Lit} {edges : List (Nat × Nat)}
    {c : ActiveVerticesConnected} (hF : Forest c lits.length) (hB : Built lits edges c)
    (hE : InRange lits.length edges) {a b : Nat} (ha : a < lits.length) (hav : c.rank a ≠ -1)
    (hb : b < lits.length) (hbv : c.rank b ≠ -1) (hab : c.clusterId a = c.clusterId b) :
    Connected edges c.state_ a b := by
  obtain ⟨r, T, h1, h2, h3, h4, h5⟩ := hF.root a ha hav
  have haT : a ∈ T := (h5 a).mpr ⟨ha, hav, h1⟩
  have hbT : b ∈ T := (h5 b).mpr ⟨hb, hbv, by rw [← hab]; exact h1⟩
  have hP : ∀ x, x ∈ T → NotInactive c.state_ x := fun x hx => (Tr.mem_ok h4 x hx).2.1
  have p1 := (hB.conn_iff hE _ r a).mp (Conn.mono hP (Tr.rootPath h4 (fun w hw => hw) a haT))
  have p2 := (hB.conn_iff hE _ r b).mp (Conn.mono hP (Tr.rootPath h4 (fun w hw => hw) b hbT))
  exact Path.trans_path (Path.symm_path p1) p2

/-! ### The articulation test -/

/-- Every vertex of a trace other than its root lies in the complete trace of a child of
the root. -/
theorem Tr.childCover {c : ActiveVerticesConnected} {v : Nat} {ws : List Nat}
    {S : Finset Nat} {cnt low : Int} (h : Tr c v ws S cnt low) :
    ∀ y ∈ S, y ≠ v → ∃ (w : Nat) (Sw : Finset Nat), w ∈ ws ∧ c.parent w = (v : Int) ∧
      c.rank v < c.rank w ∧ Done c w Sw ∧ y ∈ Sw ∧ Sw ⊆ S ∧ v ∉ Sw := by
  induction h with
  | leaf v _ _ _ => intro y hy hne; simp at hy; exact absurd hy hne
  | skip w _ _ _ ih =>
    intro y hy hne
    obtain ⟨w1, Sw, h1, h2⟩ := ih y hy hne
    exact ⟨w1, Sw, List.mem_append_left _ h1, h2⟩
  | @child v ws S cnt low w Sw ht _ hpar _ hlt hw hd ih _ =>
    intro y hy hne
    rcases Finset.mem_union.mp hy with hy | hy
    · obtain ⟨w1, Sw1, h1, h2, h3, h4, h5, h6, h7⟩ := ih y hy hne
      exact ⟨w1, Sw1, List.mem_append_left _ h1, h2, h3, h4, h5,
        fun x hx => Finset.mem_union_left _ (h6 hx), h7⟩
    · exact ⟨w, Sw, by simp, hpar, hlt v ht.root_mem, hw, hy,
        Finset.subset_union_right, fun hv => (Finset.disjoint_left.mp hd ht.root_mem) hv⟩
  | back z _ _ _ _ _ ih =>
    intro y hy hne
    obtain ⟨w1, Sw, h1, h2⟩ := ih y hy hne
    exact ⟨w1, Sw, List.mem_append_left _ h1, h2⟩

/-- The low-link of a trace is the rank of its root or the rank of a visited neighbour of
one of its vertices; it never exceeds the rank of the root. -/
theorem Tr.lowSound {c : ActiveVerticesConnected} {v : Nat} {ws : List Nat}
    {S : Finset Nat} {cnt low : Int} (h : Tr c v ws S cnt low) :
    (∀ w ∈ ws, w ∈ c.adj v) → low ≤ c.rank v ∧ (low = c.rank v ∨
      ∃ y ∈ S, ∃ z ∈ c.adj y, c.state z ≠ kInactive ∧ c.rank z ≠ -1 ∧ c.rank z = low) := by
  induction h with
  | leaf v _ _ _ => intro _; exact ⟨le_refl _, Or.inl rfl⟩
  | skip w _ _ _ ih =>
    intro hws
    exact ih (fun x hx => hws x (List.mem_append_left _ hx))
  | @child v ws S cnt low w Sw ht _ hpar _ hlt hw hd ih ihw =>
    intro hws
    obtain ⟨h1, h2⟩ := ih (fun x hx => hws x (List.mem_append_left _ hx))
    obtain ⟨g1, g2⟩ := ihw (fun x hx => hx)
    have hvw := hlt v ht.root_mem
    refine ⟨le_trans (min_le_left _ _) h1, ?_⟩
    by_cases hle : low ≤ c.lowlink w
    · rw [min_eq_left hle]
      rcases h2 with h2 | ⟨y, hy, z, hz, e1, e2, e3⟩
      · exact Or.inl h2
      · exact Or.inr ⟨y, Finset.mem_union_left _ hy, z, hz, e1, e2, e3⟩
    · rw [min_eq_right (by omega)]
      rcases g2 with g2 | ⟨y, hy, z, hz, e1, e2, e3⟩
      · omega
      · exact Or.inr ⟨y, Finset.mem_union_right _ hy, z, hz, e1, e2, e3⟩
  | @back v ws S cnt low z ht _ hst hz _ ih =>
    intro hws
    obtain ⟨h1, h2⟩ := ih (fun x hx => hws x (List.mem_append_left _ hx))
    refine ⟨le_trans (min_le_left _ _) h1, ?_⟩
    by_cases hle : low ≤ c.rank z
    · rw [min_eq_left hle]; exact h2
    · rw [min_eq_right (by omega)]
      exact Or.inr ⟨v, ht.root_mem, z, hws z (by simp), hst, hz, rfl⟩

/-- Inside a trace with root `r`, every other vertex `v` has a complete trace `Sv`, and
what is left of the trace after removing `Sv` is still joined to `r`. -/
theorem Tr.locate {c : ActiveVerticesConnected} {r : Nat} {ws : List Nat}
    {S : Finset Nat} {cnt low : Int} (h : Tr c r ws S cnt low) :
    (∀ w ∈ ws, w ∈ c.adj r) → ∀ v ∈ S, v ≠ r → ∃ Sv : Finset Nat, Done c v Sv ∧ Sv ⊆ S ∧
      r ∉ Sv ∧ ∀ y ∈ S, y ∉ Sv → Conn c (fun x => x ∈ S ∧ x ∉ Sv) r y := by
  induction h with
  | leaf v _ _ _ => intro _ y hy hne; simp at hy; exact absurd hy hne
  | skip w _ _ _ ih =>
    intro hws v hv hne
    exact ih (fun x hx => hws x (List.mem_append_left _ hx)) v hv hne
  | @child r ws S cnt low w Sw ht _ hpar _ hlt hw hd ih ihw =>
    intro hws v hv hne
    have hws1 : ∀ x ∈ ws, x ∈ c.adj r := fun x hx => hws x (List.mem_append_left _ hx)
    have hrS := ht.root_mem
    have hwS := hw.root_mem
    have hrw : w ∈ c.adj r := hws w (by simp)
    have hdl := Finset.disjoint_left.mp hd
    rcases Finset.mem_union.mp hv with hv | hv
    · obtain ⟨Sv, h1, h2, h3, h4⟩ := ih hws1 v hv hne
      refine ⟨Sv, h1, fun x hx => Finset.mem_union_left _ (h2 hx), h3, ?_⟩
      intro y hy hyv
      rcases Finset.mem_union.mp hy with hy | hy
      · exact Conn.mono (fun x hx => ⟨Finset.mem_union_left _ hx.1, hx.2⟩) (h4 y hy hyv)
      · have hout : ∀ x, x ∈ Sw → x ∈ S ∪ Sw ∧ x ∉ Sv :=
          fun x hx => ⟨Finset.mem_union_right _ hx, fun hxv => hdl (h2 hxv) hx⟩
        have p1 := Conn.mono hout (Tr.rootPath hw (fun x hx => hx) y hy)
        exact Relation.ReflTransGen.head
          ⟨hrw, ⟨Finset.mem_union_left _ hrS, h3⟩, hout w hwS⟩ p1
    · by_cases hvw : v = w
      · subst hvw
        refine ⟨Sw, hw, Finset.subset_union_right, fun hr => hdl hrS hr, ?_⟩
        intro y hy hyv
        rcases Finset.mem_union.mp hy with hy | hy
        · exact Conn.mono (fun x hx => ⟨Finset.mem_union_left _ hx, fun hxs => hdl hx hxs⟩)
            (Tr.rootPath ht hws1 y hy)
        · exact absurd hy hyv
      · obtain ⟨Sv, h1, h2, h3, h4⟩ := ihw (fun x hx => hx) v hv hvw
        have hrSv : r ∉ Sv := fun hr => hdl hrS (h2 hr)
        refine ⟨Sv, h1, fun x hx => Finset.mem_union_right _ (h2 hx), hrSv, ?_⟩
        intro y hy hyv
        rcases Finset.mem_union.mp hy with hy | hy
        · exact Conn.mono
            (fun x hx => ⟨Finset.mem_union_left _ hx, fun hxs => hdl hx (h2 hxs)⟩)
            (Tr.rootPath ht hws1 y hy)
        · have p1 := Conn.mono (Q := fun x => x ∈ S ∪ Sw ∧ x ∉ Sv)
            (fun x hx => ⟨Finset.mem_union_right _ hx.1, hx.2⟩) (h4 y hy hyv)
          exact Relation.ReflTransGen.head
            ⟨hrw, ⟨Finset.mem_union_left _ hrS, hrSv⟩, ⟨Finset.mem_union_right _ hwS, h3⟩⟩ p1
  | back z _ _ _ _ _ ih =>
    intro hws v hv hne
    exact ih (fun x hx => hws x (List.mem_append_left _ hx)) v hv hne

/-- In a forest every visited vertex has a complete trace inside the trace of its root. -/
theorem Forest.done_of_visited {c : ActiveVerticesConnected} {n : Nat} (hF : Forest c n)
    {x : Nat} (hx : x < n) (hxv : c.rank x ≠ -1) : ∃ Sx, Done c x Sx := by
  obtain ⟨r, T, h1, h2, h3, h4, h5⟩ := hF.root x hx hxv
  by_cases hxr : x = r
  · subst hxr; exact ⟨T, h4⟩
  · obtain ⟨Sx, g1, _⟩ := Tr.locate h4 (fun w hw => hw) x ((h5 x).mpr ⟨hx, hxv, h1⟩) hxr
    exact ⟨Sx, g1⟩

theorem Forest.count_nonneg {c : ActiveVerticesConnected} {n : Nat} (hF : Forest c n)
    {x : Nat} (hx : x < n) (hxv : c.rank x ≠ -1) : 0 ≤ c.subtreeActiveCount x := by
  obtain ⟨Sx, h⟩ := hF.done_of_visited hx hxv
  rw [Tr.count_eq h]
  exact Int.natCast_nonneg _

theorem branchLoop_cons (c : ActiveVerticesConnected) (v w : Nat) (ws : List Nat)
    (psc nn : Int) :
    branchLoop c v (w :: ws) psc nn =
      branchLoop c v ws
        (psc + (if IsChild c v w ∧ c.lowlink w < c.rank v then c.subtreeActiveCount w else 0))
        (nn + (if IsChild c v w ∧ ¬ c.lowlink w < c.rank v ∧ c.subtreeActiveCount w > 0
          then 1 else 0)) := by
  unfold IsChild
  by_cases hk : c.rank v < c.rank w ∧ c.parent w = (v : Int)
  · by_cases hl : c.lowlink w < c.rank v
    · rw [branchLoop, if_pos hk, if_pos hl, if_pos ⟨hk, hl⟩, if_neg (fun e => e.2.1 hl)]
      simp
    · by_cases hc : c.subtreeActiveCount w > 0
      · rw [branchLoop, if_pos hk, if_neg hl, if_pos hc, if_neg (fun e => hl e.2),
          if_pos ⟨hk, hl, hc⟩]
        simp
      · rw [branchLoop, if_pos hk, if_neg hl, if_neg hc, if_neg (fun e => hl e.2),
          if_neg (fun e => hc e.2.2)]
        simp
  · rw [branchLoop, if_neg hk, if_neg (fun e => hk e.1), if_neg (fun e => hk e.1)]
    simp

theorem branchLoop_mono (c : ActiveVerticesConnected) (v : Nat) :
    ∀ (ws : List Nat) (psc nn : Int),
      (∀ w ∈ ws, IsChild c v w → 0 ≤ c.subtreeActiveCount w) →
      psc ≤ (branchLoop c v ws psc nn).1 ∧ nn ≤ (branchLoop c v ws psc nn).2 := by
  intro ws
  induction ws with
  | nil => intro psc nn _; simp [branchLoop]
  | cons w ws ih =>
    intro psc nn h
    rw [branchLoop_cons]
    have := ih (psc + (if IsChild c v w ∧ c.lowlink w < c.rank v
        then c.subtreeActiveCount w else 0))
      (nn + (if IsChild c v w ∧ ¬ c.lowlink w < c.rank v ∧ c.subtreeActiveCount w > 0
        then 1 else 0)) (fun x hx => h x (List.mem_cons_of_mem _ hx))
    have h0 : 0 ≤ (if IsChild c v w ∧ c.lowlink w < c.rank v
        then c.subtreeActiveCount w else 0) := by
      split_ifs with hc
      · exact h w (List.mem_cons_self _ _) hc.1
      · exact le_refl _
    have h1 : (0 : Int) ≤ (if IsChild c v w ∧ ¬ c.lowlink w < c.rank v ∧
        c.subtreeActiveCount w > 0 then 1 else 0) := by
      split_ifs <;> omega
    constructor
    · omega
    · omega

theorem branchLoop_side (c : ActiveVerticesConnected) (v : Nat) :
    ∀ (ws : List Nat) (psc nn : Int),
      (∀ w ∈ ws, IsChild c v w → 0 ≤ c.subtreeActiveCount w) →
      (∃ w ∈ ws, IsChild c v w ∧ c.lowlink w < c.rank v ∧ c.subtreeActiveCount w > 0) →
      psc < (branchLoop c v ws psc nn).1 := by
  intro ws
  induction ws with
  | nil => intro psc nn _ h; obtain ⟨w, hw, _⟩ := h; simp at hw
  | cons x ws ih =>
    intro psc nn h hex
    have h2 : ∀ w ∈ ws, IsChild c v w → 0 ≤ c.subtreeActiveCount w :=
      fun w hw => h w (List.mem_cons_of_mem _ hw)
    rw [branchLoop_cons]
    obtain ⟨w, hw, hk, hl, hc⟩ := hex
    have hm := branchLoop_mono c v ws
      (psc + (if IsChild c v x ∧ c.lowlink x < c.rank v then c.subtreeActiveCount x else 0))
      (nn + (if IsChild c v x ∧ ¬ c.lowlink x < c.rank v ∧ c.subtreeActiveCount x > 0
        then 1 else 0)) h2
    rcases List.mem_cons.mp hw with e | hw
    · subst e
      rw [if_pos ⟨hk, hl⟩] at hm ⊢
      omega
    · have := ih (psc + (if IsChild c v x ∧ c.lowlink x < c.rank v
          then c.subtreeActiveCount x else 0))
        (nn + (if IsChild c v x ∧ ¬ c.lowlink x < c.rank v ∧ c.subtreeActiveCount x > 0
          then 1 else 0)) h2 ⟨w, hw, hk, hl, hc⟩
      have h0 : 0 ≤ (if IsChild c v x ∧ c.lowlink x < c.rank v
          then c.subtreeActiveCount x else 0) := by
        split_ifs with hc
        · exact h x (List.mem_cons_self _ _) hc.1
        · exact le_refl _
      omega

theorem branchLoop_one (c : ActiveVerticesConnected) (v : Nat) :
    ∀ (ws : List Nat) (psc nn : Int),
      (∀ w ∈ ws, IsChild c v w → 0 ≤ c.subtreeActiveCount w) →
      (∃ w ∈ ws, IsChild c v w ∧ ¬ c.lowlink w < c.rank v ∧ c.subtreeActiveCount w > 0) →
      nn + 1 ≤ (branchLoop c v ws psc nn).2 := by
  intro ws
  induction ws with
  | nil => intro psc nn _ h; obtain ⟨w, hw, _⟩ := h; simp at hw
  | cons x ws ih =>
    intro psc nn h hex
    have h2 : ∀ w ∈ ws, IsChild c v w → 0 ≤ c.subtreeActiveCount w :=
      fun w hw => h w (List.mem_cons_of_mem _ hw)
    rw [branchLoop_cons]
    obtain ⟨w, hw, hk, hl, hc⟩ := hex
    have hm := branchLoop_mono c v ws
      (psc + (if IsChild c v x ∧ c.lowlink x < c.rank v then c.subtreeActiveCount x else 0))
      (nn + (if IsChild c v x ∧ ¬ c.lowlink x < c.rank v ∧ c.subtreeActiveCount x > 0
        then 1 else 0)) h2
    rcases List.mem_cons.mp hw with e | hw
    · subst e
      have hcond : IsChild c v w ∧ ¬ c.lowlink w < c.rank v ∧ c.subtreeActiveCount w > 0 :=
        ⟨hk, hl, hc⟩
      rw [if_pos hcond] at hm ⊢
      omega
    · have := ih (psc + (if IsChild c v x ∧ c.lowlink x < c.rank v
          then c.subtreeActiveCount x else 0))
        (nn + (if IsChild c v x ∧ ¬ c.lowlink x < c.rank v ∧ c.subtreeActiveCount x > 0
          then 1 else 0)) h2 ⟨w, hw, hk, hl, hc⟩
      have h1 : (0 : Int) ≤ (if IsChild c v x ∧ ¬ c.lowlink x < c.rank v ∧
          c.subtreeActiveCount x > 0 then 1 else 0) := by
        split_ifs <;> omega
      omega

theorem branchLoop_two (c : ActiveVerticesConnected) (v : Nat) :
    ∀ (ws : List Nat) (psc nn : Int),
      (∀ w ∈ ws, IsChild c v w → 0 ≤ c.subtreeActiveCount w) →
      (∃ w1 ∈ ws, ∃ w2 ∈ ws, w1 ≠ w2 ∧
        (IsChild c v w1 ∧ ¬ c.lowlink w1 < c.rank v ∧ c.subtreeActiveCount w1 > 0) ∧
        (IsChild c v w2 ∧ ¬ c.lowlink w2 < c.rank v ∧ c.subtreeActiveCount w2 > 0)) →
      nn + 2 ≤ (branchLoop c v ws psc nn).2 := by
  intro ws
  induction ws with
  | nil => intro psc nn _ h; obtain ⟨w, hw, _⟩ := h; simp at hw
  | cons x ws ih =>
    intro psc nn h hex
    have h2 : ∀ w ∈ ws, IsChild c v w → 0 ≤ c.subtreeActiveCount w :=
      fun w hw => h w (List.mem_cons_of_mem _ hw)
    rw [branchLoop_cons]
    obtain ⟨w1, hw1, w2, hw2, hne, g1, g2⟩ := hex
    have h1 : (0 : Int) ≤ (if IsChild c v x ∧ ¬ c.lowlink x < c.rank v ∧
        c.subtreeActiveCount x > 0 then 1 else 0) := by
      split_ifs <;> omega
    rcases List.mem_cons.mp hw1 with e1 | hw1t
    · subst e1
      rcases List.mem_cons.mp hw2 with e2 | hw2t
      · exact absurd e2.symm hne
      · have := branchLoop_one c v ws
          (psc + (if IsChild c v w1 ∧ c.lowlink w1 < c.rank v
            then c.subtreeActiveCount w1 else 0))
          (nn + (if IsChild c v w1 ∧ ¬ c.lowlink w1 < c.rank v ∧ c.subtreeActiveCount w1 > 0
            then 1 else 0)) h2 ⟨w2, hw2t, g2⟩
        rw [if_pos g1] at this ⊢
        omega
    · rcases List.mem_cons.mp hw2 with e2 | hw2t
      · subst e2
        have := branchLoop_one c v ws
          (psc + (if IsChild c v w2 ∧ c.lowlink w2 < c.rank v
            then c.subtreeActiveCount w2 else 0))
          (nn + (if IsChild c v w2 ∧ ¬ c.lowlink w2 < c.rank v ∧ c.subtreeActiveCount w2 > 0
            then 1 else 0)) h2 ⟨w1, hw1t, g1⟩
        rw [if_pos g2] at this ⊢
        omega
      · have := ih (psc + (if IsChild c v x ∧ c.lowlink x < c.rank v
            then c.subtreeActiveCount x else 0))
          (nn + (if IsChild c v x ∧ ¬ c.lowlink x < c.rank v ∧ c.subtreeActiveCount x > 0
            then 1 else 0)) h2 ⟨w1, hw1t, w2, hw2t, hne, g1, g2⟩
        omega

theorem Conn.symm_conn {c : ActiveVerticesConnected} (hs : AdjSymm c) {P : Nat → Prop} {a b : Nat}
    (h : Conn c P a b) : Conn c P b a := by
  unfold Conn at h ⊢
  exact Relation.ReflTransGen.symmetric (fun x y hxy => ⟨hs x y hxy.1, hxy.2.2, hxy.2.1⟩) h

theorem Conn.trans {c : ActiveVerticesConnected} {P : Nat → Prop} {a b d : Nat}
    (h : Conn c P a b) (h2 : Conn c P b d) : Conn c P a d :=
  Relation.ReflTransGen.trans h h2

theorem branchCount_eq (c : ActiveVerticesConnected) (r0 v : Nat) :
    branchCount c (r0 : Int) v =
      if (branchLoop c v (c.adj v) (c.subtreeActiveCount r0 - c.subtreeActiveCount v) 0).1 > 0
      then (branchLoop c v (c.adj v) (c.subtreeActiveCount r0 - c.subtreeActiveCount v) 0).2 + 1
      else (branchLoop c v (c.adj v) (c.subtreeActiveCount r0 - c.subtreeActiveCount v) 0).2 := by
  simp only [branchCount, Int.toNat_ofNat]

/-- Completeness of the articulation test: when fewer than two branches are counted for
an Undecided vertex `v` of the nonempty cluster, all Active vertices stay connected after
`v` is deleted. -/
theorem articulation_complete {c : ActiveVerticesConnected} {n : Nat} (hF : Forest c n)
    (hall : ∀ j, j < n → c.state j ≠ kInactive → c.rank j ≠ -1) {r0 v : Nat} (hv : v < n)
    (hvU : c.state v = kUndecided) (hcid : c.clusterId v = (r0 : Int))
    (hAct : ∀ x, x < n → c.rank x ≠ -1 → c.state x = kActive → c.clusterId x = (r0 : Int))
    (hbc : branchCount c (r0 : Int) v < 2) :
    ∀ a b, a < n → b < n → c.state a = kActive → c.state b = kActive →
      ConnAvoid c v a b := by
  have hvv : c.rank v ≠ -1 := hall v hv (by rw [hvU]; simp)
  obtain ⟨r, T, h1, h2, h3, h4, h5⟩ := hF.root v hv hvv
  have hr : r = r0 := by rw [hcid] at h1; exact_mod_cast h1.symm
  subst hr
  have hvT : v ∈ T := (h5 v).mpr ⟨hv, hvv, hcid⟩
  have hTok := Tr.mem_ok h4
  -- the complete trace of `v`
  have hSv : ∃ Sv : Finset Nat, Done c v Sv ∧ Sv ⊆ T ∧
      ∀ y ∈ T, y ∉ Sv → ConnAvoid c v r y := by
    by_cases hvr : v = r
    · subst hvr
      exact ⟨T, h4, fun x hx => hx, fun y hy hyn => absurd hy hyn⟩
    · obtain ⟨Sv, g1, g2, g3, g4⟩ := Tr.locate h4 (fun w hw => hw) v hvT hvr
      refine ⟨Sv, g1, g2, fun y hy hyn => ?_⟩
      exact Conn.mono (fun x hx => ⟨(hTok x hx.1).2.1, fun e => hx.2 (e ▸ Tr.root_mem g1)⟩)
        (g4 y hy hyn)
  obtain ⟨Sv, hdv, hsub, hout⟩ := hSv
  have hvSv := Tr.root_mem hdv
  have hSvok := Tr.mem_ok hdv
  have hcT := Tr.count_eq h4
  have hcv := Tr.count_eq hdv
  have hfsub : Sv.filter (fun y => c.state y = kActive) ⊆ T.filter (fun y => c.state y = kActive) :=
    Finset.filter_subset_filter _ hsub
  have hpsc0 : 0 ≤ c.subtreeActiveCount r - c.subtreeActiveCount v := by
    have := Finset.card_le_card hfsub
    rw [hcT, hcv]; omega
  have hrv0 := (hF.rankInv.bound v hv hvv).1
  have hnn : ∀ w ∈ c.adj v, IsChild c v w → 0 ≤ c.subtreeActiveCount w := by
    intro w hw hk
    exact hF.count_nonneg (hF.adjBound v w hw) (by have := hk.1; omega)
  have hmono := branchLoop_mono c v (c.adj v)
    (c.subtreeActiveCount r - c.subtreeActiveCount v) 0 hnn
  have hbc2 := hbc
  rw [branchCount_eq] at hbc2
  -- every Active vertex hangs on the parent side or below a counted child
  have key : ∀ a, a < n → c.state a = kActive →
      (ConnAvoid c v r a ∧
        0 < (branchLoop c v (c.adj v)
          (c.subtreeActiveCount r - c.subtreeActiveCount v) 0).1) ∨
      (∃ w ∈ c.adj v, (IsChild c v w ∧ ¬ c.lowlink w < c.rank v ∧
        c.subtreeActiveCount w > 0) ∧ ConnAvoid c v w a) := by
    intro a ha haA
    have hav : c.rank a ≠ -1 := hall a ha (by rw [haA]; simp)
    have haT : a ∈ T := (h5 a).mpr ⟨ha, hav, hAct a ha hav haA⟩
    have hane : a ≠ v := by intro e; rw [e, hvU] at haA; simp at haA
    by_cases haS : a ∈ Sv
    · obtain ⟨w, Sw, g1, g2, g3, g4, g5, g6, g7⟩ := Tr.childCover hdv a haS hane
      have hSwok := Tr.mem_ok g4
      have hwa : ConnAvoid c v w a :=
        Conn.mono (fun x hx => ⟨(hSwok x hx).2.1, fun e => g7 (e ▸ hx)⟩)
          (Tr.rootPath g4 (fun x hx => hx) a g5)
      have hcw : c.subtreeActiveCount w > 0 := by
        rw [Tr.count_eq g4]
        have : 0 < (Sw.filter (fun y => c.state y = kActive)).card :=
          Finset.card_pos.mpr ⟨a, Finset.mem_filter.mpr ⟨g5, haA⟩⟩
        omega
      by_cases hl : c.lowlink w < c.rank v
      · left
        obtain ⟨l1, l2⟩ := Tr.lowSound g4 (fun x hx => hx)
        rcases l2 with l2 | ⟨y, hy, z, hz, e1, e2, e3⟩
        · omega
        · have hyok := hSwok y hy
          have hyn : y < n := by rw [← hF.sized.lits]; exact hyok.1
          have hzn : z < n := hF.adjBound y z hz
          have hzS : z ∉ Sv := by
            intro hzs
            have := (hSvok z hzs).2.2.2.1
            omega
          have hycid : c.clusterId y = (r : Int) := ((h5 y).mp (hsub (g6 hy))).2.2
          have hzT : z ∈ T := by
            refine (h5 z).mpr ⟨hzn, e2, ?_⟩
            rw [(hF.closed y hyn hyok.2.2.1 z hz e1).2, hycid]
          have p1 : ConnAvoid c v r z := hout z hzT hzS
          have p2 : ConnAvoid c v z y :=
            Relation.ReflTransGen.single ⟨hF.adjSymm y z hz,
              ⟨e1, fun e => hzS (e ▸ hvSv)⟩, ⟨hyok.2.1, fun e => g7 (e ▸ hy)⟩⟩
          have p3 : ConnAvoid c v w y :=
            Conn.mono (fun x hx => ⟨(hSwok x hx).2.1, fun e => g7 (e ▸ hx)⟩)
              (Tr.rootPath g4 (fun x hx => hx) y hy)
          refine ⟨(p1.trans p2).trans ((Conn.symm_conn hF.adjSymm p3).trans hwa), ?_⟩
          have := branchLoop_side c v (c.adj v)
            (c.subtreeActiveCount r - c.subtreeActiveCount v) 0 hnn
            ⟨w, g1, ⟨g3, g2⟩, hl, hcw⟩
          omega
      · right
        exact ⟨w, g1, ⟨⟨g3, g2⟩, hl, hcw⟩, hwa⟩
    · left
      refine ⟨hout a haT haS, ?_⟩
      have hlt : (Sv.filter (fun y => c.state y = kActive)).card <
          (T.filter (fun y => c.state y = kActive)).card := by
        apply Finset.card_lt_card
        rw [Finset.ssubset_iff_of_subset hfsub]
        exact ⟨a, Finset.mem_filter.mpr ⟨haT, haA⟩, fun e => haS (Finset.mem_filter.mp e).1⟩
      have := hmono.1
      rw [hcT, hcv] at this ⊢
      omega
  intro a b ha hb haA hbA
  rcases key a ha haA with ⟨pa, qa⟩ | ⟨wa, hwa, ka, pa⟩
  · rcases key b hb hbA with ⟨pb, _⟩ | ⟨wb, hwb, kb, pb⟩
    · exact (Conn.symm_conn hF.adjSymm pa).trans pb
    · exfalso
      have := branchLoop_one c v (c.adj v)
        (c.subtreeActiveCount r - c.subtreeActiveCount v) 0 hnn ⟨wb, hwb, kb⟩
      rw [if_pos qa] at hbc2
      omega
  · rcases key b hb hbA with ⟨pb, qb⟩ | ⟨wb, hwb, kb, pb⟩
    · exfalso
      have := branchLoop_one c v (c.adj v)
        (c.subtreeActiveCount r - c.subtreeActiveCount v) 0 hnn ⟨wa, hwa, ka⟩
      rw [if_pos qb] at hbc2
      omega
    · by_cases hw : wa = wb
      · subst hw
        exact (Conn.symm_conn hF.adjSymm pa).trans pb
      · exfalso
        have := branchLoop_two c v (c.adj v)
          (c.subtreeActiveCount r - c.subtreeActiveCount v) 0 hnn
          ⟨wa, hwa, wb, hwb, hw, ka, kb⟩
        have h0 := hmono.2
        split_ifs at hbc2 <;> omega

/-! ### Properties of `propagate` -/

/-- C1 (conflict soundness and connectivity invariant). For every literal list, every edge
list with indices in range and every VertexState array `st` left by the refresh loop for
`p`, the call `propagate(solver, p)` returns; it returns `false` if two Active vertices
are not joined by a path in the graph restricted to the vertices that are not Inactive,
and whenever it returns `true` any two Active vertices are joined by such a path, that
is, all Active vertices lie in one connected component of that graph. -/
theorem propagate_true_implies_connected {S : Type} (ops : SolverOps S) (s : S) (p : Lit)
    (lits : List Lit) (edges : List (Nat × Nat)) (c : ActiveVerticesConnected)
    (st : List NodeState) (hB : Built lits edges c) (hE : InRange lits.length edges)
    (hr : refreshed ops s p c = some st) :
    ∃ r, propagate ops s p c = Outcome.returned r ∧ r.self.state_ = st ∧
      ((∃ a b, a < lits.length ∧ b < lits.length ∧ st.getD a kUndecided = kActive ∧
          st.getD b kUndecided = kActive ∧ ¬ Connected edges st a b) → r.ret = false) ∧
      (r.ret = true → ∀ a b, a < lits.length → b < lits.length →
        st.getD a kUndecided = kActive → st.getD b kUndecided = kActive →
        Connected edges st a b) := by
  obtain ⟨r, h1, h2, hF, hB2, hS⟩ := propagate_summary ops s p hB hE hr
  have main : r.ret = true → ∀ a b, a < lits.length → b < lits.length →
      st.getD a kUndecided = kActive → st.getD b kUndecided = kActive →
      Connected edges st a b := by
    intro ht a b ha hb haA hbA
    subst h2
    rcases hS with ⟨hf, _⟩ | ⟨ne, hC, hall, _⟩
    · rw [ht] at hf; exact absurd hf (by simp)
    · have hav : r.self.rank a ≠ -1 := hall a ha (by unfold state; rw [haA]; simp)
      have hbv : r.self.rank b ≠ -1 := hall b hb (by unfold state; rw [hbA]; simp)
      by_cases hne : ne = -1
      · exact absurd haA (hC.empty hne a ha hav)
      · obtain ⟨r0, _, _, _, _, _, h6⟩ := hC.single hne
        exact hF.cluster_connected hB2 hE ha hav hb hbv
          ((h6 a ha hav haA).trans (h6 b hb hbv hbA).symm)
  refine ⟨r, h1, h2, ?_, main⟩
  rintro ⟨a, b, ha, hb, haA, hbA, hnc⟩
  by_contra hret
  have ht : r.ret = true := by simpa using hret
  exact hnc (main ht a b ha hb haA hbA)

/-- C5 (`false` only for a logical conflict). For every graph and every VertexState array
`st` left by the refresh loop, `propagate` returns; if it returns `false` then two Active
vertices lie in different connected components of the graph restricted to the vertices
that are not Inactive, or one of the `enqueue` calls made by `propagate` was answered
`false`; if neither is the case it returns `true`. -/
theorem propagate_false_iff_conflict {S : Type} (ops : SolverOps S) (s : S) (p : Lit)
    (lits : List Lit) (edges : List (Nat × Nat)) (c : ActiveVerticesConnected)
    (st : List NodeState) (hB : Built lits edges c) (hE : InRange lits.length edges)
    (hr : refreshed ops s p c = some st) :
    ∃ r, propagate ops s p c = Outcome.returned r ∧ r.self.state_ = st ∧
      (r.ret = false →
        (∃ a b, a < lits.length ∧ b < lits.length ∧ st.getD a kUndecided = kActive ∧
          st.getD b kUndecided = kActive ∧ ¬ Connected edges st a b) ∨
        (∃ e ∈ r.calls, e.answer = false)) ∧
      ((¬ ∃ a b, a < lits.length ∧ b < lits.length ∧ st.getD a kUndecided = kActive ∧
          st.getD b kUndecided = kActive ∧ ¬ Connected edges st a b) →
        (∀ e ∈ r.calls, e.answer = true) → r.ret = true) := by
  obtain ⟨r, h1, h2, hF, hB2, hS⟩ := propagate_summary ops s p hB hE hr
  have main : r.ret = false →
      (∃ a b, a < lits.length ∧ b < lits.length ∧ st.getD a kUndecided = kActive ∧
        st.getD b kUndecided = kActive ∧ ¬ Connected edges st a b) ∨
      (∃ e ∈ r.calls, e.answer = false) := by
    intro hf
    subst h2
    rcases hS with ⟨_, _, a, b, ha, hb, hav, hbv, haA, hbA, hab⟩ | ⟨ne, hC, hall, hcase⟩
    · left
      refine ⟨a, b, ha, hb, haA, hbA, fun hcon => ?_⟩
      exact hab (hF.path_cluster hB2 hE ha hav hcon).2.2.symm
    · rcases hcase with ⟨_, ht, _⟩ | ⟨hne, hfl⟩
      · rw [hf] at ht; exact absurd ht (by simp)
      · right
        obtain ⟨added, g1, _, g3, _⟩ := forceLoop_spec ops r.self ne (List.range lits.length)
          (ops.registerUndo s p.var) []
        rw [← hfl] at g1 g3
        simp only [List.nil_append] at g1
        rw [g1]
        exact g3.mp hf
  refine ⟨r, h1, h2, main, ?_⟩
  intro hnc hall
  by_contra hret
  have hf : r.ret = false := by simpa using hret
  rcases main hf with h | ⟨e, he, hef⟩
  · exact hnc h
  · rw [hall e he] at hef; exact absurd hef (by simp)

theorem Lit.neg_ne (l : Lit) : l.neg ≠ l := by
  intro h
  have := congrArg Lit.sign h
  simp [Lit.neg] at this

/-- C3 (no vertex of the active component is forced Inactive). For every graph and every
VertexState array `st` left by the refresh loop: whenever `propagate` calls
`enqueue(~lits[v])` in the iteration of its forcing loop for vertex `v`, the vertex `v` is
Undecided and is not joined to any Active vertex by a path in the graph restricted to the
vertices that are not Inactive. When no two vertices share a variable, the same holds for
every vertex `v` such that some call of `enqueue` was passed the literal `~lits[v]`. -/
theorem forced_inactive_not_connected {S : Type} (ops : SolverOps S) (s : S) (p : Lit)
    (lits : List Lit) (edges : List (Nat × Nat)) (c : ActiveVerticesConnected)
    (st : List NodeState) (hB : Built lits edges c) (hE : InRange lits.length edges)
    (hr : refreshed ops s p c = some st) :
    ∃ r, propagate ops s p c = Outcome.returned r ∧ r.self.state_ = st ∧
      (∀ (v : Nat) (answer : Bool),
        (⟨v, (lits.getD v (mkLit 0)).neg, answer⟩ : EnqCall) ∈ r.calls →
        v < lits.length ∧ st.getD v kUndecided = kUndecided ∧
        ∀ a, a < lits.length → st.getD a kUndecided = kActive →
          ¬ Connected edges st v a) ∧
      ((∀ u w, u < lits.length → w < lits.length →
          (lits.getD u (mkLit 0)).var = (lits.getD w (mkLit 0)).var → u = w) →
        ∀ e ∈ r.calls, ∀ v, v < lits.length → e.lit = (lits.getD v (mkLit 0)).neg →
          st.getD v kUndecided = kUndecided ∧
          ∀ a, a < lits.length → st.getD a kUndecided = kActive →
            ¬ Connected edges st v a) := by
  obtain ⟨r, h1, h2, hF, hB2, hS⟩ := propagate_summary ops s p hB hE hr
  have hlit : ∀ v, r.self.lit v = lits.getD v (mkLit 0) := by
    intro v; unfold lit; rw [hB2.hlits]
  -- every call is justified by the vertex in whose iteration it was made
  have hjust : ∀ e ∈ r.calls, ∃ ne : Int, ne ≠ -1 ∧ CensusFacts r.self lits.length ne ∧
      (∀ j, j < lits.length → r.self.state j ≠ kInactive → r.self.rank j ≠ -1) ∧
      e.vertex < lits.length ∧ Justified r.self ne e := by
    intro e he
    rcases hS with ⟨_, hnil, _⟩ | ⟨ne, hC, hall, hcase⟩
    · rw [hnil] at he; simp at he
    · rcases hcase with ⟨_, _, hnil⟩ | ⟨hne, hfl⟩
      · rw [hnil] at he; simp at he
      · obtain ⟨added, g1, g2, _, _⟩ := forceLoop_spec ops r.self ne (List.range lits.length)
          (ops.registerUndo s p.var) []
        rw [← hfl] at g1
        simp only [List.nil_append] at g1
        rw [g1] at he
        exact ⟨ne, hne, hC, hall, List.mem_range.mp (g2 e he).1, (g2 e he).2⟩
  have main : ∀ (v : Nat) (answer : Bool),
      (⟨v, (lits.getD v (mkLit 0)).neg, answer⟩ : EnqCall) ∈ r.calls →
      v < lits.length ∧ st.getD v kUndecided = kUndecided ∧
      ∀ a, a < lits.length → st.getD a kUndecided = kActive → ¬ Connected edges st v a := by
    intro v answer hmem
    subst h2
    obtain ⟨ne, hne, hC, hall, hvn, hvU, hj2⟩ := hjust _ hmem
    simp only at hvn hvU hj2
    rcases hj2 with ⟨hcid, _⟩ | ⟨_, _, hl⟩
    · refine ⟨hvn, hvU, ?_⟩
      intro a ha haA hcon
      have hvv : r.self.rank v ≠ -1 := hall v hvn (by rw [hvU]; simp)
      have hav : r.self.rank a ≠ -1 := hall a ha (by unfold state; rw [haA]; simp)
      obtain ⟨r0, e0, _, _, _, _, h6⟩ := hC.single hne
      have := (hF.path_cluster hB2 hE hvn hvv hcon).2.2
      rw [h6 a ha hav haA, ← e0] at this
      exact hcid this.symm
    · rw [hlit] at hl
      exact absurd hl (Lit.neg_ne _)
  refine ⟨r, h1, h2, main, ?_⟩
  intro hinj e he v hv hel
  obtain ⟨ne, _, _, _, hun, _, hj2⟩ := hjust e he
  have huv : e.vertex = v := by
    apply hinj e.vertex v hun hv
    rcases hj2 with ⟨_, hl⟩ | ⟨_, _, hl⟩
    · rw [hlit] at hl
      rw [hl] at hel
      have := congrArg Lit.var hel
      simpa [Lit.neg] using this
    · rw [hlit] at hl
      rw [hl] at hel
      have := congrArg Lit.var hel
      simpa [Lit.neg] using this
  have hmem : (⟨v, (lits.getD v (mkLit 0)).neg, e.answer⟩ : EnqCall) ∈ r.calls := by
    have he2 : e = ⟨v, (lits.getD v (mkLit 0)).neg, e.answer⟩ := by
      cases e
      simp only at huv hel
      rw [huv, hel]
    rw [← he2]
    exact he
  exact (main v e.answer hmem).2

/-- C4 (forcing is complete). For every graph and every VertexState array `st` left by
the refresh loop in which some vertex is Active and all Active vertices are connected in
the graph restricted to the vertices that are not Inactive: if every `enqueue` call is
answered `true`, then `propagate` returns `true`, it has called `enqueue(lits[v])` for
every Undecided vertex `v` of the component of the Active vertices whose deletion leaves
two Active vertices unconnected, and it has called `enqueue(~lits[v])` for every Undecided
vertex `v` that is connected to no Active vertex. -/
theorem propagate_forces_every_implied {S : Type} (ops : SolverOps S) (s : S) (p : Lit)
    (lits : List Lit) (edges : List (Nat × Nat)) (c : ActiveVerticesConnected)
    (st : List NodeState) (hB : Built lits edges c) (hE : InRange lits.length edges)
    (hr : refreshed ops s p c = some st)
    (hex : ∃ a, a < lits.length ∧ st.getD a kUndecided = kActive)
    (hone : ∀ a b, a < lits.length → b < lits.length → st.getD a kUndecided = kActive →
      st.getD b kUndecided = kActive → Connected edges st a b) :
    ∃ r, propagate ops s p c = Outcome.returned r ∧ r.self.state_ = st ∧
      ((∀ e ∈ r.calls, e.answer = true) →
        r.ret = true ∧
        (∀ v, v < lits.length → st.getD v kUndecided = kUndecided →
          (∃ a, a < lits.length ∧ st.getD a kUndecided = kActive ∧ Connected edges st v a) →
          (∃ a b, a < lits.length ∧ b < lits.length ∧ st.getD a kUndecided = kActive ∧
            st.getD b kUndecided = kActive ∧ ¬ ConnectedWithout edges st v a b) →
          (⟨v, lits.getD v (mkLit 0), true⟩ : EnqCall) ∈ r.calls) ∧
        (∀ v, v < lits.length → st.getD v kUndecided = kUndecided →
          (∀ a, a < lits.length → st.getD a kUndecided = kActive →
            ¬ Connected edges st v a) →
          (⟨v, (lits.getD v (mkLit 0)).neg, true⟩ : EnqCall) ∈ r.calls)) := by
  obtain ⟨r, h1, h2, hF, hB2, hS⟩ := propagate_summary ops s p hB hE hr
  refine ⟨r, h1, h2, ?_⟩
  intro hans
  subst h2
  have hlit : ∀ v, r.self.lit v = lits.getD v (mkLit 0) := by
    intro v; unfold lit; rw [hB2.hlits]
  obtain ⟨a0, ha0, ha0A⟩ := hex
  rcases hS with ⟨_, _, a, b, ha, hb, hav, hbv, haA, hbA, hab⟩ | ⟨ne, hC, hall, hcase⟩
  · exfalso
    exact hab (hF.path_cluster hB2 hE ha hav (hone a b ha hb haA hbA)).2.2.symm
  · have ha0v : r.self.rank a0 ≠ -1 := hall a0 ha0 (by unfold state; rw [ha0A]; simp)
    rcases hcase with ⟨hne, _, _⟩ | ⟨hne, hfl⟩
    · exact absurd ha0A (hC.empty hne a0 ha0 ha0v)
    · obtain ⟨r0, e0, _, _, _, _, h6⟩ := hC.single hne
      obtain ⟨added, g1, _, g3, g4⟩ := forceLoop_spec ops r.self ne (List.range lits.length)
        (ops.registerUndo s p.var) []
      rw [← hfl] at g1 g3 g4
      simp only [List.nil_append] at g1
      rw [← g1] at g3 g4
      have hret : r.ret = true := by
        by_contra hret
        have hf : r.ret = false := by simpa using hret
        obtain ⟨e, he, hef⟩ := g3.mp hf
        rw [hans e he] at hef; exact absurd hef (by simp)
      refine ⟨hret, ?_, ?_⟩
      · intro v hv hvU ⟨a, ha, haA, hcon⟩ hsplit
        have hvv : r.self.rank v ≠ -1 := hall v hv (by unfold state; rw [hvU]; simp)
        have hav : r.self.rank a ≠ -1 := hall a ha (by unfold state; rw [haA]; simp)
        have hcid : r.self.clusterId v = (r0 : Int) := by
          rw [← (hF.path_cluster hB2 hE hv hvv hcon).2.2]
          exact h6 a ha hav haA
        have hbc : branchCount r.self ne v ≥ 2 := by
          by_contra hlt
          have hlt2 : branchCount r.self (r0 : Int) v < 2 := by rw [← e0]; omega
          obtain ⟨x, y, hx, hy, hxA, hyA, hxy⟩ := hsplit
          apply hxy
          have := articulation_complete hF hall hv hvU hcid h6 hlt2 x y hx hy hxA hyA
          exact (hB2.conn_iff hE _ x y).mp this
        have := (g4 hret v (List.mem_range.mpr hv) hvU).2 (by rw [hcid, e0]) hbc
        rw [hlit] at this
        exact this
      · intro v hv hvU hnc
        have hvv : r.self.rank v ≠ -1 := hall v hv (by unfold state; rw [hvU]; simp)
        have hcid : r.self.clusterId v ≠ ne := by
          intro e
          apply hnc a0 ha0 ha0A
          exact hF.cluster_connected hB2 hE hv hvv ha0 ha0v
            (by rw [e, e0]; exact (h6 a0 ha0 ha0v ha0A).symm)
        have := (g4 hret v (List.mem_range.mpr hv) hvU).1 hcid
        rw [hlit] at this
        exact this

/-! ### What `propagate` leaves unchanged -/

theorem sameShape_refl (c : ActiveVerticesConnected) : SameShape c c :=
  ⟨sameStatic_refl c, rfl, rfl, rfl, rfl, rfl⟩

theorem SameShape.andThenShape {a b c : ActiveVerticesConnected} (h1 : SameShape a b)
    (h2 : SameShape b c) : SameShape a c :=
  ⟨h1.1.andThen h2.1, h2.2.1.trans h1.2.1, h2.2.2.1.trans h1.2.2.1,
    h2.2.2.2.1.trans h1.2.2.2.1, h2.2.2.2.2.1.trans h1.2.2.2.2.1,
    h2.2.2.2.2.2.trans h1.2.2.2.2.2⟩

theorem enter_shape (c : ActiveVerticesConnected) (v : Nat) (p k : Int) :
    SameShape c (c.enter v p k) := by
  refine ⟨enter_static c v p k, ?_, rfl, rfl, ?_, ?_⟩ <;> simp [enter]

theorem leave_shape (c : ActiveVerticesConnected) (v : Nat) (l k : Int) :
    SameShape c (c.leave v l k) := by
  refine ⟨leave_static c v l k, rfl, ?_, ?_, rfl, rfl⟩ <;> simp [leave]

theorem buildLoop_shape (call : Nat → Int → Int → ActiveVerticesConnected →
      Option (Int × ActiveVerticesConnected))
    (hcall : ∀ w par cid c r c1, call w par cid c = some (r, c1) → SameShape c c1)
    (v : Nat) (par cid : Int) :
    ∀ (ws : List Nat) (low cnt : Int) (c : ActiveVerticesConnected) (low1 cnt1 : Int)
      (c1 : ActiveVerticesConnected),
      buildLoop call v par cid ws low cnt c = some (low1, cnt1, c1) → SameShape c c1 := by
  intro ws
  induction ws with
  | nil =>
    intro low cnt c low1 cnt1 c1 h
    simp only [buildLoop, Option.some.injEq, Prod.mk.injEq] at h
    rw [← h.2.2]; exact sameShape_refl c
  | cons w ws ih =>
    intro low cnt c low1 cnt1 c1 h
    rw [buildLoop] at h
    split_ifs at h with h1 h2
    · exact ih _ _ _ _ _ _ h
    · cases hc : call w (v : Int) cid c with
      | none => rw [hc] at h; exact absurd h (by simp)
      | some rc =>
        obtain ⟨r, c2⟩ := rc
        rw [hc] at h
        exact (hcall _ _ _ _ _ _ hc).andThenShape (ih _ _ _ _ _ _ h)
    · exact ih _ _ _ _ _ _ h

theorem buildTree_shape : ∀ (fuel v : Nat) (par cid : Int) (c : ActiveVerticesConnected)
    (r : Int) (c1 : ActiveVerticesConnected),
    buildTree fuel v par cid c = some (r, c1) → SameShape c c1 := by
  intro fuel
  induction fuel with
  | zero => intro v par cid c r c1 h; simp [buildTree] at h
  | succ fuel ih =>
    intro v par cid c r c1 h
    simp only [buildTree] at h
    cases hl : buildLoop (buildTree fuel) v par cid ((c.enter v par cid).adj v)
        ((c.enter v par cid).rank v) (if (c.enter v par cid).state v = kActive then 1 else 0)
        (c.enter v par cid) with
    | none => rw [hl] at h; exact absurd h (by simp)
    | some res =>
      obtain ⟨low, cnt, c2⟩ := res
      rw [hl] at h
      simp only [Option.some.injEq, Prod.mk.injEq] at h
      rw [← h.2]
      exact ((enter_shape c v par cid).andThenShape
        (buildLoop_shape _ ih v par cid _ _ _ _ _ _ _ hl)).andThenShape
        (leave_shape c2 v low cnt)

theorem census_shape (fuel : Nat) : ∀ (is : List Nat) (ne : Int) (c : ActiveVerticesConnected),
    (∀ c1, census fuel is ne c = Census.conflict c1 → SameShape c c1) ∧
    (∀ ne1 c1, census fuel is ne c = Census.done ne1 c1 → SameShape c c1) := by
  intro is
  induction is with
  | nil =>
    intro ne c
    constructor
    · intro c1 h; simp [census] at h
    · intro ne1 c1 h
      simp only [census, Census.done.injEq] at h
      rw [← h.2]; exact sameShape_refl c
  | cons i is ih =>
    intro ne c
    by_cases hcond : c.state i ≠ kInactive ∧ c.rank i = kUnvisited
    · cases hb : buildTree fuel i (-1) (i : Int) c with
      | none =>
        have e : census fuel (i :: is) ne c = Census.outOfFuel := by
          rw [census, if_pos hcond, hb]
        rw [e]
        exact ⟨fun c1 h => by simp at h, fun ne1 c1 h => by simp at h⟩
      | some rc =>
        obtain ⟨r, c2⟩ := rc
        have hs := buildTree_shape _ _ _ _ _ _ _ hb
        have e : census fuel (i :: is) ne c =
            if c2.subtreeActiveCount i ≥ 1 then
              if ne ≠ -1 then Census.conflict c2 else census fuel is (i : Int) c2
            else census fuel is ne c2 := by
          rw [census, if_pos hcond, hb]
        rw [e]
        split_ifs with h1 h2
        · constructor
          · intro c1 h
            simp only [Census.conflict.injEq] at h
            rw [← h]; exact hs
          · intro ne1 c1 h; simp at h
        · exact ⟨fun c1 h => hs.andThenShape ((ih _ _).1 c1 h),
            fun ne1 c1 h => hs.andThenShape ((ih _ _).2 ne1 c1 h)⟩
        · exact ⟨fun c1 h => hs.andThenShape ((ih _ _).1 c1 h),
            fun ne1 c1 h => hs.andThenShape ((ih _ _).2 ne1 c1 h)⟩
    · have e : census fuel (i :: is) ne c = census fuel is ne c := by
        rw [census, if_neg hcond]
      rw [e]
      exact ih ne c

theorem resetDfs_shape (c : ActiveVerticesConnected) : SameShape c (resetDfs c) := by
  refine ⟨resetDfs_static c, ?_, ?_, ?_, ?_, ?_⟩ <;> simp [resetDfs]

/-- A returning call of `propagate` passed the refresh loop, left the refreshed
VertexState, and changed neither the literals, nor the adjacency lists, nor the sizes of
the search vectors. -/
theorem propagate_shape {S : Type} (ops : SolverOps S) (s : S) (p : Lit)
    (c : ActiveVerticesConnected) (r : PropagateResult S)
    (h : propagate ops s p c = Outcome.returned r) :
    ∃ st, refreshed ops s p c = some st ∧ SameShape { c with state_ := st } r.self := by
  unfold refreshed
  simp only [propagate] at h
  cases hr : refresh ops (ops.registerUndo s p.var) p c.lits_ (List.range c.lits_.length)
      c.state_ with
  | none => rw [hr] at h; simp at h
  | some st =>
    rw [hr] at h
    refine ⟨st, rfl, ?_⟩
    simp only at h
    have hs0 := resetDfs_shape { c with state_ := st }
    cases hc : census c.lits_.length (List.range c.lits_.length) (-1)
        (resetDfs { c with state_ := st }) with
    | outOfFuel => rw [hc] at h; simp at h
    | conflict c2 =>
      rw [hc] at h
      simp only [Outcome.returned.injEq] at h
      rw [← h]
      exact hs0.andThenShape ((census_shape _ _ _ _).1 c2 hc)
    | done ne c2 =>
      rw [hc] at h
      have hs2 := hs0.andThenShape ((census_shape _ _ _ _).2 ne c2 hc)
      simp only at h
      split_ifs at h
      · simp only [Outcome.returned.injEq] at h
        rw [← h]; exact hs2
      · simp only [Outcome.returned.injEq] at h
        rw [← h]; exact hs2

/-! ### calcReason -/

theorem reasonLoop_eq (c : ActiveVerticesConnected) (p : Lit) :
    ∀ (is : List Nat) (out : List Lit),
      reasonLoop c p is out = out ++ is.filterMap (fun i =>
        if (c.lit i).var = p.var then none
        else match c.state i with
          | kActive => some (c.lit i)
          | kInactive => some (c.lit i).neg
          | kUndecided => none) := by
  intro is
  induction is with
  | nil => intro out; simp [reasonLoop]
  | cons i is ih =>
    intro out
    rw [reasonLoop, List.filterMap_cons]
    by_cases hv : (c.lit i).var = p.var
    · simp only [if_pos hv]; exact ih out
    · simp only [if_neg hv]
      cases hs : c.state i with
      | kUndecided => simp only [reduceCtorEq, if_false]; exact ih out
      | kActive => simp only [if_true]; rw [ih]; simp
      | kInactive => simp only [reduceCtorEq, if_false, if_true]; rw [ih]; simp

theorem mem_reasonSpec {c : ActiveVerticesConnected} {p l : Lit} (h : l ∈ reasonSpec c p) :
    ∃ i, i < c.lits_.length ∧ (c.lit i).var ≠ p.var ∧
      ((c.state i = kActive ∧ l = c.lit i) ∨ (c.state i = kInactive ∧ l = (c.lit i).neg)) := by
  unfold reasonSpec at h
  rw [List.mem_filterMap] at h
  obtain ⟨i, hi, hl⟩ := h
  refine ⟨i, List.mem_range.mp hi, ?_⟩
  by_cases hv : (c.lit i).var = p.var
  · simp [hv] at hl
  · refine ⟨hv, ?_⟩
    simp only [if_neg hv] at hl
    cases hs : c.state i with
    | kUndecided => rw [hs] at hl; simp at hl
    | kActive => rw [hs] at hl; simp at hl; exact Or.inl ⟨rfl, hl.symm⟩
    | kInactive => rw [hs] at hl; simp at hl; exact Or.inr ⟨rfl, hl.symm⟩

theorem ofValue_active {b : lbool} : ofValue b = kActive ↔ b = l_True := by
  cases b <;> simp [ofValue]

theorem ofValue_inactive {b : lbool} : ofValue b = kInactive ↔ b = l_False := by
  cases b <;> simp [ofValue]

theorem ofValue_undecided {b : lbool} : ofValue b = kUndecided ↔ b = l_Undef := by
  cases b <;> simp [ofValue]

theorem value_neg_of_false {S : Type} (ops : SolverOps S) (s : S) (l : Lit)
    (h : ops.value s l = l_False) : ops.value s l.neg = l_True := by
  unfold SolverOps.value at h ⊢
  simp only [Lit.neg]
  cases ha : ops.assigns s l.var <;> cases hs : l.sign <;> rw [ha, hs] at h <;>
    simp [lbool.xor] at h ⊢

theorem reasonCheck_of_agrees {S : Type} (ops : SolverOps S) (s : S)
    (c : ActiveVerticesConnected) (h : Agrees ops s c) :
    ∀ is : List Nat, (∀ i ∈ is, i < c.lits_.length) → reasonCheck ops s c is = true := by
  intro is
  induction is with
  | nil => intro _; rfl
  | cons i is ih =>
    intro hb
    have hi := h i (hb i (List.mem_cons_self _ _))
    rw [reasonCheck]
    have n1 : ¬ (c.state i = kActive ∧ ops.value s (c.lit i) ≠ l_True) := by
      rintro ⟨e1, e2⟩
      rw [hi] at e1
      exact e2 (ofValue_active.mp e1)
    have n2 : ¬ (c.state i = kInactive ∧ ops.value s (c.lit i) ≠ l_False) := by
      rintro ⟨e1, e2⟩
      rw [hi] at e1
      exact e2 (ofValue_inactive.mp e1)
    rw [if_neg n1, if_neg n2]
    exact ih (fun j hj => hb j (List.mem_cons_of_mem _ hj))

/-! ### undo -/

theorem undoLoop_length (lits : List Lit) (p : Lit) : ∀ (is : List Nat) (st : List NodeState),
    (undoLoop lits p is st).length = st.length := by
  intro is
  induction is with
  | nil => intro st; rfl
  | cons i is ih =>
    intro st
    rw [undoLoop]
    split_ifs
    · rw [ih]; simp
    · exact ih st

theorem undoLoop_getD (lits : List Lit) (p : Lit) : ∀ (is : List Nat) (st : List NodeState)
    (j : Nat), (undoLoop lits p is st).getD j kUndecided =
      if j ∈ is ∧ (lits.getD j (mkLit 0)).var = p.var then kUndecided
      else st.getD j kUndecided := by
  intro is
  induction is with
  | nil => intro st j; simp [undoLoop]
  | cons i is ih =>
    intro st j
    rw [undoLoop]
    by_cases hv : (lits.getD i (mkLit 0)).var = p.var
    · rw [if_pos hv, ih, getD_set]
      by_cases hc : j ∈ is ∧ (lits.getD j (mkLit 0)).var = p.var
      · rw [if_pos hc, if_pos ⟨List.mem_cons_of_mem _ hc.1, hc.2⟩]
      · rw [if_neg hc]
        by_cases hj : i = j
        · subst hj
          have p1 : i ∈ i :: is ∧ (lits.getD i (mkLit 0)).var = p.var :=
            ⟨List.mem_cons_self _ _, hv⟩
          rw [if_pos p1]
          by_cases h1 : i < st.length
          · rw [if_pos ⟨rfl, h1⟩]
          · rw [if_neg (fun e => h1 e.2)]
            simp only [List.getD_eq_getElem?_getD]
            rw [List.getElem?_eq_none (by omega)]
            rfl
        · have n1 : ¬ (i = j ∧ i < st.length) := fun e => hj e.1
          have n2 : ¬ (j ∈ i :: is ∧ (lits.getD j (mkLit 0)).var = p.var) := by
            rintro ⟨e1, e2⟩
            rcases List.mem_cons.mp e1 with e1 | e1
            · exact hj e1.symm
            · exact hc ⟨e1, e2⟩
          rw [if_neg n1, if_neg n2]
    · rw [if_neg hv, ih]
      by_cases hc : j ∈ is ∧ (lits.getD j (mkLit 0)).var = p.var
      · rw [if_pos hc, if_pos ⟨List.mem_cons_of_mem _ hc.1, hc.2⟩]
      · rw [if_neg hc, if_neg]
        rintro ⟨e1, e2⟩
        rcases List.mem_cons.mp e1 with e1 | e1
        · subst e1; exact hv e2
        · exact hc ⟨e1, e2⟩

theorem ext_getD {l1 l2 : List NodeState} (hl : l1.length = l2.length)
    (h : ∀ j, l1.getD j kUndecided = l2.getD j kUndecided) : l1 = l2 := by
  apply List.ext_getElem hl
  intro j h1 h2
  have := h j
  simp only [List.getD_eq_getElem?_getD, List.getElem?_eq_getElem h1,
    List.getElem?_eq_getElem h2, Option.getD_some] at this
  exact this

theorem undoAll_append (ps : List Lit) (p : Lit) (c : ActiveVerticesConnected) :
    undoAll (ps ++ [p]) c = undo p (undoAll ps c) := by
  induction ps generalizing c with
  | nil => rfl
  | cons q ps ih => simp only [List.cons_append, undoAll]; exact ih _

theorem undoAll_lits (ps : List Lit) (c : ActiveVerticesConnected) :
    (undoAll ps c).lits_ = c.lits_ := by
  induction ps generalizing c with
  | nil => rfl
  | cons q ps ih => simp only [undoAll]; rw [ih]; rfl

theorem undoAll_length (ps : List Lit) (c : ActiveVerticesConnected) :
    (undoAll ps c).state_.length = c.state_.length := by
  induction ps generalizing c with
  | nil => rfl
  | cons q ps ih => simp only [undoAll]; rw [ih]; simp [undo, undoLoop_length]

/-- What a sequence of `propagate` calls followed by the matching `undo` calls in reverse
order leaves in VertexState: Undecided at every vertex whose variable is the variable of
one of the calls, and the original state elsewhere. -/
theorem propagateAll_undoAll_getD {S : Type} (ops : SolverOps S) :
    ∀ (calls : List (S × Lit)) (c c1 : ActiveVerticesConnected),
      propagateAll ops calls c = Outcome.returned c1 →
      c1.lits_ = c.lits_ ∧ c1.state_.length = c.state_.length ∧
      ∀ j, (undoAll (calls.map Prod.snd).reverse c1).state_.getD j kUndecided =
        if j < c.lits_.length ∧ ∃ sp ∈ calls, (c.lit j).var = sp.2.var then kUndecided
        else c.state_.getD j kUndecided := by
  intro calls
  induction calls with
  | nil =>
    intro c c1 h
    simp only [propagateAll, Outcome.returned.injEq] at h
    subst h
    simp [undoAll]
  | cons sp rest ih =>
    intro c c1 h
    rw [propagateAll] at h
    cases hp : propagate ops sp.1 sp.2 c with
    | aborted => rw [hp] at h; simp at h
    | outOfFuel => rw [hp] at h; simp at h
    | returned r =>
      rw [hp] at h
      simp only at h
      obtain ⟨st, hst, hsh⟩ := propagate_shape ops sp.1 sp.2 c r hp
      obtain ⟨g1, g2, g3⟩ := ih r.self c1 h
      have hl : r.self.lits_ = c.lits_ := hsh.1.1
      have hs : r.self.state_ = st := hsh.1.2.2
      unfold refreshed at hst
      have hlen := refresh_length _ _ _ _ _ _ _ hst
      refine ⟨g1.trans hl, by rw [g2, hs, hlen], ?_⟩
      intro j
      simp only [List.map_cons, List.reverse_cons]
      rw [undoAll_append]
      simp only [undo]
      rw [undoLoop_getD, undoAll_lits, g3 j, g1, hl]
      have hlitj : r.self.lit j = c.lit j := by unfold lit; rw [hl]
      rw [hlitj, hs, refresh_getD _ _ _ _ _ _ _ hst j]
      have hcl : c.lit j = c.lits_.getD j (mkLit 0) := rfl
      by_cases hj : j < c.lits_.length
      · by_cases hv : (c.lit j).var = sp.2.var
        · rw [if_pos ⟨List.mem_range.mpr hj, by rw [← hcl]; exact hv⟩,
            if_pos ⟨hj, sp, List.mem_cons_self _ _, hv⟩]
        · rw [if_neg (fun e => hv (by rw [hcl]; exact e.2))]
          by_cases hr : ∃ sp1 ∈ rest, (c.lit j).var = sp1.2.var
          · obtain ⟨sp1, h1, h2⟩ := hr
            rw [if_pos ⟨hj, sp1, h1, h2⟩, if_pos ⟨hj, sp1, List.mem_cons_of_mem _ h1, h2⟩]
          · rw [if_neg (fun e => hr e.2), if_neg (fun e => hv (by rw [hcl]; exact e.2.2)),
              if_neg]
            rintro ⟨_, sp1, h1, h2⟩
            rcases List.mem_cons.mp h1 with h1 | h1
            · subst h1; exact hv h2
            · exact hr ⟨sp1, h1, h2⟩
      · rw [if_neg (fun e => hj (List.mem_range.mp e.1)), if_neg (fun e => hj e.1),
          if_neg (fun e => hj (List.mem_range.mp e.1)), if_neg (fun e => hj e.1)]

/-! ### The host protocol -/

theorem forceLoop_preserves {S : Type} (ops : SolverOps S) (Q : S → Prop)
    (hQ : ∀ s l, Q s → Q (ops.enqueue s l).2) (c : ActiveVerticesConnected) (ne : Int) :
    ∀ (vs : List Nat) (s : S) (calls : List EnqCall), Q s →
      Q (forceLoop ops c ne vs s calls).2.1 := by
  intro vs
  induction vs with
  | nil => intro s calls h; exact h
  | cons v vs ih =>
    intro s calls h
    rw [forceLoop]
    by_cases h1 : c.state v ≠ kUndecided
    · rw [if_pos h1]; exact ih s calls h
    · rw [if_neg h1]
      by_cases h2 : c.clusterId v ≠ ne
      · rw [if_pos h2]
        simp only
        by_cases h3 : (ops.enqueue s (c.lit v).neg).1 = false
        · rw [if_pos h3]; exact hQ s _ h
        · rw [if_neg h3]; exact ih _ _ (hQ s _ h)
      · rw [if_neg h2]
        by_cases h4 : branchCount c ne v ≥ 2
        · rw [if_pos h4]
          simp only
          by_cases h3 : (ops.enqueue s (c.lit v)).1 = false
          · rw [if_pos h3]; exact hQ s _ h
          · rw [if_neg h3]; exact ih _ _ (hQ s _ h)
        · rw [if_neg h4]; exact ih s calls h

theorem propagate_solver_inv {S : Type} (ops : SolverOps S) (Q : S → Prop)
    (hQ : ∀ s l, Q s → Q (ops.enqueue s l).2) (s : S) (p : Lit)
    (c : ActiveVerticesConnected) (r : PropagateResult S)
    (h : propagate ops s p c = Outcome.returned r) (h0 : Q (ops.registerUndo s p.var)) :
    Q r.solver := by
  simp only [propagate] at h
  cases hr : refresh ops (ops.registerUndo s p.var) p c.lits_ (List.range c.lits_.length)
      c.state_ with
  | none => rw [hr] at h; simp at h
  | some st =>
    rw [hr] at h
    simp only at h
    cases hc : census c.lits_.length (List.range c.lits_.length) (-1)
        (resetDfs { c with state_ := st }) with
    | outOfFuel => rw [hc] at h; simp at h
    | conflict c2 =>
      rw [hc] at h
      simp only [Outcome.returned.injEq] at h
      rw [← h]; exact h0
    | done ne c2 =>
      rw [hc] at h
      simp only at h
      split_ifs at h
      · simp only [Outcome.returned.injEq] at h
        rw [← h]
        exact forceLoop_preserves ops Q hQ c2 ne _ _ _ h0
      · simp only [Outcome.returned.injEq] at h
        rw [← h]; exact h0

end ActiveVerticesConnected

namespace Trail

theorem ops_value (t : Trail) (l : Lit) : Trail.ops.value t l = t.value l := rfl

theorem xor_undef_iff (b : lbool) (s : Bool) : b.xor s = l_Undef ↔ b = l_Undef := by
  cases b <;> cases s <;> simp [lbool.xor]

theorem value_undef_iff (t : Trail) (l : Lit) : t.value l = l_Undef ↔ t.assigns l.var = l_Undef :=
  xor_undef_iff _ _

theorem value_congr {t t1 : Trail} {l : Lit} (h : t1.assigns l.var = t.assigns l.var) :
    t1.value l = t.value l := by
  unfold value; rw [h]

theorem assign_value_self (t : Trail) (l : Lit) : (t.assign l).value l = l_True := by
  unfold value assign
  cases hs : l.sign <;> simp [lbool.xor, hs]

theorem assign_value_other (t : Trail) {l q : Lit} (h : q.var ≠ l.var) :
    (t.assign l).value q = t.value q := by
  apply value_congr
  simp [assign, h]

theorem awaits_not_undef {t : Trail} (hq : t.QueueOk) {x : Var} (h : t.Awaits x) :
    t.assigns x ≠ l_Undef := by
  obtain ⟨q, hq1, hq2⟩ := h
  intro e
  have := hq.allTrue q hq1
  rw [← hq2] at e
  rw [(value_undef_iff t q).mpr e] at this
  exact absurd this (by simp)

theorem assign_queueOk {t : Trail} (hq : t.QueueOk) {l : Lit} (hl : t.value l = l_Undef) :
    (t.assign l).QueueOk := by
  have hlu := (value_undef_iff t l).mp hl
  have hne : ∀ q ∈ t.pending, q.var ≠ l.var := by
    intro q hq1 e
    exact awaits_not_undef hq ⟨q, hq1, e⟩ hlu
  constructor
  · intro q hq1
    simp only [assign, List.mem_append, List.mem_singleton] at hq1
    rcases hq1 with hq1 | hq1
    · rw [assign_value_other t (hne q hq1)]; exact hq.allTrue q hq1
    · rw [hq1]; exact assign_value_self t l
  · simp only [assign, List.map_append, List.map_cons, List.map_nil]
    rw [List.nodup_append]
    refine ⟨hq.nodup, by simp, ?_⟩
    intro x hx1 hx2
    simp only [List.mem_singleton] at hx2
    obtain ⟨q, hq1, hq2⟩ := List.mem_map.mp hx1
    exact hne q hq1 (hq2.trans hx2)

theorem extends_refl (t : Trail) : t.Extends t :=
  ⟨fun _ _ => rfl, rfl, fun _ h => h, fun _ h => Or.inl h, fun _ h1 h2 => absurd h1 h2⟩

theorem assign_extends {t0 t : Trail} (he : t0.Extends t) {l : Lit}
    (hl : t.value l = l_Undef) : t0.Extends (t.assign l) := by
  have hlu := (value_undef_iff t l).mp hl
  have h0 : t0.assigns l.var = l_Undef := by
    by_contra h
    rw [he.keep _ h] at hlu
    exact h hlu
  constructor
  · intro x hx
    have hxl : x ≠ l.var := by intro e; rw [e] at hx; exact hx h0
    simp only [assign, if_neg hxl]
    exact he.keep x hx
  · exact he.undos
  · intro q hq
    simp only [assign, List.mem_append]
    exact Or.inl (he.queued q hq)
  · intro q hq
    simp only [assign, List.mem_append, List.mem_singleton] at hq
    rcases hq with hq | hq
    · exact he.fresh q hq
    · rw [hq]; exact Or.inr h0
  · intro x hx0 hx1
    by_cases hxl : x = l.var
    · exact ⟨l, by simp [assign], hxl.symm⟩
    · simp only [assign, if_neg hxl] at hx1
      obtain ⟨q, hq1, hq2⟩ := he.added x hx0 hx1
      exact ⟨q, by simp only [assign, List.mem_append]; exact Or.inl hq1, hq2⟩

theorem enqueue_inv (t0 : Trail) (t : Trail) (l : Lit)
    (h : t.QueueOk ∧ t0.Extends t) : (Trail.enqueue t l).2.QueueOk ∧
      t0.Extends (Trail.enqueue t l).2 := by
  unfold enqueue
  cases hv : t.value l with
  | l_True => exact h
  | l_False => exact h
  | l_Undef => exact ⟨assign_queueOk h.1 hv, assign_extends h.2 hv⟩

theorem enqueue_of_true {t : Trail} {l : Lit} (h : t.value l = l_True) :
    Trail.enqueue t l = (true, t) := by
  unfold enqueue; rw [h]

theorem enqueue_of_false {t : Trail} {l : Lit} (h : t.value l = l_False) :
    Trail.enqueue t l = (false, t) := by
  unfold enqueue; rw [h]

theorem enqueue_answer (t : Trail) (l : Lit) :
    ((Trail.enqueue t l).1 = false ∧ t.value l = l_False ∧ (Trail.enqueue t l).2 = t) ∨
    ((Trail.enqueue t l).1 = true ∧ (Trail.enqueue t l).2.value l = l_True) := by
  unfold enqueue
  cases hv : t.value l with
  | l_True => exact Or.inr ⟨rfl, hv⟩
  | l_False => exact Or.inl ⟨rfl, rfl, rfl⟩
  | l_Undef => exact Or.inr ⟨rfl, assign_value_self t l⟩

theorem enqueue_extends (t0 t : Trail) (l : Lit) (h : t0.Extends t) :
    t0.Extends (Trail.enqueue t l).2 := by
  unfold enqueue
  cases hv : t.value l with
  | l_True => exact h
  | l_False => exact h
  | l_Undef => exact assign_extends h hv

theorem Extends.value_keep {t0 t : Trail} (h : t0.Extends t) {l : Lit}
    (hl : t0.value l ≠ l_Undef) : t.value l = t0.value l :=
  value_congr (h.keep l.var (fun e => hl ((value_undef_iff t0 l).mpr e)))

end Trail
end Minisat

namespace Minisat
namespace ActiveVerticesConnected

theorem state_cases (s : NodeState) : s = kUndecided ∨ s = kActive ∨ s = kInactive := by
  cases s <;> simp

theorem HostInv.of_undef {lits : List Lit} {edges : List (Nat × Nat)} {t : Trail}
    {c : ActiveVerticesConnected} (h : HostInv lits edges t c) {i : Nat}
    (hi : i < lits.length) (hu : t.assigns (c.lit i).var = l_Undef) :
    c.state i = kUndecided := by
  have hv := (Trail.value_undef_iff t (c.lit i)).mpr hu
  rcases state_cases (c.state i) with e | e | e
  · exact e
  · have := h.active i hi e; rw [hv] at this; exact absurd this (by simp)
  · have := h.inactive i hi e; rw [hv] at this; exact absurd this (by simp)

theorem hostInv_init (lits : List Lit) (edges : List (Nat × Nat)) :
    HostInv lits edges Trail.empty (new lits edges) := by
  have hst : ∀ i, (new lits edges).state i = kUndecided := by
    intro i
    simp only [state, new, List.getD_eq_getElem?_getD, List.getElem?_replicate]
    split_ifs <;> rfl
  refine
    { built := new_built lits edges
      queue := ⟨fun q hq => by simp [Trail.empty] at hq, by simp [Trail.empty]⟩
      active := fun i _ e => by rw [hst] at e; exact absurd e (by simp)
      inactive := fun i _ e => by rw [hst] at e; exact absurd e (by simp)
      undecided := fun i _ _ => Or.inl rfl
      waiting := fun i _ _ => hst i
      registered := fun i _ e => absurd (hst i) e }

theorem hostInv_assign {lits : List Lit} {edges : List (Nat × Nat)} {t : Trail}
    {c : ActiveVerticesConnected} (h : HostInv lits edges t c) (l : Lit)
    (hl : t.value l = l_Undef) : HostInv lits edges (t.assign l) c := by
  have hlu := (Trail.value_undef_iff t l).mp hl
  have hkeep : ∀ q : Lit, t.assigns q.var ≠ l_Undef → (t.assign l).value q = t.value q := by
    intro q hq
    apply Trail.assign_value_other
    intro e; rw [e] at hq; exact hq hlu
  have hval : ∀ q : Lit, t.value q ≠ l_Undef → (t.assign l).value q = t.value q :=
    fun q hq => hkeep q (fun e => hq ((Trail.value_undef_iff t q).mpr e))
  have haw : ∀ x, t.Awaits x → (t.assign l).Awaits x := by
    rintro x ⟨q, hq1, hq2⟩
    exact ⟨q, by simp only [Trail.assign, List.mem_append]; exact Or.inl hq1, hq2⟩
  refine
    { built := h.built
      queue := Trail.assign_queueOk h.queue hl
      active := ?_
      inactive := ?_
      undecided := ?_
      waiting := ?_
      registered := h.registered }
  · intro i hi e
    have := h.active i hi e
    rw [hval _ (by rw [this]; simp)]; exact this
  · intro i hi e
    have := h.inactive i hi e
    rw [hval _ (by rw [this]; simp)]; exact this
  · intro i hi e
    rcases h.undecided i hi e with hu | hu
    · by_cases hx : (c.lit i).var = l.var
      · exact Or.inr ⟨l, by simp [Trail.assign], hx.symm⟩
      · left
        rw [Trail.assign_value_other t hx]; exact hu
    · exact Or.inr (haw _ hu)
  · rintro i hi ⟨q, hq1, hq2⟩
    simp only [Trail.assign, List.mem_append, List.mem_singleton] at hq1
    rcases hq1 with hq1 | hq1
    · exact h.waiting i hi ⟨q, hq1, hq2⟩
    · subst hq1
      exact h.of_undef hi (by rw [← hq2]; exact hlu)

theorem undo_state (c : ActiveVerticesConnected) (x : Var) (i : Nat) :
    (undo (mkLit x) c).state i =
      if i < c.lits_.length ∧ (c.lit i).var = x then kUndecided else c.state i := by
  simp only [undo, state]
  rw [undoLoop_getD]
  simp only [List.mem_range, lit, mkLit]

theorem hostInv_unassign {lits : List Lit} {edges : List (Nat × Nat)} {t : Trail}
    {c : ActiveVerticesConnected} (h : HostInv lits edges t c) (x : Var) :
    HostInv lits edges (t.unassign x) (if x ∈ t.undos then undo (mkLit x) c else c) := by
  have hn : c.lits_.length = lits.length := by rw [h.built.hlits]
  -- the state after the step
  have hstate : ∀ i, i < lits.length →
      (if x ∈ t.undos then undo (mkLit x) c else c).state i =
        if (c.lit i).var = x then kUndecided else c.state i := by
    intro i hi
    by_cases hx : x ∈ t.undos
    · rw [if_pos hx, undo_state]
      by_cases hv : (c.lit i).var = x
      · rw [if_pos ⟨by omega, hv⟩, if_pos hv]
      · rw [if_neg (fun e => hv e.2), if_neg hv]
    · rw [if_neg hx]
      by_cases hv : (c.lit i).var = x
      · rw [if_pos hv]
        by_contra hne
        exact hx (hv ▸ h.registered i hi hne)
      · rw [if_neg hv]
  have hlit : ∀ i, (if x ∈ t.undos then undo (mkLit x) c else c).lit i = c.lit i := by
    intro i; split_ifs <;> rfl
  have hval : ∀ q : Lit, q.var ≠ x → (t.unassign x).value q = t.value q := by
    intro q hq
    apply Trail.value_congr
    simp [Trail.unassign, hq]
  have hvalx : ∀ q : Lit, q.var = x → (t.unassign x).value q = l_Undef := by
    intro q hq
    rw [Trail.value_undef_iff]
    simp [Trail.unassign, hq]
  have hB : Built lits edges (if x ∈ t.undos then undo (mkLit x) c else c) := by
    split_ifs
    · refine ⟨h.built.hlits, h.built.hadj, ?_⟩
      have hs := h.built.sized
      exact ⟨hs.lits, hs.adj, by simp only [undo]; rw [undoLoop_length]; exact hs.state,
        hs.rank, hs.lowlink, hs.cnt, hs.cid, hs.par⟩
    · exact h.built
  refine
    { built := hB
      queue := ?_
      active := ?_
      inactive := ?_
      undecided := ?_
      waiting := ?_
      registered := ?_ }
  · constructor
    · intro q hq
      simp only [Trail.unassign, List.mem_filter, decide_eq_true_eq] at hq
      rw [hval q hq.2]; exact h.queue.allTrue q hq.1
    · exact List.Nodup.sublist (List.Sublist.map _ (List.filter_sublist _)) h.queue.nodup
  · intro i hi e
    rw [hstate i hi] at e
    rw [hlit]
    by_cases hv : (c.lit i).var = x
    · rw [if_pos hv] at e; exact absurd e (by simp)
    · rw [if_neg hv] at e
      rw [hval _ hv]; exact h.active i hi e
  · intro i hi e
    rw [hstate i hi] at e
    rw [hlit]
    by_cases hv : (c.lit i).var = x
    · rw [if_pos hv] at e; exact absurd e (by simp)
    · rw [if_neg hv] at e
      rw [hval _ hv]; exact h.inactive i hi e
  · intro i hi e
    rw [hstate i hi] at e
    rw [hlit]
    by_cases hv : (c.lit i).var = x
    · exact Or.inl (hvalx _ hv)
    · rw [if_neg hv] at e
      rcases h.undecided i hi e with hu | ⟨q, hq1, hq2⟩
      · left; rw [hval _ hv]; exact hu
      · right
        refine ⟨q, ?_, hq2⟩
        simp only [Trail.unassign, List.mem_filter, decide_eq_true_eq]
        exact ⟨hq1, by rw [hq2]; exact hv⟩
  · rintro i hi ⟨q, hq1, hq2⟩
    rw [hlit] at hq2
    simp only [Trail.unassign, List.mem_filter, decide_eq_true_eq] at hq1
    rw [hstate i hi]
    have hv : ¬ (c.lit i).var = x := by rw [← hq2]; exact hq1.2
    rw [if_neg hv]
    exact h.waiting i hi ⟨q, hq1.1, hq2⟩
  · intro i hi e
    rw [hstate i hi] at e
    rw [hlit]
    by_cases hv : (c.lit i).var = x
    · rw [if_pos hv] at e; exact absurd rfl e
    · rw [if_neg hv] at e
      simp only [Trail.unassign, List.mem_filter, decide_eq_true_eq]
      exact ⟨h.registered i hi e, hv⟩

theorem hostInv_propagate {lits : List Lit} {edges : List (Nat × Nat)} {t : Trail}
    {c : ActiveVerticesConnected} (h : HostInv lits edges t c)
    (hE : InRange lits.length edges) {p : Lit} {rest : List Lit}
    (hp : t.pending = p :: rest) :
    ∃ r, propagate Trail.ops { t with pending := rest } p c = Outcome.returned r ∧
      HostInv lits edges r.solver r.self := by
  have hB := h.built
  have hn : c.lits_.length = lits.length := by rw [hB.hlits]
  have hpm : p ∈ t.pending := by rw [hp]; exact List.mem_cons_self _ _
  have hpA : t.assigns p.var ≠ l_Undef := Trail.awaits_not_undef h.queue ⟨p, hpm, rfl⟩
  -- the refresh loop does not abort
  obtain ⟨st, hr⟩ := refresh_some Trail.ops
    (Trail.ops.registerUndo { t with pending := rest } p.var) p c.lits_
    (List.range c.lits_.length) c.state_ (by
      intro i _ hv e
      rw [Trail.ops_value, Trail.value_undef_iff, hv] at e
      exact hpA e)
  have hr2 : refreshed Trail.ops { t with pending := rest } p c = some st := hr
  obtain ⟨r, hprop, hst, _, hB2, _⟩ := propagate_summary Trail.ops _ p hB hE hr2
  refine ⟨r, hprop, ?_⟩
  -- the trail after the call
  have hQ := propagate_solver_inv Trail.ops
    (fun t1 => t1.QueueOk ∧
      (Trail.ops.registerUndo { t with pending := rest } p.var).Extends t1)
    (fun s l hs => Trail.enqueue_inv _ s l hs) _ p c r hprop (by
      refine ⟨⟨?_, ?_⟩, Trail.extends_refl _⟩
      · intro q hq
        have hq2 : q ∈ t.pending := by rw [hp]; exact List.mem_cons_of_mem _ hq
        exact h.queue.allTrue q hq2
      · have := h.queue.nodup
        rw [hp, List.map_cons] at this
        exact (List.nodup_cons.mp this).2)
  obtain ⟨hq, he⟩ := hQ
  have hnd := h.queue.nodup
  rw [hp, List.map_cons] at hnd
  have hpr : ∀ q ∈ rest, q.var ≠ p.var := by
    intro q hq1 e
    exact (List.nodup_cons.mp hnd).1 (e ▸ List.mem_map_of_mem _ hq1)
  have hkeepv : ∀ q : Lit, t.value q ≠ l_Undef → r.solver.value q = t.value q := by
    intro q hq1
    apply Trail.value_congr
    exact he.keep q.var (fun e => hq1 ((Trail.value_undef_iff t q).mpr e))
  have hlit : ∀ i, r.self.lit i = c.lit i := by
    intro i; unfold lit; rw [hB2.hlits, hB.hlits]
  have hstate : ∀ i, i < lits.length →
      r.self.state i = if (c.lit i).var = p.var then ofValue (t.value (c.lit i))
        else c.state i := by
    intro i hi
    unfold state
    rw [hst, refresh_getD _ _ _ _ _ _ _ hr i]
    have hi2 : i < c.state_.length := by rw [hB.sized.state]; exact hi
    by_cases hv : (c.lit i).var = p.var
    · rw [if_pos ⟨List.mem_range.mpr (by omega), hi2, hv⟩, if_pos hv]; rfl
    · rw [if_neg (fun e => hv e.2.2), if_neg hv]
  have hvarp : ∀ i, (c.lit i).var = p.var → t.value (c.lit i) ≠ l_Undef := by
    intro i hv e
    rw [Trail.value_undef_iff, hv] at e
    exact hpA e
  refine
    { built := hB2
      queue := hq
      active := ?_
      inactive := ?_
      undecided := ?_
      waiting := ?_
      registered := ?_ }
  · intro i hi e
    rw [hstate i hi] at e
    rw [hlit]
    by_cases hv : (c.lit i).var = p.var
    · rw [if_pos hv] at e
      have := ofValue_active.mp e
      rw [hkeepv _ (by rw [this]; simp)]; exact this
    · rw [if_neg hv] at e
      have := h.active i hi e
      rw [hkeepv _ (by rw [this]; simp)]; exact this
  · intro i hi e
    rw [hstate i hi] at e
    rw [hlit]
    by_cases hv : (c.lit i).var = p.var
    · rw [if_pos hv] at e
      have := ofValue_inactive.mp e
      rw [hkeepv _ (by rw [this]; simp)]; exact this
    · rw [if_neg hv] at e
      have := h.inactive i hi e
      rw [hkeepv _ (by rw [this]; simp)]; exact this
  · intro i hi e
    rw [hstate i hi] at e
    rw [hlit]
    by_cases hv : (c.lit i).var = p.var
    · rw [if_pos hv] at e
      exact absurd (ofValue_undecided.mp e) (hvarp i hv)
    · rw [if_neg hv] at e
      rcases h.undecided i hi e with hu | ⟨q, hq1, hq2⟩
      · by_cases h2 : r.solver.assigns (c.lit i).var = l_Undef
        · exact Or.inl ((Trail.value_undef_iff _ _).mpr h2)
        · exact Or.inr (he.added _ ((Trail.value_undef_iff t _).mp hu) h2)
      · right
        rw [hp] at hq1
        rcases List.mem_cons.mp hq1 with hq1 | hq1
        · subst hq1; exact absurd hq2.symm hv
        · exact ⟨q, he.queued q hq1, hq2⟩
  · rintro i hi ⟨q, hq1, hq2⟩
    rw [hlit] at hq2
    rw [hstate i hi]
    rcases he.fresh q hq1 with hq3 | hq3
    · have hq4 : q ∈ rest := hq3
      have hv : ¬ (c.lit i).var = p.var := by rw [← hq2]; exact hpr q hq4
      rw [if_neg hv]
      exact h.waiting i hi ⟨q, by rw [hp]; exact List.mem_cons_of_mem _ hq4, hq2⟩
    · have hu : t.assigns (c.lit i).var = l_Undef := by rw [← hq2]; exact hq3
      have hv : ¬ (c.lit i).var = p.var := by
        intro e; rw [e] at hu; exact hpA hu
      rw [if_neg hv]
      exact h.of_undef hi hu
  · intro i hi e
    rw [hstate i hi] at e
    rw [hlit, he.undos]
    by_cases hv : (c.lit i).var = p.var
    · rw [hv]; exact List.mem_cons_self _ _
    · rw [if_neg hv] at e
      exact List.mem_cons_of_mem _ (h.registered i hi e)

theorem hostStep_inv {lits : List Lit} {edges : List (Nat × Nat)}
    (hE : InRange lits.length edges) (e : HostEvent) {t : Trail}
    {c : ActiveVerticesConnected} (h : HostInv lits edges t c) :
    ∃ t1 c1, hostStep e t c = Outcome.returned (t1, c1) ∧ HostInv lits edges t1 c1 := by
  cases e with
  | assign l =>
    by_cases hl : t.value l = l_Undef
    · exact ⟨t.assign l, c, by simp [hostStep, hl], hostInv_assign h l hl⟩
    · exact ⟨t, c, by simp [hostStep, hl], h⟩
  | propagateNext =>
    cases hp : t.pending with
    | nil => exact ⟨t, c, by simp [hostStep, hp], h⟩
    | cons p rest =>
      obtain ⟨r, h1, h2⟩ := hostInv_propagate h hE hp
      refine ⟨r.solver, r.self, ?_, h2⟩
      simp only [hostStep, hp]
      rw [h1]
  | unassign x =>
    have := hostInv_unassign h x
    by_cases hx : x ∈ t.undos
    · rw [if_pos hx] at this
      exact ⟨_, _, by simp [hostStep, hx], this⟩
    · rw [if_neg hx] at this
      exact ⟨_, _, by simp [hostStep, hx], this⟩

theorem hostRun_inv {lits : List Lit} {edges : List (Nat × Nat)}
    (hE : InRange lits.length edges) : ∀ (es : List HostEvent) (t : Trail)
    (c : ActiveVerticesConnected), HostInv lits edges t c →
    ∃ t1 c1, hostRun es t c = Outcome.returned (t1, c1) ∧ HostInv lits edges t1 c1 := by
  intro es
  induction es with
  | nil => intro t c h; exact ⟨t, c, rfl, h⟩
  | cons e es ih =>
    intro t c h
    obtain ⟨t1, c1, h1, h2⟩ := hostStep_inv hE e h
    obtain ⟨t2, c2, h3, h4⟩ := ih t1 c1 h2
    refine ⟨t2, c2, ?_, h4⟩
    rw [hostRun, h1]
    exact h3

/-! ### Idempotence, explanation, undo, agreement with the trail -/

theorem refresh_defined {S : Type} (ops : SolverOps S) (s : S) (p : Lit) (lits : List Lit) :
    ∀ (is : List Nat) (st st1 : List NodeState), refresh ops s p lits is st = some st1 →
      ∀ i ∈ is, (lits.getD i (mkLit 0)).var = p.var →
        ops.value s (lits.getD i (mkLit 0)) ≠ l_Undef := by
  intro is
  induction is with
  | nil => intro st st1 _ i hi; simp at hi
  | cons j is ih =>
    intro st st1 h i hi hv
    rw [refresh] at h
    by_cases hj : (lits.getD j (mkLit 0)).var = p.var
    · rw [if_pos hj] at h
      cases hval : ops.value s (lits.getD j (mkLit 0)) with
      | l_Undef => rw [hval] at h; simp at h
      | l_True =>
        rw [hval] at h
        rcases List.mem_cons.mp hi with e | e
        · subst e; rw [hval]; simp
        · exact ih _ _ h i e hv
      | l_False =>
        rw [hval] at h
        rcases List.mem_cons.mp hi with e | e
        · subst e; rw [hval]; simp
        · exact ih _ _ h i e hv
    · rw [if_neg hj] at h
      rcases List.mem_cons.mp hi with e | e
      · subst e; exact absurd hv hj
      · exact ih _ _ h i e hv

/-- The refresh loop changes nothing when it is run again on its own result. -/
theorem refresh_idem {S : Type} (ops : SolverOps S) (s : S) (p : Lit) (lits : List Lit)
    (is : List Nat) (st st1 : List NodeState) (h : refresh ops s p lits is st = some st1) :
    refresh ops s p lits is st1 = some st1 := by
  obtain ⟨st2, h2⟩ := refresh_some ops s p lits is st1 (refresh_defined ops s p lits is st st1 h)
  rw [h2]
  congr 1
  have l1 := refresh_length ops s p lits is st st1 h
  have l2 := refresh_length ops s p lits is st1 st2 h2
  apply ext_getD l2
  intro j
  rw [refresh_getD ops s p lits is st1 st2 h2 j]
  by_cases hc : j ∈ is ∧ j < st1.length ∧ (lits.getD j (mkLit 0)).var = p.var
  · rw [if_pos hc, refresh_getD ops s p lits is st st1 h j, if_pos ⟨hc.1, by omega, hc.2.2⟩]
  · rw [if_neg hc]

theorem resetDfs_congr {c c2 : ActiveVerticesConnected} (h : SameShape c c2) :
    resetDfs c2 = resetDfs c := by
  obtain ⟨⟨h1, h2, h3⟩, h4, h5, h6, h7, h8⟩ := h
  simp only [resetDfs, h1, h2, h3, h4, h5, h6, h7, h8]

theorem propagate_congr {S : Type} (ops : SolverOps S) (s : S) (p : Lit)
    {c c2 : ActiveVerticesConnected} (h : SameShape c c2) :
    propagate ops s p c2 = propagate ops s p c := by
  have hl : c2.lits_ = c.lits_ := h.1.1
  have hs : c2.state_ = c.state_ := h.1.2.2
  have key : ∀ st, resetDfs
      { lits_ := c.lits_, adj_ := c2.adj_, state_ := st, rank_ := c2.rank_,
        lowlink_ := c2.lowlink_, subtree_active_count_ := c2.subtree_active_count_,
        cluster_id_ := c2.cluster_id_, parent_ := c2.parent_, next_rank_ := c2.next_rank_ } =
      resetDfs { c with state_ := st } := by
    intro st
    apply resetDfs_congr
    exact ⟨⟨rfl, h.1.2.1, rfl⟩, h.2⟩
  simp only [propagate, hl, hs, key]

/-- Running the forcing loop again on a trail that already holds the assignments made
by a first run gives the same answers and changes nothing on the trail. -/
theorem forceLoop_replay (c : ActiveVerticesConnected) (ne : Int) :
    ∀ (vs : List Nat) (a b : Trail) (calls calls2 : List EnqCall),
      (∀ x, b.assigns x = (forceLoop Trail.ops c ne vs a calls).2.1.assigns x) →
      (forceLoop Trail.ops c ne vs b calls2).1 = (forceLoop Trail.ops c ne vs a calls).1 ∧
      (forceLoop Trail.ops c ne vs b calls2).2.1 = b ∧
      ∃ added, (forceLoop Trail.ops c ne vs a calls).2.2 = calls ++ added ∧
        (forceLoop Trail.ops c ne vs b calls2).2.2 = calls2 ++ added := by
  intro vs
  induction vs with
  | nil => intro a b calls calls2 _; exact ⟨rfl, rfl, [], by simp [forceLoop], by simp [forceLoop]⟩
  | cons v vs ih =>
    intro a b calls calls2 hb
    -- one call of `enqueue` with literal `l`
    have call : ∀ l : Lit,
        (∀ x, b.assigns x =
          (if (Trail.ops.enqueue a l).1 = false then
              (false, (Trail.ops.enqueue a l).2, calls ++ [(⟨v, l, false⟩ : EnqCall)])
            else forceLoop Trail.ops c ne vs (Trail.ops.enqueue a l).2
              (calls ++ [(⟨v, l, true⟩ : EnqCall)])).2.1.assigns x) →
        (if (Trail.ops.enqueue b l).1 = false then
              (false, (Trail.ops.enqueue b l).2, calls2 ++ [(⟨v, l, false⟩ : EnqCall)])
            else forceLoop Trail.ops c ne vs (Trail.ops.enqueue b l).2
              (calls2 ++ [(⟨v, l, true⟩ : EnqCall)])).1 =
          (if (Trail.ops.enqueue a l).1 = false then
              (false, (Trail.ops.enqueue a l).2, calls ++ [(⟨v, l, false⟩ : EnqCall)])
            else forceLoop Trail.ops c ne vs (Trail.ops.enqueue a l).2
              (calls ++ [(⟨v, l, true⟩ : EnqCall)])).1 ∧
        (if (Trail.ops.enqueue b l).1 = false then
              (false, (Trail.ops.enqueue b l).2, calls2 ++ [(⟨v, l, false⟩ : EnqCall)])
            else forceLoop Trail.ops c ne vs (Trail.ops.enqueue b l).2
              (calls2 ++ [(⟨v, l, true⟩ : EnqCall)])).2.1 = b ∧
        ∃ added,
          (if (Trail.ops.enqueue a l).1 = false then
              (false, (Trail.ops.enqueue a l).2, calls ++ [(⟨v, l, false⟩ : EnqCall)])
            else forceLoop Trail.ops c ne vs (Trail.ops.enqueue a l).2
              (calls ++ [(⟨v, l, true⟩ : EnqCall)])).2.2 = calls ++ added ∧
          (if (Trail.ops.enqueue b l).1 = false then
              (false, (Trail.ops.enqueue b l).2, calls2 ++ [(⟨v, l, false⟩ : EnqCall)])
            else forceLoop Trail.ops c ne vs (Trail.ops.enqueue b l).2
              (calls2 ++ [(⟨v, l, true⟩ : EnqCall)])).2.2 = calls2 ++ added := by
      intro l hb2
      have hops : ∀ t : Trail, Trail.ops.enqueue t l = Trail.enqueue t l := fun _ => rfl
      rw [hops a, hops b] at *
      rcases Trail.enqueue_answer a l with ⟨h1, h2, h3⟩ | ⟨h1, h2⟩
      · rw [if_pos h1, h3] at hb2
        have hbv : b.value l = l_False := by
          rw [← h2]; exact Trail.value_congr (hb2 l.var)
        rw [if_pos h1, Trail.enqueue_of_false hbv]
        exact ⟨rfl, rfl, [⟨v, l, false⟩], rfl, rfl⟩
      · have hne : ¬ (Trail.enqueue a l).1 = false := by rw [h1]; simp
        rw [if_neg hne] at hb2
        have hext := forceLoop_preserves Trail.ops (fun t => (Trail.enqueue a l).2.Extends t)
          (fun s q hs => Trail.enqueue_extends _ s q hs) c ne vs (Trail.enqueue a l).2
          (calls ++ [(⟨v, l, true⟩ : EnqCall)]) (Trail.extends_refl _)
        have hbv : b.value l = l_True := by
          rw [← h2, ← Trail.Extends.value_keep hext (by rw [h2]; simp)]
          exact Trail.value_congr (hb2 l.var)
        rw [if_neg hne, Trail.enqueue_of_true hbv]
        simp only [Bool.true_eq_false, if_false]
        obtain ⟨g1, g2, added, g3, g4⟩ := ih (Trail.enqueue a l).2 b
          (calls ++ [(⟨v, l, true⟩ : EnqCall)]) (calls2 ++ [(⟨v, l, true⟩ : EnqCall)]) hb2
        exact ⟨g1, g2, ⟨v, l, true⟩ :: added, by rw [g3]; simp, by rw [g4]; simp⟩
    rw [forceLoop] at hb
    rw [forceLoop, forceLoop]
    by_cases h1 : c.state v ≠ kUndecided
    · rw [if_pos h1] at hb ⊢
      rw [if_pos h1]
      exact ih a b calls calls2 hb
    · rw [if_neg h1] at hb ⊢
      rw [if_neg h1]
      by_cases h2 : c.clusterId v ≠ ne
      · rw [if_pos h2] at hb ⊢
        rw [if_pos h2]
        exact call _ hb
      · rw [if_neg h2] at hb ⊢
        rw [if_neg h2]
        by_cases h4 : branchCount c ne v ≥ 2
        · rw [if_pos h4] at hb ⊢
          rw [if_pos h4]
          exact call _ hb
        · rw [if_neg h4] at hb ⊢
          rw [if_neg h4]
          exact ih a b calls calls2 hb

theorem refresh_congr {S T : Type} (ops : SolverOps S) (ops2 : SolverOps T) (s : S) (t : T)
    (p : Lit) (lits : List Lit) : ∀ (is : List Nat) (st : List NodeState),
    (∀ i ∈ is, (lits.getD i (mkLit 0)).var = p.var →
      ops2.value t (lits.getD i (mkLit 0)) = ops.value s (lits.getD i (mkLit 0))) →
    refresh ops2 t p lits is st = refresh ops s p lits is st := by
  intro is
  induction is with
  | nil => intro st _; rfl
  | cons i is ih =>
    intro st h
    have h2 : ∀ j ∈ is, (lits.getD j (mkLit 0)).var = p.var →
        ops2.value t (lits.getD j (mkLit 0)) = ops.value s (lits.getD j (mkLit 0)) :=
      fun j hj => h j (List.mem_cons_of_mem _ hj)
    rw [refresh, refresh]
    by_cases hv : (lits.getD i (mkLit 0)).var = p.var
    · rw [if_pos hv, if_pos hv, h i (List.mem_cons_self _ _) hv]
      cases ops.value s (lits.getD i (mkLit 0)) with
      | l_True => exact ih _ h2
      | l_False => exact ih _ h2
      | l_Undef => rfl
    · rw [if_neg hv, if_neg hv]
      exact ih _ h2

/-- On the trail, a second call of `propagate(solver, p)` made in the solver state left by
a first, returning call returns the same Boolean after the same calls of `enqueue` with
the same answers, and leaves the same object. -/
theorem propagate_again_on_trail (t : Trail) (p : Lit) (c : ActiveVerticesConnected)
    (r : PropagateResult Trail) (h : propagate Trail.ops t p c = Outcome.returned r) :
    ∃ r2, propagate Trail.ops r.solver p r.self = Outcome.returned r2 ∧ r2.ret = r.ret ∧
      r2.calls = r.calls ∧ r2.self = r.self := by
  obtain ⟨st, hst, hsh⟩ := propagate_shape Trail.ops t p c r h
  rw [propagate_congr Trail.ops r.solver p hsh]
  unfold refreshed at hst
  have hext := propagate_solver_inv Trail.ops
    (fun t1 => (Trail.ops.registerUndo t p.var).Extends t1)
    (fun s l hs => Trail.enqueue_extends _ s l hs) t p c r h (Trail.extends_refl _)
  have hdef := refresh_defined _ _ _ _ _ _ _ hst
  have hr2 : refresh Trail.ops (Trail.ops.registerUndo r.solver p.var) p c.lits_
      (List.range c.lits_.length) st = some st := by
    rw [refresh_congr Trail.ops Trail.ops (Trail.ops.registerUndo t p.var)
      (Trail.ops.registerUndo r.solver p.var) p c.lits_ _ st (by
        intro i hi hv
        have := Trail.Extends.value_keep hext (hdef i hi hv)
        exact this)]
    exact refresh_idem _ _ _ _ _ _ _ hst
  simp only [propagate] at h ⊢
  rw [hst] at h
  rw [hr2]
  simp only at h ⊢
  cases hc : census c.lits_.length (List.range c.lits_.length) (-1)
      (resetDfs { c with state_ := st }) with
  | outOfFuel => rw [hc] at h; simp at h
  | conflict c2 =>
    rw [hc] at h
    simp only [Outcome.returned.injEq] at h
    rw [← h]
    exact ⟨_, rfl, rfl, rfl, rfl⟩
  | done ne c2 =>
    rw [hc] at h
    simp only at h ⊢
    by_cases hne : ne ≠ -1
    · rw [if_pos hne] at h
      rw [if_pos hne]
      simp only [Outcome.returned.injEq] at h
      subst h
      obtain ⟨g1, _, added, g3, g4⟩ := forceLoop_replay c2 ne (List.range c.lits_.length)
        (Trail.ops.registerUndo t p.var)
        (Trail.ops.registerUndo (forceLoop Trail.ops c2 ne (List.range c.lits_.length)
          (Trail.ops.registerUndo t p.var) []).2.1 p.var) [] [] (fun x => rfl)
      refine ⟨_, rfl, ?_, ?_, rfl⟩
      · exact g1
      · show (forceLoop Trail.ops c2 ne (List.range c.lits_.length)
          (Trail.ops.registerUndo (forceLoop Trail.ops c2 ne (List.range c.lits_.length)
            (Trail.ops.registerUndo t p.var) []).2.1 p.var) []).2.2 =
          (forceLoop Trail.ops c2 ne (List.range c.lits_.length)
            (Trail.ops.registerUndo t p.var) []).2.2
        rw [g3, g4]
    · rw [if_neg hne] at h
      rw [if_neg hne]
      simp only [Outcome.returned.injEq] at h
      rw [← h]
      exact ⟨_, rfl, rfl, rfl, rfl⟩

/-- C10 (classification is idempotent). The outcome of `propagate(solver, p)` (the
returned Boolean, the sequence of `enqueue` calls with their literals, and the object
left behind) depends only on the literals, the adjacency lists, VertexState and the
solver, not on the previous contents of `rank_`, `lowlink_`, `subtree_active_count_`,
`cluster_id_`, `parent_` or `next_rank_`; and calling `propagate(solver, p)` again on the
object left by a returning call, with a solver that answers as before, returns the very
same result. On the trail, where the second call starts from the solver state the first
call left (its assignments made, nothing new assigned), the second call returns the same
Boolean after the same `enqueue` calls with the same answers and leaves the same object. -/
theorem propagate_idempotent {S : Type} (ops : SolverOps S) (s : S) (p : Lit)
    (c c2 : ActiveVerticesConnected) (h : SameShape c c2) :
    propagate ops s p c2 = propagate ops s p c ∧
      (∀ r, propagate ops s p c = Outcome.returned r →
        propagate ops s p r.self = Outcome.returned r) ∧
      ∀ (t : Trail) (r : PropagateResult Trail),
        propagate Trail.ops t p c = Outcome.returned r →
        ∃ r2, propagate Trail.ops r.solver p r.self = Outcome.returned r2 ∧
          r2.ret = r.ret ∧ r2.calls = r.calls ∧ r2.self = r.self := by
  refine ⟨propagate_congr ops s p h, ?_, fun t r hr => propagate_again_on_trail t p c r hr⟩
  intro r hr
  obtain ⟨st, hst, hsh⟩ := propagate_shape ops s p c r hr
  rw [propagate_congr ops s p hsh, ← hr]
  unfold refreshed at hst
  have hid := refresh_idem _ _ _ _ _ _ _ hst
  simp only [propagate]
  rw [hid, hst]

theorem calcReason_of_check {S : Type} (ops : SolverOps S) (s : S) (p : Lit)
    (c : ActiveVerticesConnected) (out_reason : List Lit) :
    calcReason ops s p c out_reason =
      if reasonCheck ops s c (List.range c.lits_.length) then
        Outcome.returned (out_reason ++ reasonSpec c p)
      else Outcome.aborted := by
  have e : reasonLoop c p (List.range c.lits_.length) out_reason =
      out_reason ++ reasonSpec c p := reasonLoop_eq c p _ _
  simp only [calcReason, e]

theorem calcReason_of_agrees {S : Type} (ops : SolverOps S) (s : S) (p : Lit)
    (c : ActiveVerticesConnected) (out_reason : List Lit) (ha : Agrees ops s c) :
    calcReason ops s p c out_reason = Outcome.returned (out_reason ++ reasonSpec c p) := by
  rw [calcReason_of_check,
    if_pos (reasonCheck_of_agrees ops s c ha _ (fun i hi => List.mem_range.mp hi))]

/-- C7 (`calcReason` appends the current assignment of the other vertices). Whenever
`calcReason(solver, p, out_reason)` returns, and it does unless its consistency check
reaches `abort()`, `out_reason` has been extended by `reasonSpec c p`: in vertex order,
one literal for every vertex whose variable differs from the variable of `p` and that
is Active (its literal) or Inactive (the negation of its literal), nothing for an
Undecided vertex, and so no literal of the variable of `p`. When VertexState agrees with
the trail the call returns. -/
theorem calcReason_eq_reasonSpec {S : Type} (ops : SolverOps S) (s : S) (p : Lit)
    (c : ActiveVerticesConnected) (out_reason : List Lit) :
    (calcReason ops s p c out_reason = Outcome.returned (out_reason ++ reasonSpec c p) ∨
      calcReason ops s p c out_reason = Outcome.aborted) ∧
    (Agrees ops s c →
      calcReason ops s p c out_reason = Outcome.returned (out_reason ++ reasonSpec c p)) ∧
    (∀ l ∈ reasonSpec c p, l.var ≠ p.var) := by
  refine ⟨?_, calcReason_of_agrees ops s p c out_reason, ?_⟩
  · rw [calcReason_of_check]
    split_ifs
    · exact Or.inl rfl
    · exact Or.inr rfl
  · intro l hl
    obtain ⟨i, _, hv, h | h⟩ := mem_reasonSpec hl
    · rw [h.2]; exact hv
    · rw [h.2]; exact hv

/-- C8, amended (the explanation consists of true literals). Whenever VertexState agrees
with the trail, `calcReason` returns and every literal it has appended to `out_reason`
is currently assigned True on the trail. -/
theorem calcReason_literals_true {S : Type} (ops : SolverOps S) (s : S) (p : Lit)
    (c : ActiveVerticesConnected) (out_reason : List Lit) (ha : Agrees ops s c) :
    ∃ added, calcReason ops s p c out_reason = Outcome.returned (out_reason ++ added) ∧
      ∀ l ∈ added, ops.value s l = l_True := by
  refine ⟨reasonSpec c p, calcReason_of_agrees ops s p c out_reason ha, ?_⟩
  intro l hl
  obtain ⟨i, hi, _, h | h⟩ := mem_reasonSpec hl
  · rw [h.2]
    have := ha i hi
    rw [h.1] at this
    exact ofValue_active.mp this.symm
  · rw [h.2]
    have := ha i hi
    rw [h.1] at this
    exact value_neg_of_false ops s _ (ofValue_inactive.mp this.symm)

/-- C6, amended (`undo` resets to Undecided). For any sequence of calls `propagate(p1)`,
..., `propagate(pk)` that return, whatever they return, followed by `undo(pk)`, ...,
`undo(p1)`: if every vertex whose variable is the variable of one of the `pi` was
Undecided before the first `propagate` call, the resulting VertexState array equals the
array before the first `propagate` call. -/
theorem undo_restores_undecided {S : Type} (ops : SolverOps S) (calls : List (S × Lit))
    (c c1 : ActiveVerticesConnected) (h : propagateAll ops calls c = Outcome.returned c1)
    (hU : ∀ i, i < c.lits_.length → ∀ sp ∈ calls, (c.lit i).var = sp.2.var →
      c.state i = kUndecided) :
    (undoAll (calls.map Prod.snd).reverse c1).state_ = c.state_ := by
  obtain ⟨_, g2, g3⟩ := propagateAll_undoAll_getD ops calls c c1 h
  apply ext_getD (by rw [undoAll_length, g2])
  intro j
  rw [g3 j]
  by_cases hc : j < c.lits_.length ∧ ∃ sp ∈ calls, (c.lit j).var = sp.2.var
  · rw [if_pos hc]
    obtain ⟨hj, sp, h1, h2⟩ := hc
    exact (hU j hj sp h1 h2).symm
  · rw [if_neg hc]

/-- C9, amended (VertexState agrees with the propagated part of the trail). Starting from
the all-unassigned trail with every vertex Undecided, after any sequence of host events
(a literal becomes true and is queued, the host calls `propagate` for the next queued
literal, a variable is unassigned and `undo` is called), every call returns and each
vertex is Active iff its literal is True and the `propagate` call for its variable has
been made, Inactive iff its literal is False and that call has been made, and Undecided
iff its literal is Unknown or the `propagate` call for its variable is still awaited. -/
theorem state_agrees_with_propagated_trail (lits : List Lit) (edges : List (Nat × Nat))
    (hE : InRange lits.length edges) (events : List HostEvent) :
    ∃ t c, hostRun events Trail.empty (new lits edges) = Outcome.returned (t, c) ∧
      c.lits_ = lits ∧
      ∀ i, i < lits.length →
        (c.state i = kActive ↔ t.value (c.lit i) = l_True ∧ ¬ t.Awaits (c.lit i).var) ∧
        (c.state i = kInactive ↔ t.value (c.lit i) = l_False ∧ ¬ t.Awaits (c.lit i).var) ∧
        (c.state i = kUndecided ↔ t.value (c.lit i) = l_Undef ∨ t.Awaits (c.lit i).var) := by
  obtain ⟨t, c, h1, h2⟩ := hostRun_inv hE events _ _ (hostInv_init lits edges)
  refine ⟨t, c, h1, h2.built.hlits, ?_⟩
  intro i hi
  have hA := h2.active i hi
  have hI := h2.inactive i hi
  have hU := h2.undecided i hi
  have hW := h2.waiting i hi
  have hUndecided : c.state i = kUndecided ↔
      t.value (c.lit i) = l_Undef ∨ t.Awaits (c.lit i).var := by
    constructor
    · exact hU
    · rintro (h | h)
      · exact h2.of_undef hi ((Trail.value_undef_iff _ _).mp h)
      · exact hW h
  refine ⟨?_, ?_, hUndecided⟩
  · constructor
    · intro e
      exact ⟨hA e, fun hw => by rw [hW hw] at e; exact absurd e (by simp)⟩
    · rintro ⟨hv, hw⟩
      rcases state_cases (c.state i) with e | e | e
      · rcases hU e with h | h
        · rw [hv] at h; exact absurd h (by simp)
        · exact absurd h hw
      · exact e
      · have := hI e; rw [hv] at this; exact absurd this (by simp)
  · constructor
    · intro e
      exact ⟨hI e, fun hw => by rw [hW hw] at e; exact absurd e (by simp)⟩
    · rintro ⟨hv, hw⟩
      rcases state_cases (c.state i) with e | e | e
      · rcases hU e with h | h
        · rw [hv] at h; exact absurd h (by simp)
        · exact absurd h hw
      · have := hA e; rw [hv] at this; exact absurd this (by simp)
      · exact e

/-! ### getWatchers, the failure cases and the frame of the member functions -/

theorem toInt_inj {a b : Lit} (h : a.toInt = b.toInt) : a = b := by
  have key : ∀ (x y : Nat) (s t : Bool),
      x + x + (if s = true then 1 else 0) = y + y + (if t = true then 1 else 0) →
      x = y ∧ s = t := by
    intro x y s t e
    cases s <;> cases t <;> simp only [if_true, Bool.false_eq_true, if_false] at e <;>
      first
        | exact ⟨by omega, rfl⟩
        | exact absurd e (by omega)
  cases a with
  | mk va sa =>
    cases b with
    | mk vb sb =>
      obtain ⟨hv, hs⟩ := key va vb sa sb h
      rw [hv, hs]

theorem mem_setInsert (l q : Lit) : ∀ s : List Lit, q ∈ setInsert l s ↔ q = l ∨ q ∈ s := by
  intro s
  induction s with
  | nil => simp [setInsert]
  | cons a s ih =>
    rw [setInsert]
    by_cases h1 : l.toInt < a.toInt
    · rw [if_pos h1]; simp
    · rw [if_neg h1]
      by_cases h2 : a.toInt < l.toInt
      · rw [if_pos h2]
        simp only [List.mem_cons, ih]
        tauto
      · rw [if_neg h2]
        have e : l = a := toInt_inj (by omega)
        subst e
        simp

theorem setInsert_ok (l : Lit) : ∀ s : List Lit, SetOk s → SetOk (setInsert l s) := by
  intro s
  induction s with
  | nil => intro _; simp [setInsert, SetOk]
  | cons a s ih =>
    intro h
    unfold SetOk at h
    rw [List.pairwise_cons] at h
    rw [setInsert]
    by_cases h1 : l.toInt < a.toInt
    · rw [if_pos h1]
      unfold SetOk
      rw [List.pairwise_cons, List.pairwise_cons]
      refine ⟨?_, h.1, h.2⟩
      intro b hb
      rcases List.mem_cons.mp hb with e | hb
      · rw [e]; exact h1
      · exact lt_trans h1 (h.1 b hb)
    · rw [if_neg h1]
      by_cases h2 : a.toInt < l.toInt
      · rw [if_pos h2]
        unfold SetOk
        rw [List.pairwise_cons]
        refine ⟨?_, ih h.2⟩
        intro b hb
        rcases (mem_setInsert l b s).mp hb with e | hb
        · rw [e]; exact h2
        · exact h.1 b hb
      · rw [if_neg h2]
        unfold SetOk
        rw [List.pairwise_cons]
        exact h

theorem watchLoop_spec : ∀ (ls s : List Lit), SetOk s →
    SetOk (watchLoop ls s) ∧
      ∀ q, q ∈ watchLoop ls s ↔ q ∈ s ∨ ∃ l ∈ ls, q = l ∨ q = l.neg := by
  intro ls
  induction ls with
  | nil => intro s h; exact ⟨h, fun q => by simp [watchLoop]⟩
  | cons l ls ih =>
    intro s h
    rw [watchLoop]
    obtain ⟨h1, h2⟩ := ih _ (setInsert_ok l.neg _ (setInsert_ok l s h))
    refine ⟨h1, fun q => ?_⟩
    rw [h2, mem_setInsert, mem_setInsert]
    simp only [List.mem_cons, exists_eq_or_imp]
    generalize (∃ a, a ∈ ls ∧ (q = a ∨ q = a.neg)) = E
    tauto

theorem SetOk.nodup {s : List Lit} (h : SetOk s) : s.Nodup := by
  unfold SetOk at h
  exact h.imp (fun hab e => by rw [e] at hab; exact lt_irrefl _ hab)

/-- C13 (`getWatchers` outputs both polarities of every vertex literal, once). The call
`getWatchers(solver, out_watchers)` appends to `out_watchers` a list `ws` without
repetition that holds exactly the literals `l` and `~l` for the literals `l` of `lits_`:
each of them occurs once, also when a literal or a variable labels several vertices, and
nothing else occurs. -/
theorem getWatchers_both_polarities_once (c : ActiveVerticesConnected)
    (out_watchers : List Lit) :
    ∃ ws, getWatchers c out_watchers = out_watchers ++ ws ∧ ws.Nodup ∧
      (∀ q, q ∈ ws ↔ ∃ l ∈ c.lits_, q = l ∨ q = l.neg) ∧
      (∀ l ∈ c.lits_, ws.count l = 1 ∧ ws.count l.neg = 1) := by
  obtain ⟨h1, h2⟩ := watchLoop_spec c.lits_ [] List.Pairwise.nil
  have hm : ∀ q, q ∈ watchLoop c.lits_ [] ↔ ∃ l ∈ c.lits_, q = l ∨ q = l.neg := by
    intro q; rw [h2]; simp
  refine ⟨watchLoop c.lits_ [], rfl, h1.nodup, hm, ?_⟩
  intro l hl
  exact ⟨List.count_eq_one_of_mem h1.nodup ((hm l).mpr ⟨l, hl, Or.inl rfl⟩),
    List.count_eq_one_of_mem h1.nodup ((hm l.neg).mpr ⟨l, hl, Or.inr rfl⟩)⟩

theorem reasonCheck_false_iff {S : Type} (ops : SolverOps S) (s : S)
    (c : ActiveVerticesConnected) : ∀ is : List Nat,
    reasonCheck ops s c is = false ↔
      ∃ i ∈ is, (c.state i = kActive ∧ ops.value s (c.lit i) ≠ l_True) ∨
        (c.state i = kInactive ∧ ops.value s (c.lit i) ≠ l_False) := by
  intro is
  induction is with
  | nil => simp [reasonCheck]
  | cons i is ih =>
    rw [reasonCheck]
    by_cases h1 : c.state i = kActive ∧ ops.value s (c.lit i) ≠ l_True
    · rw [if_pos h1]
      exact ⟨fun _ => ⟨i, List.mem_cons_self _ _, Or.inl h1⟩, fun _ => rfl⟩
    · rw [if_neg h1]
      by_cases h2 : c.state i = kInactive ∧ ops.value s (c.lit i) ≠ l_False
      · rw [if_pos h2]
        exact ⟨fun _ => ⟨i, List.mem_cons_self _ _, Or.inr h2⟩, fun _ => rfl⟩
      · rw [if_neg h2, ih]
        constructor
        · rintro ⟨j, hj, h⟩
          exact ⟨j, List.mem_cons_of_mem _ hj, h⟩
        · rintro ⟨j, hj, h⟩
          rcases List.mem_cons.mp hj with e | hj
          · subst e
            rcases h with h | h
            · exact absurd h h1
            · exact absurd h h2
          · exact ⟨j, hj, h⟩

theorem value_neg_true {S : Type} (ops : SolverOps S) (s : S) (l : Lit) :
    ops.value s l.neg = l_True ↔ ops.value s l = l_False := by
  unfold SolverOps.value Lit.neg
  cases ops.assigns s l.var <;> cases l.sign <;> simp [lbool.xor]

/-- C11 (`calcReason` aborts exactly on a mismatch with the trail). The call
`calcReason(solver, p, out_reason)` reaches `abort()` iff some vertex is Active while its
literal is not True or Inactive while its literal is not False; when it does not abort it
returns with `out_reason` extended by the explanation, so a failure is never a returned
result; it aborts when a literal it put in the explanation is not True on the trail; and
it returns whenever VertexState agrees with the trail. -/
theorem calcReason_aborts_iff_mismatch {S : Type} (ops : SolverOps S) (s : S) (p : Lit)
    (c : ActiveVerticesConnected) (out_reason : List Lit) :
    (calcReason ops s p c out_reason = Outcome.aborted ↔
      ∃ i, i < c.lits_.length ∧
        ((c.state i = kActive ∧ ops.value s (c.lit i) ≠ l_True) ∨
          (c.state i = kInactive ∧ ops.value s (c.lit i) ≠ l_False))) ∧
    (calcReason ops s p c out_reason ≠ Outcome.aborted →
      calcReason ops s p c out_reason = Outcome.returned (out_reason ++ reasonSpec c p)) ∧
    ((∃ l ∈ reasonSpec c p, ops.value s l ≠ l_True) →
      calcReason ops s p c out_reason = Outcome.aborted) ∧
    (Agrees ops s c →
      calcReason ops s p c out_reason = Outcome.returned (out_reason ++ reasonSpec c p)) := by
  have hiff : calcReason ops s p c out_reason = Outcome.aborted ↔
      ∃ i, i < c.lits_.length ∧
        ((c.state i = kActive ∧ ops.value s (c.lit i) ≠ l_True) ∨
          (c.state i = kInactive ∧ ops.value s (c.lit i) ≠ l_False)) := by
    rw [calcReason_of_check]
    by_cases hc : reasonCheck ops s c (List.range c.lits_.length) = true
    · rw [if_pos hc]
      constructor
      · intro h; cases h
      · rintro ⟨i, hi, h⟩
        have := (reasonCheck_false_iff ops s c _).mpr ⟨i, List.mem_range.mpr hi, h⟩
        rw [this] at hc
        cases hc
    · rw [if_neg hc]
      have hf : reasonCheck ops s c (List.range c.lits_.length) = false := by
        cases h : reasonCheck ops s c (List.range c.lits_.length)
        · rfl
        · exact absurd h hc
      obtain ⟨i, hi, h⟩ := (reasonCheck_false_iff ops s c _).mp hf
      exact ⟨fun _ => ⟨i, List.mem_range.mp hi, h⟩, fun _ => rfl⟩
  refine ⟨hiff, ?_, ?_, calcReason_of_agrees ops s p c out_reason⟩
  · intro h
    rw [calcReason_of_check] at h ⊢
    by_cases hc : reasonCheck ops s c (List.range c.lits_.length) = true
    · rw [if_pos hc]
    · rw [if_neg hc] at h
      exact absurd rfl h
  · rintro ⟨l, hl, hv⟩
    obtain ⟨i, hi, _, h | h⟩ := mem_reasonSpec hl
    · exact hiff.mpr ⟨i, hi, Or.inl ⟨h.1, by rw [← h.2]; exact hv⟩⟩
    · refine hiff.mpr ⟨i, hi, Or.inr ⟨h.1, fun e => hv ?_⟩⟩
      rw [h.2]
      exact (value_neg_true ops s _).mpr e

theorem refresh_none_iff {S : Type} (ops : SolverOps S) (s : S) (p : Lit) (lits : List Lit)
    (is : List Nat) (st : List NodeState) :
    refresh ops s p lits is st = none ↔
      ∃ i ∈ is, (lits.getD i (mkLit 0)).var = p.var ∧
        ops.value s (lits.getD i (mkLit 0)) = l_Undef := by
  constructor
  · intro h
    by_contra hn
    obtain ⟨st1, h1⟩ := refresh_some ops s p lits is st (fun i hi hv e => hn ⟨i, hi, hv, e⟩)
    rw [h1] at h
    cases h
  · rintro ⟨i, hi, hv, e⟩
    cases h : refresh ops s p lits is st with
    | none => rfl
    | some st1 => exact absurd e (refresh_defined ops s p lits is st st1 h i hi hv)

theorem propagate_aborted_iff {S : Type} (ops : SolverOps S) (s : S) (p : Lit)
    (c : ActiveVerticesConnected) :
    propagate ops s p c = Outcome.aborted ↔ refreshed ops s p c = none := by
  unfold refreshed
  simp only [propagate]
  cases hr : refresh ops (ops.registerUndo s p.var) p c.lits_ (List.range c.lits_.length)
      c.state_ with
  | none => simp
  | some st =>
    simp only
    cases census c.lits_.length (List.range c.lits_.length) (-1)
        (resetDfs { c with state_ := st }) with
    | outOfFuel => simp
    | conflict c2 => simp
    | done ne c2 =>
      simp only
      split_ifs <;> simp

/-- C12 (`propagate` aborts exactly on an Unknown value of the assigned variable). For an
object built by the constructor, `propagate(solver, p)` reaches `abort()`, and so returns
neither `true` nor `false`, iff some vertex `i` with `var(lits[i]) = var(p)` has
`value(lits[i])` Unknown (read after `registerUndo`, which on the trail changes no value);
otherwise the call returns and every such vertex is Active if the value is True and
Inactive if it is False. -/
theorem propagate_aborts_iff_unknown {S : Type} (ops : SolverOps S) (s : S) (p : Lit)
    (lits : List Lit) (edges : List (Nat × Nat)) (c : ActiveVerticesConnected)
    (hB : Built lits edges c) (hE : InRange lits.length edges) :
    (propagate ops s p c = Outcome.aborted ↔
      ∃ i, i < lits.length ∧ (c.lit i).var = p.var ∧
        ops.value (ops.registerUndo s p.var) (c.lit i) = l_Undef) ∧
    ((¬ ∃ i, i < lits.length ∧ (c.lit i).var = p.var ∧
        ops.value (ops.registerUndo s p.var) (c.lit i) = l_Undef) →
      ∃ r, propagate ops s p c = Outcome.returned r ∧
        ∀ i, i < lits.length → (c.lit i).var = p.var →
          (ops.value (ops.registerUndo s p.var) (c.lit i) = l_True →
            r.self.state i = kActive) ∧
          (ops.value (ops.registerUndo s p.var) (c.lit i) = l_False →
            r.self.state i = kInactive)) ∧
    (∀ t : Trail, propagate Trail.ops t p c = Outcome.aborted ↔
      ∃ i, i < lits.length ∧ (c.lit i).var = p.var ∧ t.value (c.lit i) = l_Undef) := by
  have hl := hB.hlits
  subst hl
  have hiff : ∀ {T : Type} (o : SolverOps T) (t : T),
      propagate o t p c = Outcome.aborted ↔
      ∃ i, i < c.lits_.length ∧ (c.lit i).var = p.var ∧
        o.value (o.registerUndo t p.var) (c.lit i) = l_Undef := by
    intro T o t
    rw [propagate_aborted_iff]
    unfold refreshed
    rw [refresh_none_iff]
    constructor
    · rintro ⟨i, hi, h⟩
      exact ⟨i, List.mem_range.mp hi, h⟩
    · rintro ⟨i, hi, h⟩
      exact ⟨i, List.mem_range.mpr hi, h⟩
  refine ⟨hiff ops s, ?_, fun t => hiff Trail.ops t⟩
  intro hn
  cases hr : refreshed ops s p c with
  | none => exact absurd ((hiff ops s).mp ((propagate_aborted_iff ops s p c).mpr hr)) hn
  | some st =>
    obtain ⟨r, h1, h2, _⟩ := propagate_summary ops s p hB hE hr
    refine ⟨r, h1, ?_⟩
    intro i hi hv
    unfold refreshed at hr
    have hg := refresh_getD _ _ _ _ _ _ _ hr i
    rw [if_pos ⟨List.mem_range.mpr hi, by rw [hB.sized.state]; exact hi, hv⟩] at hg
    have hs : r.self.state i = ofValue (ops.value (ops.registerUndo s p.var) (c.lit i)) := by
      unfold state
      rw [h2]
      exact hg
    constructor
    · intro e; rw [hs, e]; rfl
    · intro e; rw [hs, e]; rfl

theorem forceLoop_calls_length {S : Type} (ops : SolverOps S) (c : ActiveVerticesConnected)
    (ne : Int) : ∀ (vs : List Nat) (s : S) (calls : List EnqCall),
    calls.length ≤ (forceLoop ops c ne vs s calls).2.2.length ∧
      ((forceLoop ops c ne vs s calls).2.2.length = calls.length →
        (forceLoop ops c ne vs s calls).2.1 = s) := by
  intro vs
  induction vs with
  | nil => intro s calls; exact ⟨le_refl _, fun _ => rfl⟩
  | cons v vs ih =>
    intro s calls
    have call : ∀ l : Lit,
        calls.length ≤
          (if (ops.enqueue s l).1 = false then
              (false, (ops.enqueue s l).2, calls ++ [(⟨v, l, false⟩ : EnqCall)])
            else forceLoop ops c ne vs (ops.enqueue s l).2
              (calls ++ [(⟨v, l, true⟩ : EnqCall)])).2.2.length ∧
        ((if (ops.enqueue s l).1 = false then
              (false, (ops.enqueue s l).2, calls ++ [(⟨v, l, false⟩ : EnqCall)])
            else forceLoop ops c ne vs (ops.enqueue s l).2
              (calls ++ [(⟨v, l, true⟩ : EnqCall)])).2.2.length = calls.length →
          (if (ops.enqueue s l).1 = false then
              (false, (ops.enqueue s l).2, calls ++ [(⟨v, l, false⟩ : EnqCall)])
            else forceLoop ops c ne vs (ops.enqueue s l).2
              (calls ++ [(⟨v, l, true⟩ : EnqCall)])).2.1 = s) := by
      intro l
      by_cases h : (ops.enqueue s l).1 = false
      · rw [if_pos h]
        simp
      · rw [if_neg h]
        have := (ih (ops.enqueue s l).2 (calls ++ [(⟨v, l, true⟩ : EnqCall)])).1
        simp only [List.length_append, List.length_singleton] at this
        exact ⟨by omega, fun e => by omega⟩
    rw [forceLoop]
    by_cases h1 : c.state v ≠ kUndecided
    · rw [if_pos h1]; exact ih s calls
    · rw [if_neg h1]
      by_cases h2 : c.clusterId v ≠ ne
      · rw [if_pos h2]; exact call _
      · rw [if_neg h2]
        by_cases h4 : branchCount c ne v ≥ 2
        · rw [if_pos h4]; exact call _
        · rw [if_neg h4]; exact ih s calls

theorem propagate_no_calls_solver {S : Type} (ops : SolverOps S) (s : S) (p : Lit)
    (c : ActiveVerticesConnected) (r : PropagateResult S)
    (h : propagate ops s p c = Outcome.returned r) (hc : r.calls = []) :
    r.solver = ops.registerUndo s p.var := by
  simp only [propagate] at h
  cases hr : refresh ops (ops.registerUndo s p.var) p c.lits_ (List.range c.lits_.length)
      c.state_ with
  | none => rw [hr] at h; simp at h
  | some st =>
    rw [hr] at h
    simp only at h
    cases hcen : census c.lits_.length (List.range c.lits_.length) (-1)
        (resetDfs { c with state_ := st }) with
    | outOfFuel => rw [hcen] at h; simp at h
    | conflict c2 =>
      rw [hcen] at h
      simp only [Outcome.returned.injEq] at h
      subst h; rfl
    | done ne c2 =>
      rw [hcen] at h
      simp only at h
      by_cases hne : ne ≠ -1
      · rw [if_pos hne] at h
        simp only [Outcome.returned.injEq] at h
        subst h
        simp only at hc ⊢
        exact (forceLoop_calls_length ops c2 ne _ _ []).2 (by rw [hc])
      · rw [if_neg hne] at h
        simp only [Outcome.returned.injEq] at h
        subst h; rfl

/-- C14 (no Active vertex, no forcing). For every graph and every VertexState array `st`
left by the refresh loop in which no vertex is Active, `propagate` returns `true`, makes
no call of `enqueue`, and leaves the solver as `registerUndo` left it. -/
theorem propagate_no_active_no_forcing {S : Type} (ops : SolverOps S) (s : S) (p : Lit)
    (lits : List Lit) (edges : List (Nat × Nat)) (c : ActiveVerticesConnected)
    (st : List NodeState) (hB : Built lits edges c) (hE : InRange lits.length edges)
    (hr : refreshed ops s p c = some st)
    (hno : ∀ a, a < lits.length → st.getD a kUndecided ≠ kActive) :
    ∃ r, propagate ops s p c = Outcome.returned r ∧ r.self.state_ = st ∧ r.ret = true ∧
      r.calls = [] ∧ r.solver = ops.registerUndo s p.var := by
  obtain ⟨r, h1, h2, hF, hB2, hS⟩ := propagate_summary ops s p hB hE hr
  have hno2 : ∀ a, a < lits.length → r.self.state a ≠ kActive := by
    intro a ha; unfold state; rw [h2]; exact hno a ha
  have hcalls : r.ret = true ∧ r.calls = [] := by
    rcases hS with ⟨_, _, a, _, ha, _, _, _, haA, _⟩ | ⟨ne, hC, _, h | ⟨hne, _⟩⟩
    · exact absurd haA (hno2 a ha)
    · exact ⟨h.2.1, h.2.2⟩
    · obtain ⟨r0, _, _, _, _, ⟨a, ha, _, haA, _⟩, _⟩ := hC.single hne
      exact absurd haA (hno2 a ha)
  refine ⟨r, h1, h2, hcalls.1, hcalls.2, ?_⟩
  exact propagate_no_calls_solver ops s p c r h1 hcalls.2

theorem propagate_false_no_calls {S : Type} (ops : SolverOps S) (s : S) (p : Lit)
    (c : ActiveVerticesConnected) (st : List NodeState) (r : PropagateResult S)
    (hr : refreshed ops s p c = some st)
    (h : propagate ops s p c = Outcome.returned r) (hf : r.ret = false) (hc : r.calls = []) :
    census c.lits_.length (List.range c.lits_.length) (-1) (resetDfs { c with state_ := st }) =
      Census.conflict r.self := by
  unfold refreshed at hr
  simp only [propagate] at h
  rw [hr] at h
  simp only at h
  cases hcen : census c.lits_.length (List.range c.lits_.length) (-1)
      (resetDfs { c with state_ := st }) with
  | outOfFuel => rw [hcen] at h; simp at h
  | conflict c2 =>
    rw [hcen] at h
    simp only [Outcome.returned.injEq] at h
    subst h; rfl
  | done ne c2 =>
    rw [hcen] at h
    simp only at h
    by_cases hne : ne ≠ -1
    · rw [if_pos hne] at h
      simp only [Outcome.returned.injEq] at h
      subst h
      simp only at hc hf
      obtain ⟨added, h1, _, h3, _⟩ := forceLoop_spec ops c2 ne (List.range c.lits_.length)
        (ops.registerUndo s p.var) []
      rw [hc] at h1
      have : added = [] := by simpa using h1.symm
      obtain ⟨e, he, _⟩ := h3.mp hf
      rw [this] at he
      simp at he
    · rw [if_neg hne] at h
      simp only [Outcome.returned.injEq] at h
      subst h
      simp at hf

theorem trail_enqueue_undos (t : Trail) (l : Lit) : (Trail.enqueue t l).2.undos = t.undos := by
  unfold Trail.enqueue
  cases t.value l <;> rfl

/-- C18 (a census conflict returns `false` at once). When the VertexState array `st` left
by the refresh loop has two Active vertices that no path through vertices that are not
Inactive connects, the census loop ends with its `return false`: `propagate` returns
`false`, has made no call of `enqueue`, and the solver is exactly as the call
`registerUndo(var(p))` left it. On the trail, after every returning call the variable of
`p` is registered for undo, so unassigning it makes the host call `undo`, which resets
every vertex of that variable to Undecided. -/
theorem propagate_census_conflict_immediate {S : Type} (ops : SolverOps S) (s : S) (p : Lit)
    (lits : List Lit) (edges : List (Nat × Nat)) (c : ActiveVerticesConnected)
    (st : List NodeState) (hB : Built lits edges c) (hE : InRange lits.length edges)
    (hr : refreshed ops s p c = some st)
    (hconf : ∃ a b, a < lits.length ∧ b < lits.length ∧ st.getD a kUndecided = kActive ∧
      st.getD b kUndecided = kActive ∧ ¬ Connected edges st a b) :
    (∃ r, propagate ops s p c = Outcome.returned r ∧ r.self.state_ = st ∧ r.ret = false ∧
      r.calls = [] ∧ r.solver = ops.registerUndo s p.var ∧
      census lits.length (List.range lits.length) (-1) (resetDfs { c with state_ := st }) =
        Census.conflict r.self) ∧
    (∀ (t : Trail) (r : PropagateResult Trail),
      propagate Trail.ops t p c = Outcome.returned r →
      p.var ∈ r.solver.undos ∧
      hostStep (HostEvent.unassign p.var) r.solver r.self =
        Outcome.returned (r.solver.unassign p.var, undo (mkLit p.var) r.self) ∧
      ∀ i, i < lits.length → (c.lit i).var = p.var →
        (undo (mkLit p.var) r.self).state i = kUndecided) := by
  constructor
  · obtain ⟨r, h1, h2, hF, hB2, hS⟩ := propagate_summary ops s p hB hE hr
    obtain ⟨a, b, ha, hb, haA, hbA, hnc⟩ := hconf
    have hsa : r.self.state a = kActive := by unfold state; rw [h2]; exact haA
    have hsb : r.self.state b = kActive := by unfold state; rw [h2]; exact hbA
    have hcalls : r.ret = false ∧ r.calls = [] := by
      rcases hS with ⟨g1, g2, _⟩ | ⟨ne, hC, hall, h | ⟨hne, _⟩⟩
      · exact ⟨g1, g2⟩
      · have hav := hall a ha (by rw [hsa]; simp)
        exact absurd hsa (hC.empty h.1 a ha hav)
      · exfalso
        obtain ⟨r0, _, _, _, _, _, hsame⟩ := hC.single hne
        have hav := hall a ha (by rw [hsa]; simp)
        have hbv := hall b hb (by rw [hsb]; simp)
        have := hF.cluster_connected hB2 hE ha hav hb hbv
          ((hsame a ha hav hsa).trans (hsame b hb hbv hsb).symm)
        rw [h2] at this
        exact hnc this
    refine ⟨r, h1, h2, hcalls.1, hcalls.2,
      propagate_no_calls_solver ops s p c r h1 hcalls.2, ?_⟩
    have := propagate_false_no_calls ops s p c st r hr h1 hcalls.1 hcalls.2
    have hl := hB.hlits
    subst hl
    exact this
  · intro t r h
    have hu : p.var ∈ r.solver.undos :=
      propagate_solver_inv Trail.ops (fun t1 => p.var ∈ t1.undos)
        (fun s l hs => by
          show p.var ∈ (Trail.enqueue s l).2.undos
          rw [trail_enqueue_undos]; exact hs) t p c r h (by
          show p.var ∈ (Trail.registerUndo t p.var).undos
          simp [Trail.registerUndo])
    refine ⟨hu, by simp [hostStep, hu], ?_⟩
    intro i hi hv
    obtain ⟨st2, _, hsh⟩ := propagate_shape Trail.ops t p c r h
    have hl : r.self.lits_ = c.lits_ := hsh.1.1
    rw [undo_state]
    rw [if_pos ⟨by rw [hl, hB.hlits]; exact hi, by
      have : r.self.lit i = c.lit i := by unfold lit; rw [hl]
      rw [this]; exact hv⟩]

/-- C20 (frame of `propagate` and `undo`). Whatever `propagate(solver, p)` returns and
enqueues, it leaves `lits_`, the adjacency lists and the VertexState of every vertex whose
variable differs from the variable of `p` unchanged; so does `undo(solver, p)`. (The
embeddings of `calcReason` and `getWatchers` return only the output vector: their bodies
assign to no data member.) -/
theorem propagate_undo_frame {S : Type} (ops : SolverOps S) (s : S) (p : Lit)
    (c : ActiveVerticesConnected) :
    (∀ r, propagate ops s p c = Outcome.returned r →
      r.self.lits_ = c.lits_ ∧ r.self.adj_ = c.adj_ ∧
      r.self.state_.length = c.state_.length ∧
      ∀ i, (c.lit i).var ≠ p.var → r.self.state i = c.state i) ∧
    ((undo p c).lits_ = c.lits_ ∧ (undo p c).adj_ = c.adj_ ∧
      (undo p c).state_.length = c.state_.length ∧
      ∀ i, (c.lit i).var ≠ p.var → (undo p c).state i = c.state i) := by
  constructor
  · intro r h
    obtain ⟨st, hst, hsh⟩ := propagate_shape ops s p c r h
    unfold refreshed at hst
    have hs : r.self.state_ = st := hsh.1.2.2
    refine ⟨hsh.1.1, hsh.1.2.1, ?_, ?_⟩
    · rw [hs]; exact refresh_length _ _ _ _ _ _ _ hst
    · intro i hi
      unfold state
      rw [hs, refresh_getD _ _ _ _ _ _ _ hst i]
      rw [if_neg (fun hc => hi hc.2.2)]
  · refine ⟨rfl, rfl, undoLoop_length _ _ _ _, ?_⟩
    intro i hi
    simp only [undo, state]
    rw [undoLoop_getD]
    rw [if_neg (fun hc => hi hc.2)]

/-! ### The depth-first tree: subtrees, counts and low-links -/

theorem Desc.rank_le {c : ActiveVerticesConnected} {a b : Nat} (h : Desc c a b) :
    c.rank a ≤ c.rank b := by
  induction h with
  | refl => exact le_refl _
  | tail _ hstep ih => have := hstep.2.1; omega

theorem Desc.rank_lt {c : ActiveVerticesConnected} {a b : Nat} (h : Desc c a b) (hne : a ≠ b) :
    c.rank a < c.rank b := by
  induction h with
  | refl => exact absurd rfl hne
  | @tail u z hau hstep _ =>
    have h1 := Desc.rank_le hau
    have := hstep.2.1
    omega

theorem Tr.desc {c : ActiveVerticesConnected} {v : Nat} {ws : List Nat} {S : Finset Nat}
    {cnt low : Int} (h : Tr c v ws S cnt low) : ∀ y ∈ S, Desc c v y := by
  induction h with
  | leaf v _ _ _ =>
    intro y hy
    simp at hy; subst hy
    exact Relation.ReflTransGen.refl
  | skip w _ _ _ ih => exact ih
  | @child v ws S cnt low w Sw ht _ hpar _ hlt hw _ ih ihw =>
    intro y hy
    rcases Finset.mem_union.mp hy with hy | hy
    · exact ih y hy
    · exact Relation.ReflTransGen.head ⟨hw.root_ok.1, hlt v ht.root_mem, hpar⟩ (ihw y hy)
  | back z _ _ _ _ _ ih => exact ih

/-- Every vertex of a trace other than its root has its parent in the trace, with a smaller
rank, and lies in the adjacency list of its parent. -/
theorem Tr.parentIn {c : ActiveVerticesConnected} {v : Nat} {ws : List Nat} {S : Finset Nat}
    {cnt low : Int} (h : Tr c v ws S cnt low) :
    (∀ w ∈ ws, w ∈ c.adj v) → ∀ y ∈ S, y ≠ v →
      ∃ u ∈ S, c.parent y = (u : Int) ∧ c.rank u < c.rank y ∧ y ∈ c.adj u := by
  induction h with
  | leaf v _ _ _ => intro _ y hy hne; simp at hy; exact absurd hy hne
  | skip w _ _ _ ih =>
    intro hws y hy hne
    exact ih (fun x hx => hws x (List.mem_append_left _ hx)) y hy hne
  | @child v ws S cnt low w Sw ht _ hpar _ hlt hw _ ih ihw =>
    intro hws y hy hne
    rcases Finset.mem_union.mp hy with hy | hy
    · obtain ⟨u, hu, g⟩ := ih (fun x hx => hws x (List.mem_append_left _ hx)) y hy hne
      exact ⟨u, Finset.mem_union_left _ hu, g⟩
    · by_cases hyw : y = w
      · subst hyw
        exact ⟨v, Finset.mem_union_left _ ht.root_mem, hpar, hlt v ht.root_mem,
          hws y (by simp)⟩
      · obtain ⟨u, hu, g⟩ := ihw (fun x hx => hx) y hy hyw
        exact ⟨u, Finset.mem_union_right _ hu, g⟩
  | back z _ _ _ _ _ ih =>
    intro hws y hy hne
    exact ih (fun x hx => hws x (List.mem_append_left _ hx)) y hy hne

/-- What happened to a processed neighbour: it was skipped, or it lies in the trace, or it
had been visited before the root of the trace. -/
theorem Tr.processed {c : ActiveVerticesConnected} {u : Nat} {ws : List Nat} {S : Finset Nat}
    {cnt low : Int} (h : Tr c u ws S cnt low) :
    ∀ z ∈ ws, ((z : Int) = c.parent u ∨ c.state z = kInactive) ∨ z ∈ S ∨
      c.rank z < c.rank u := by
  induction h with
  | leaf v _ _ _ => intro z hz; simp at hz
  | skip w _ hw _ ih =>
    intro z hz
    rcases List.mem_append.mp hz with hz | hz
    · exact ih z hz
    · simp at hz; subst hz; exact Or.inl hw
  | @child v ws S cnt low w Sw ht _ hpar _ hlt hw _ ih ihw =>
    intro z hz
    rcases List.mem_append.mp hz with hz | hz
    · rcases ih z hz with g | g | g
      · exact Or.inl g
      · exact Or.inr (Or.inl (Finset.mem_union_left _ g))
      · exact Or.inr (Or.inr g)
    · simp at hz; subst hz
      exact Or.inr (Or.inl (Finset.mem_union_right _ hw.root_mem))
  | back z _ _ _ _ hold ih =>
    intro z1 hz
    rcases List.mem_append.mp hz with hz | hz
    · exact ih z1 hz
    · simp at hz; subst hz; exact Or.inr hold

/-- In a forest the parent of a visited vertex that has one is visited, has a smaller rank
and has the vertex in its adjacency list. -/
theorem Forest.parent_visited {c : ActiveVerticesConnected} {n : Nat} (hF : Forest c n)
    {x u : Nat} (hx : x < n) (hxv : c.rank x ≠ -1) (hp : c.parent x = (u : Int)) :
    u < n ∧ c.rank u ≠ -1 ∧ c.rank u < c.rank x ∧ x ∈ c.adj u ∧
      c.clusterId u = c.clusterId x := by
  obtain ⟨r, T, h1, h2, h3, h4, h5⟩ := hF.root x hx hxv
  have hxT : x ∈ T := (h5 x).mpr ⟨hx, hxv, h1⟩
  by_cases hxr : x = r
  · subst hxr
    rw [hp] at h3
    omega
  · obtain ⟨u1, hu1, g1, g2, g3⟩ := Tr.parentIn h4 (fun w hw => hw) x hxT hxr
    have : u1 = u := by
      rw [hp] at g1
      exact_mod_cast g1.symm
    subst this
    have := (h5 u1).mp hu1
    exact ⟨this.1, this.2.1, g2, g3, by rw [this.2.2, h1]⟩

theorem Forest.rank_nonneg {c : ActiveVerticesConnected} {n : Nat} (hF : Forest c n)
    {x : Nat} (hx : x < n) (hxv : c.rank x ≠ -1) : 0 ≤ c.rank x :=
  (hF.rankInv.bound x hx hxv).1

/-- In a forest a child of `u` lies in every complete trace of `u`. -/
theorem Forest.child_mem {c : ActiveVerticesConnected} {n : Nat} (hF : Forest c n)
    {u z : Nat} {Su : Finset Nat} (hd : Done c u Su) (hc : TreeChild c u z) : z ∈ Su := by
  obtain ⟨hz, hlt, hp⟩ := hc
  rw [hF.sized.lits] at hz
  have hu := hd.root_ok
  rw [hF.sized.lits] at hu
  have hu0 := hF.rank_nonneg hu.1 hu.2.2
  have hzv : c.rank z ≠ -1 := by omega
  obtain ⟨_, _, _, hadj, _⟩ := hF.parent_visited hz hzv hp
  rcases Tr.processed hd z hadj with (g | g) | g | g
  · -- `z` would be the parent of `u`
    obtain ⟨_, _, g3, _⟩ := hF.parent_visited hu.1 hu.2.2 g.symm
    omega
  · exact absurd g (hF.alive z hz hzv)
  · exact g
  · omega

/-- In a forest the complete trace of a vertex is its subtree. -/
theorem Forest.done_iff_desc {c : ActiveVerticesConnected} {n : Nat} (hF : Forest c n)
    {v : Nat} {S : Finset Nat} (hd : Done c v S) : ∀ y, y ∈ S ↔ Desc c v y := by
  intro y
  constructor
  · exact Tr.desc hd y
  · intro h
    induction h with
    | refl => exact hd.root_mem
    | @tail u z _ hstep ih =>
      by_cases huv : u = v
      · subst huv; exact hF.child_mem hd hstep
      · obtain ⟨Su, g1, g2, _⟩ := Tr.locate hd (fun w hw => hw) u ih huv
        exact g2 (hF.child_mem g1 hstep)

/-- In a forest every visited vertex has a subtree set with a complete trace. -/
theorem Forest.subtree {c : ActiveVerticesConnected} {n : Nat} (hF : Forest c n)
    {v : Nat} (hv : v < n) (hvv : c.rank v ≠ -1) :
    ∃ Sv : Finset Nat, Done c v Sv ∧ ∀ y, y ∈ Sv ↔ Desc c v y := by
  obtain ⟨Sv, hd⟩ := hF.done_of_visited hv hvv
  exact ⟨Sv, hd, hF.done_iff_desc hd⟩

/-- In a forest a visited vertex without parent is the root of its cluster, and its subtree
is the cluster. -/
theorem Forest.root_cluster {c : ActiveVerticesConnected} {n : Nat} (hF : Forest c n)
    {v : Nat} (hv : v < n) (hvv : c.rank v ≠ -1) (hp : c.parent v = -1) :
    c.clusterId v = (v : Int) ∧ ∃ T : Finset Nat, Done c v T ∧
      ∀ y, y ∈ T ↔ y < n ∧ c.rank y ≠ -1 ∧ c.clusterId y = (v : Int) := by
  obtain ⟨r, T, h1, h2, h3, h4, h5⟩ := hF.root v hv hvv
  have hvT : v ∈ T := (h5 v).mpr ⟨hv, hvv, h1⟩
  by_cases hvr : v = r
  · subst hvr
    exact ⟨h1, T, h4, h5⟩
  · obtain ⟨u, _, g1, _⟩ := Tr.parentIn h4 (fun w hw => hw) v hvT hvr
    rw [hp] at g1
    omega

/-- The low-link of a trace is a lower bound of the rank of the root, of the ranks of the
processed neighbours of the root and of the ranks of all neighbours of the other vertices
of the trace, the parent of the vertex and Inactive neighbours apart. -/
theorem Tr.lowLower {c : ActiveVerticesConnected} {v : Nat} {ws : List Nat} {S : Finset Nat}
    {cnt low : Int} (h : Tr c v ws S cnt low) :
    low ≤ c.rank v ∧
      (∀ z ∈ ws, (z : Int) ≠ c.parent v → c.state z ≠ kInactive → low ≤ c.rank z) ∧
      (∀ y ∈ S, y ≠ v → ∀ z ∈ c.adj y, (z : Int) ≠ c.parent y → c.state z ≠ kInactive →
        low ≤ c.rank z) := by
  induction h with
  | leaf v _ _ _ =>
    refine ⟨le_refl _, ?_, ?_⟩
    · intro z hz; simp at hz
    · intro y hy hne; simp at hy; exact absurd hy hne
  | @skip v ws S cnt low w _ hw _ ih =>
    refine ⟨ih.1, ?_, ih.2.2⟩
    intro z hz hzp hzs
    rcases List.mem_append.mp hz with hz | hz
    · exact ih.2.1 z hz hzp hzs
    · simp at hz; subst hz
      rcases hw with e | e
      · exact absurd e hzp
      · exact absurd e hzs
  | @child v ws S cnt low w Sw ht _ hpar _ hlt hw hd ih ihw =>
    have hm : min low (c.lowlink w) ≤ low := min_le_left _ _
    have hm2 : min low (c.lowlink w) ≤ c.lowlink w := min_le_right _ _
    refine ⟨le_trans hm ih.1, ?_, ?_⟩
    · intro z hz hzp hzs
      rcases List.mem_append.mp hz with hz | hz
      · exact le_trans hm (ih.2.1 z hz hzp hzs)
      · simp at hz; subst hz
        exact le_trans hm2 ihw.1
    · intro y hy hne z hz hzp hzs
      rcases Finset.mem_union.mp hy with hy | hy
      · exact le_trans hm (ih.2.2 y hy hne z hz hzp hzs)
      · by_cases hyw : y = w
        · subst hyw
          exact le_trans hm2 (ihw.2.1 z hz hzp hzs)
        · exact le_trans hm2 (ihw.2.2 y hy hyw z hz hzp hzs)
  | @back v ws S cnt low z _ _ _ _ _ ih =>
    have hm : min low (c.rank z) ≤ low := min_le_left _ _
    refine ⟨le_trans hm ih.1, ?_, ?_⟩
    · intro z1 hz hzp hzs
      rcases List.mem_append.mp hz with hz | hz
      · exact le_trans hm (ih.2.1 z1 hz hzp hzs)
      · simp at hz; subst hz
        exact min_le_right _ _
    · intro y hy hne z1 hz hzp hzs
      exact le_trans hm (ih.2.2 y hy hne z1 hz hzp hzs)

/-- The low-link of a trace is the rank of its root or the rank of a visited neighbour,
other than the parent, of one of its vertices. -/
theorem Tr.lowAttained {c : ActiveVerticesConnected} {v : Nat} {ws : List Nat}
    {S : Finset Nat} {cnt low : Int} (h : Tr c v ws S cnt low) :
    (∀ w ∈ ws, w ∈ c.adj v) → low = c.rank v ∨
      ∃ y ∈ S, ∃ z ∈ c.adj y, (z : Int) ≠ c.parent y ∧ c.state z ≠ kInactive ∧
        c.rank z ≠ -1 ∧ c.rank z = low := by
  induction h with
  | leaf v _ _ _ => intro _; exact Or.inl rfl
  | skip w _ _ _ ih =>
    intro hws
    exact ih (fun x hx => hws x (List.mem_append_left _ hx))
  | @child v ws S cnt low w Sw ht hwp hpar _ hlt hw hd ih ihw =>
    intro hws
    by_cases hle : low ≤ c.lowlink w
    · rw [min_eq_left hle]
      rcases ih (fun x hx => hws x (List.mem_append_left _ hx)) with g | ⟨y, hy, g⟩
      · exact Or.inl g
      · exact Or.inr ⟨y, Finset.mem_union_left _ hy, g⟩
    · rw [min_eq_right (by omega)]
      rcases ihw (fun x hx => hx) with g | ⟨y, hy, g⟩
      · exact Or.inr ⟨v, Finset.mem_union_left _ ht.root_mem, w, hws w (by simp), hwp,
          hw.root_ok.2.1, hw.root_ok.2.2, g.symm⟩
      · exact Or.inr ⟨y, Finset.mem_union_right _ hy, g⟩
  | @back v ws S cnt low z ht hzp hst hz _ ih =>
    intro hws
    by_cases hle : low ≤ c.rank z
    · rw [min_eq_left hle]
      exact ih (fun x hx => hws x (List.mem_append_left _ hx))
    · rw [min_eq_right (by omega)]
      exact Or.inr ⟨v, ht.root_mem, z, hws z (by simp), hzp, hst, hz, rfl⟩

/-- In a forest there are no cross edges: of two adjacent visited vertices the one with the
smaller rank is an ancestor of the other. -/
theorem Forest.edge_desc {c : ActiveVerticesConnected} {n : Nat} (hF : Forest c n)
    {y z : Nat} (hy : y < n) (hyv : c.rank y ≠ -1) (hz : z < n) (hzv : c.rank z ≠ -1)
    (hadj : z ∈ c.adj y) (hlt : c.rank z < c.rank y) : Desc c z y := by
  obtain ⟨Sz, hd⟩ := hF.done_of_visited hz hzv
  rcases Tr.processed hd y (hF.adjSymm y z hadj) with (g | g) | g | g
  · obtain ⟨_, _, g3, _⟩ := hF.parent_visited hz hzv g.symm
    omega
  · exact absurd g (hF.alive y hy hyv)
  · exact Tr.desc hd y g
  · omega

theorem TreeChild.parent_unique {c : ActiveVerticesConnected} {u u1 y : Nat}
    (h : TreeChild c u y) (h1 : TreeChild c u1 y) : u = u1 := by
  have := h.2.2.symm.trans h1.2.2
  exact_mod_cast this

/-- The ancestors of a vertex form a chain. -/
theorem Desc.chain {c : ActiveVerticesConnected} {a b y : Nat} (h2 : Desc c b y) :
    Desc c a y → c.rank a ≤ c.rank b → Desc c a b := by
  induction h2 with
  | refl => intro h1 _; exact h1
  | @tail u z hbu hstep ih =>
    intro h1 hle
    rcases Relation.ReflTransGen.cases_tail h1 with e | ⟨u1, h3, hstep1⟩
    · subst e
      have := Desc.rank_le hbu
      have := hstep.2.1
      omega
    · have := hstep.parent_unique hstep1
      subst this
      exact ih h3 hle

/-- In a forest a visited vertex with a child or a proper descendant is visited. -/
theorem Forest.desc_visited {c : ActiveVerticesConnected} {n : Nat} (hF : Forest c n)
    {a b : Nat} (hb : b < n) (hbv : c.rank b ≠ -1) (h : Desc c a b) :
    a < n ∧ c.rank a ≠ -1 := by
  induction h with
  | refl => exact ⟨hb, hbv⟩
  | @tail u z _ hstep ih =>
    obtain ⟨g1, g2, _⟩ := hF.parent_visited hb hbv hstep.2.2
    exact ih g1 g2

/-- In a forest the tree path from a vertex down to a descendant runs through vertices that
are not Inactive and whose rank is at most the rank of the descendant. -/
theorem Forest.desc_conn {c : ActiveVerticesConnected} {n : Nat} (hF : Forest c n)
    {a b : Nat} (hb : b < n) (hbv : c.rank b ≠ -1) (h : Desc c a b) :
    Conn c (fun x => c.state x ≠ kInactive ∧ c.rank x ≤ c.rank b) a b := by
  induction h with
  | refl => exact Relation.ReflTransGen.refl
  | @tail u z hau hstep ih =>
    obtain ⟨g1, g2, g3, g4, _⟩ := hF.parent_visited hb hbv hstep.2.2
    have p := Conn.mono (Q := fun x => c.state x ≠ kInactive ∧ c.rank x ≤ c.rank z)
      (fun x hx => ⟨hx.1, by have := hx.2; omega⟩) (ih g1 g2)
    exact Relation.ReflTransGen.tail p
      ⟨g4, ⟨hF.alive u g1 g2, by omega⟩, ⟨hF.alive z hb hbv, le_refl _⟩⟩

theorem Forest.child_visited {c : ActiveVerticesConnected} {n : Nat} (hF : Forest c n)
    {v w : Nat} (hv : v < n) (hvv : c.rank v ≠ -1) (hc : TreeChild c v w) :
    w < n ∧ c.rank w ≠ -1 := by
  have h0 := hF.rank_nonneg hv hvv
  have := hc.2.1
  exact ⟨by rw [← hF.sized.lits]; exact hc.1, by omega⟩

/-- In a forest, for a child `w` of `v`: `lowlink_[w] < rank_[v]` iff a vertex of the
subtree of `w` is adjacent to a proper ancestor of `v`. -/
theorem Forest.child_low_iff_edge {c : ActiveVerticesConnected} {n : Nat} (hF : Forest c n)
    {v w : Nat} (hv : v < n) (hvv : c.rank v ≠ -1) (hc : TreeChild c v w) :
    c.lowlink w < c.rank v ↔
      ∃ y z, Desc c w y ∧ z ∈ c.adj y ∧ Desc c z v ∧ z ≠ v := by
  obtain ⟨hw, hwv⟩ := hF.child_visited hv hvv hc
  obtain ⟨Sw, hd, hS⟩ := hF.subtree hw hwv
  have hvw : c.rank v < c.rank w := hc.2.1
  constructor
  · intro hlow
    rcases Tr.lowAttained hd (fun x hx => hx) with g | ⟨y, hy, z, hz, _, hzs, hzv, hzr⟩
    · omega
    · have hym := hd.mem_ok y hy
      rw [hF.sized.lits] at hym
      have hzn : z < n := hF.adjBound y z hz
      have hzy : Desc c z y := hF.edge_desc hym.1 hym.2.2.1 hzn hzv hz (by omega)
      have hwy : Desc c w y := (hS y).mp hy
      have hvy : Desc c v y := Relation.ReflTransGen.head hc hwy
      exact ⟨y, z, hwy, hz, Desc.chain hvy hzy (by omega), fun e => by subst e; omega⟩
  · rintro ⟨y, z, hwy, hz, hzv, hne⟩
    have hy := (hS y).mpr hwy
    have hzr := Desc.rank_lt hzv hne
    obtain ⟨hzn, hzvis⟩ := hF.desc_visited hv hvv hzv
    have hzs := hF.alive z hzn hzvis
    have hzp : (z : Int) ≠ c.parent y := by
      intro e
      by_cases hyw : y = w
      · subst hyw
        rw [hc.2.2] at e
        exact hne (by exact_mod_cast e)
      · obtain ⟨u, hu, g1, _⟩ := Tr.parentIn hd (fun x hx => hx) y hy hyw
        have : u = z := by rw [g1] at e; exact_mod_cast e.symm
        subst this
        have := (hd.mem_ok u hu).2.2.2.1
        omega
    have hl := Tr.lowLower hd
    by_cases hyw : y = w
    · subst hyw
      have := hl.2.1 z hz hzp hzs
      omega
    · have := hl.2.2 y hy hyw z hz hzp hzs
      omega

/-- In a forest, for a child `w` of `v`: `lowlink_[w] < rank_[v]` iff `w` is joined to the
parent of `v` by a path through vertices that are not Inactive and differ from `v`. -/
theorem Forest.child_low_iff_conn {c : ActiveVerticesConnected} {n : Nat} (hF : Forest c n)
    {v w : Nat} (hv : v < n) (hvv : c.rank v ≠ -1) (hc : TreeChild c v w) :
    c.lowlink w < c.rank v ↔ ∃ u : Nat, c.parent v = (u : Int) ∧ ConnAvoid c v w u := by
  obtain ⟨hw, hwv⟩ := hF.child_visited hv hvv hc
  obtain ⟨Sw, hd, hS⟩ := hF.subtree hw hwv
  have hvw : c.rank v < c.rank w := hc.2.1
  have hvS : ∀ x ∈ Sw, c.state x ≠ kInactive ∧ x ≠ v := by
    intro x hx
    have := hd.mem_ok x hx
    exact ⟨this.2.1, fun e => by subst e; omega⟩
  constructor
  · intro hlow
    obtain ⟨y, z, hwy, hz, hzv, hne⟩ := (hF.child_low_iff_edge hv hvv hc).mp hlow
    have hy := (hS y).mpr hwy
    obtain ⟨hzn, hzvis⟩ := hF.desc_visited hv hvv hzv
    rcases Relation.ReflTransGen.cases_tail hzv with e | ⟨u, hzu, hstep⟩
    · exact absurd e.symm hne
    · obtain ⟨hun, huv, hur, _⟩ := hF.parent_visited hv hvv hstep.2.2
      refine ⟨u, hstep.2.2, ?_⟩
      have p1 : ConnAvoid c v w y :=
        Conn.mono (fun x hx => hvS x hx) (Tr.rootPath hd (fun x hx => hx) y hy)
      have p2 : ConnAvoid c v z u :=
        Conn.mono (fun x hx => ⟨hx.1, fun e => by subst e; have := hx.2; omega⟩)
          (hF.desc_conn hun huv hzu)
      have hzr := Desc.rank_lt hzv hne
      have st : Step c (fun x => c.state x ≠ kInactive ∧ x ≠ v) y z :=
        ⟨hz, hvS y hy, ⟨hF.alive z hzn hzvis, hne⟩⟩
      exact Conn.trans (Relation.ReflTransGen.tail p1 st) p2
  · rintro ⟨u, hpu, hconn⟩
    obtain ⟨hun, huv, hur, _⟩ := hF.parent_visited hv hvv hpu
    have key : ∀ t, ConnAvoid c v w t → t ∈ Sw ∨ c.lowlink w < c.rank v := by
      intro t ht
      induction ht with
      | refl => exact Or.inl hd.root_mem
      | @tail t1 t _ hstep ih =>
        rcases ih with ih | ih
        · by_cases htS : t ∈ Sw
          · exact Or.inl htS
          · right
            obtain ⟨hadj, _, hts, htv⟩ := hstep
            have ht1 := hd.mem_ok t1 ih
            rw [hF.sized.lits] at ht1
            have htn : t < n := hF.adjBound t1 t hadj
            have htvis : c.rank t ≠ -1 := Done.closed_all hd t1 ih t hadj hts
            have hwt1 : Desc c w t1 := (hS t1).mp ih
            have htp : (t : Int) ≠ c.parent t1 := by
              intro e
              by_cases h1w : t1 = w
              · subst h1w
                rw [hc.2.2] at e
                exact htv (by exact_mod_cast e)
              · obtain ⟨u1, hu1, g1, _⟩ := Tr.parentIn hd (fun x hx => hx) t1 ih h1w
                have : u1 = t := by rw [g1] at e; exact_mod_cast e.symm
                subst this
                exact htS hu1
            have hl := Tr.lowLower hd
            have hlow : c.lowlink w ≤ c.rank t := by
              by_cases h1w : t1 = w
              · subst h1w; exact hl.2.1 t hadj htp hts
              · exact hl.2.2 t1 ih h1w t hadj htp hts
            -- `t` is an ancestor of `t1` outside the subtree of `w`
            have hne1 : c.rank t ≠ c.rank t1 := by
              intro e
              have := hF.rankInv.inj t t1 htn ht1.1 htvis e
              subst this
              exact htS ih
            have htt1 : Desc c t t1 := by
              rcases lt_or_gt_of_ne hne1 with h | h
              · exact hF.edge_desc ht1.1 ht1.2.2.1 htn htvis hadj h
              · exfalso
                have := hF.edge_desc htn htvis ht1.1 ht1.2.2.1 (hF.adjSymm t1 t hadj) h
                exact htS ((hS t).mpr (Relation.ReflTransGen.trans hwt1 this))
            have hrw : c.rank t < c.rank w := by
              by_contra hge
              exact htS ((hS t).mpr (Desc.chain htt1 hwt1 (by omega)))
            have htw : Desc c t w := Desc.chain hwt1 htt1 (by omega)
            rcases Relation.ReflTransGen.cases_tail htw with e | ⟨u1, htu1, hstep1⟩
            · subst e; omega
            · have := hstep1.parent_unique hc
              subst this
              have := Desc.rank_lt htu1 (fun e => htv e)
              omega
        · exact Or.inr ih
    rcases key u hconn with g | g
    · have := (hd.mem_ok u g).2.2.2.1
      omega
    · exact g

/-- In a forest the count stored for a visited vertex is the number of Active vertices of
its subtree. -/
theorem Forest.count_subtree {c : ActiveVerticesConnected} {n : Nat} (hF : Forest c n)
    {v : Nat} (hv : v < n) (hvv : c.rank v ≠ -1) :
    ∃ Sv : Finset Nat, (∀ y, y ∈ Sv ↔ Desc c v y) ∧
      c.subtreeActiveCount v = ((Sv.filter (fun y => c.state y = kActive)).card : Int) := by
  obtain ⟨Sv, hd, hS⟩ := hF.subtree hv hvv
  exact ⟨Sv, hS, Tr.count_eq hd⟩

/-- In a forest the count stored for a root is the number of Active vertices of its
connected component. -/
theorem Forest.count_component {lits : List Lit} {edges : List (Nat × Nat)}
    {c : ActiveVerticesConnected} (hF : Forest c lits.length) (hB : Built lits edges c)
    (hE : InRange lits.length edges) {v : Nat} (hv : v < lits.length)
    (hvv : c.rank v ≠ -1) (hp : c.parent v = -1) :
    ∃ Sk : Finset Nat, (∀ y, y ∈ Sk ↔ y < lits.length ∧ Connected edges c.state_ v y) ∧
      c.subtreeActiveCount v = ((Sk.filter (fun y => c.state y = kActive)).card : Int) := by
  obtain ⟨hcid, T, hd, hT⟩ := hF.root_cluster hv hvv hp
  refine ⟨T, ?_, Tr.count_eq hd⟩
  intro y
  rw [hT]
  constructor
  · rintro ⟨hy, hyv, hyc⟩
    exact ⟨hy, hF.cluster_connected hB hE hv hvv hy hyv (by rw [hcid, hyc])⟩
  · rintro ⟨hy, hconn⟩
    obtain ⟨_, g2, g3⟩ := hF.path_cluster hB hE hv hvv hconn
    exact ⟨hy, g2, by rw [g3, hcid]⟩

/-- C16 (`subtree_active_count_` counts the Active vertices of the subtree). After
`propagate` has returned, for every vertex `v` visited by the depth-first search,
`subtree_active_count_[v]` is the number of Active vertices among the descendants of `v`
in the depth-first tree, `v` included; and for a root (a visited vertex without parent)
it is the number of Active vertices of its connected component in the graph restricted
to the vertices that are not Inactive. The same holds right after a call
`buildTree(k, -1, k)` made on the freshly reset vectors, for every vertex it visited and
for `k`. Nothing is assumed about the edge list beyond indices in range: duplicate edges
and self-loops are allowed. -/
theorem subtree_active_count_exact {S : Type} (ops : SolverOps S) (s : S) (p : Lit)
    (lits : List Lit) (edges : List (Nat × Nat)) (c : ActiveVerticesConnected)
    (st : List NodeState) (hB : Built lits edges c) (hE : InRange lits.length edges)
    (hr : refreshed ops s p c = some st) :
    (∃ r, propagate ops s p c = Outcome.returned r ∧ r.self.state_ = st ∧
      ∀ v, v < lits.length → r.self.rank v ≠ -1 →
        (∃ Sv : Finset Nat, (∀ y, y ∈ Sv ↔ Desc r.self v y) ∧
          r.self.subtreeActiveCount v =
            ((Sv.filter (fun y => st.getD y kUndecided = kActive)).card : Int)) ∧
        (r.self.parent v = -1 →
          ∃ Sk : Finset Nat, (∀ y, y ∈ Sk ↔ y < lits.length ∧ Connected edges st v y) ∧
            r.self.subtreeActiveCount v =
              ((Sk.filter (fun y => st.getD y kUndecided = kActive)).card : Int))) ∧
    (∀ k, k < lits.length → st.getD k kUndecided ≠ kInactive →
      ∃ low c1, buildTree lits.length k (-1) (k : Int) (resetDfs { c with state_ := st }) =
          some (low, c1) ∧
        (∀ v, v < lits.length → c1.rank v ≠ -1 →
          ∃ Sv : Finset Nat, (∀ y, y ∈ Sv ↔ Desc c1 v y) ∧
            c1.subtreeActiveCount v =
              ((Sv.filter (fun y => st.getD y kUndecided = kActive)).card : Int)) ∧
        ∃ Sk : Finset Nat, (∀ y, y ∈ Sk ↔ y < lits.length ∧ Connected edges st k y) ∧
          c1.subtreeActiveCount k =
            ((Sk.filter (fun y => st.getD y kUndecided = kActive)).card : Int)) := by
  constructor
  · obtain ⟨r, h1, h2, hF, hB2, _⟩ := propagate_summary ops s p hB hE hr
    refine ⟨r, h1, h2, ?_⟩
    intro v hv hvv
    have hst : ∀ y, r.self.state y = st.getD y kUndecided := by
      intro y; unfold state; rw [h2]
    constructor
    · obtain ⟨Sv, g1, g2⟩ := hF.count_subtree hv hvv
      refine ⟨Sv, g1, ?_⟩
      rw [g2]
      simp only [hst]
    · intro hp
      obtain ⟨Sk, g1, g2⟩ := hF.count_component hB2 hE hv hvv hp
      rw [h2] at g1
      refine ⟨Sk, g1, ?_⟩
      rw [g2]
      simp only [hst]
  · intro k hk hks
    have hlen : st.length = c.state_.length := by
      unfold refreshed at hr
      exact refresh_length _ _ _ _ _ _ _ hr
    have hB0 : Built lits edges { c with state_ := st } :=
      ⟨hB.hlits, hB.hadj, ⟨hB.sized.lits, hB.sized.adj, by rw [hlen]; exact hB.sized.state,
        hB.sized.rank, hB.sized.lowlink, hB.sized.cnt, hB.sized.cid, hB.sized.par⟩⟩
    obtain ⟨hF, _⟩ := resetDfs_forest hB0 hE
    have hk0 : (resetDfs { c with state_ := st }).rank k = -1 := resetDfs_rank hB0.sized k hk
    have hpre := hF.pre hk hk0 hks
    obtain ⟨low, c1, e, hpost⟩ := buildTree_ok lits.length lits.length _ k (-1) (k : Int) hpre
    have hF1 := hF.grow hk0 hpost
    have hB1 : Built lits edges c1 :=
      hB0.of_static ((resetDfs_static _).andThen hpost.static) hF1.sized
    have hs1 : c1.state_ = st := hpost.static.2.2
    have hst : ∀ y, c1.state y = st.getD y kUndecided := by
      intro y; unfold state; rw [hs1]
    refine ⟨low, c1, e, ?_, ?_⟩
    · intro v hv hvv
      obtain ⟨Sv, g1, g2⟩ := hF1.count_subtree hv hvv
      refine ⟨Sv, g1, ?_⟩
      rw [g2]
      simp only [hst]
    · have hkv : c1.rank k ≠ -1 := by
        rw [hpost.hrank]
        show (0 : Int) ≠ -1
        omega
      obtain ⟨Sk, g1, g2⟩ := hF1.count_component hB1 hE hk hkv hpost.hpar
      rw [hs1] at g1
      refine ⟨Sk, g1, ?_⟩
      rw [g2]
      simp only [hst]

/-- C17 (`lowlink_` is the smallest rank reachable from the subtree by one further
edge). After `propagate` has returned, for every visited vertex `v`: `lowlink_[v]` is at
most the rank of every vertex of the subtree of `v` and of every neighbour, not Inactive
and other than the parent of the vertex it is reached from, of a vertex of the subtree,
and it is the rank of `v` or of one of these neighbours. Hence for every child `w` of
`v`, `lowlink_[w] < rank_[v]` holds iff a vertex of the subtree of `w` is adjacent to a
proper ancestor of `v`, and iff `w` is connected to the parent of `v` in the graph
restricted to the vertices that are not Inactive with `v` deleted. Edges are taken by
their end points: a neighbour equal to the parent is skipped however many copies of the
edge there are, as the test `w == parent` does. -/
theorem lowlink_exact {S : Type} (ops : SolverOps S) (s : S) (p : Lit)
    (lits : List Lit) (edges : List (Nat × Nat)) (c : ActiveVerticesConnected)
    (st : List NodeState) (hB : Built lits edges c) (hE : InRange lits.length edges)
    (hr : refreshed ops s p c = some st) :
    ∃ r, propagate ops s p c = Outcome.returned r ∧ r.self.state_ = st ∧
      ∀ v, v < lits.length → r.self.rank v ≠ -1 →
        (∀ y, Desc r.self v y → r.self.lowlink v ≤ r.self.rank y) ∧
        (∀ y z, Desc r.self v y → Adjacent edges y z → (z : Int) ≠ r.self.parent y →
          st.getD z kUndecided ≠ kInactive → r.self.lowlink v ≤ r.self.rank z) ∧
        (r.self.lowlink v = r.self.rank v ∨
          ∃ y z, Desc r.self v y ∧ Adjacent edges y z ∧ (z : Int) ≠ r.self.parent y ∧
            st.getD z kUndecided ≠ kInactive ∧ r.self.rank z = r.self.lowlink v) ∧
        ∀ w, TreeChild r.self v w →
          (r.self.lowlink w < r.self.rank v ↔
            ∃ y z, Desc r.self w y ∧ Adjacent edges y z ∧ Desc r.self z v ∧ z ≠ v) ∧
          (r.self.lowlink w < r.self.rank v ↔
            ∃ u : Nat, r.self.parent v = (u : Int) ∧ ConnectedWithout edges st v w u) := by
  obtain ⟨r, h1, h2, hF, hB2, _⟩ := propagate_summary ops s p hB hE hr
  refine ⟨r, h1, h2, ?_⟩
  intro v hv hvv
  have hst : ∀ y, r.self.state y = st.getD y kUndecided := by
    intro y; unfold state; rw [h2]
  obtain ⟨Sv, hd, hS⟩ := hF.subtree hv hvv
  have hl := Tr.lowLower hd
  have hadj : ∀ y z, z ∈ r.self.adj y ↔ Adjacent edges y z := fun y z => hB2.mem_adj hE y z
  refine ⟨?_, ?_, ?_, ?_⟩
  · intro y hy
    have := Desc.rank_le hy
    have := hl.1
    omega
  · intro y z hy hyz hzp hzs
    have hyS := (hS y).mpr hy
    rw [← hst] at hzs
    by_cases hyv : y = v
    · subst hyv
      exact hl.2.1 z ((hadj y z).mpr hyz) hzp hzs
    · exact hl.2.2 y hyS hyv z ((hadj y z).mpr hyz) hzp hzs
  · rcases Tr.lowAttained hd (fun x hx => hx) with g | ⟨y, hy, z, hz, g1, g2, _, g4⟩
    · exact Or.inl g
    · exact Or.inr ⟨y, z, (hS y).mp hy, (hadj y z).mp hz, g1, by rw [← hst]; exact g2, g4⟩
  · intro w hc
    constructor
    · rw [hF.child_low_iff_edge hv hvv hc]
      constructor
      · rintro ⟨y, z, g1, g2, g3, g4⟩
        exact ⟨y, z, g1, (hadj y z).mp g2, g3, g4⟩
      · rintro ⟨y, z, g1, g2, g3, g4⟩
        exact ⟨y, z, g1, (hadj y z).mpr g2, g3, g4⟩
    · rw [hF.child_low_iff_conn hv hvv hc]
      have e : ∀ u, ConnAvoid r.self v w u ↔ ConnectedWithout edges st v w u := by
        intro u
        unfold ConnAvoid ConnectedWithout
        rw [hB2.conn_iff hE]
        have : (fun x => r.self.state x ≠ kInactive ∧ x ≠ v) =
            (fun x => NotInactive st x ∧ x ≠ v) := by
          funext x
          unfold NotInactive
          rw [hst]
        rw [this]
      constructor
      · rintro ⟨u, g1, g2⟩; exact ⟨u, g1, (e u).mp g2⟩
      · rintro ⟨u, g1, g2⟩; exact ⟨u, g1, (e u).mpr g2⟩

/-! ### The order of visiting, the number of entries and the recursion depth -/

theorem buildLoopG_fst
    (callG : Nat → Int → Int → ActiveVerticesConnected →
      Option (Int × ActiveVerticesConnected × List Nat × Nat))
    (call : Nat → Int → Int → ActiveVerticesConnected → Option (Int × ActiveVerticesConnected))
    (hcall : ∀ w p k c, (callG w p k c).map (fun r => (r.1, r.2.1)) = call w p k c)
    (v : Nat) (par cid : Int) :
    ∀ (ws : List Nat) (low cnt : Int) (c : ActiveVerticesConnected) (entered : List Nat)
      (depth : Nat),
      (buildLoopG callG v par cid ws low cnt c entered depth).map
          (fun r => (r.1, r.2.1, r.2.2.1)) =
        buildLoop call v par cid ws low cnt c := by
  intro ws
  induction ws with
  | nil => intro low cnt c entered depth; rfl
  | cons w ws ih =>
    intro low cnt c entered depth
    rw [buildLoopG, buildLoop]
    by_cases h1 : (w : Int) = par ∨ c.state w = kInactive
    · rw [if_pos h1, if_pos h1]; exact ih _ _ _ _ _
    · rw [if_neg h1, if_neg h1]
      by_cases h2 : c.rank w = -1
      · rw [if_pos h2, if_pos h2]
        have := hcall w (v : Int) cid c
        cases hg : callG w (v : Int) cid c with
        | none =>
          rw [hg] at this
          simp only [Option.map_none'] at this
          rw [← this]
          rfl
        | some val =>
          obtain ⟨r, c1, e1, d1⟩ := val
          rw [hg] at this
          simp only [Option.map_some'] at this
          rw [← this]
          exact ih _ _ _ _ _
      · rw [if_neg h2, if_neg h2]; exact ih _ _ _ _ _

theorem buildTreeG_fst : ∀ (fuel v : Nat) (par cid : Int) (c : ActiveVerticesConnected),
    (buildTreeG fuel v par cid c).map (fun r => (r.1, r.2.1)) = buildTree fuel v par cid c := by
  intro fuel
  induction fuel with
  | zero => intro v par cid c; rfl
  | succ fuel ih =>
    intro v par cid c
    simp only [buildTreeG, buildTree]
    have := buildLoopG_fst (buildTreeG fuel) (buildTree fuel) ih v par cid
      ((c.enter v par cid).adj v) ((c.enter v par cid).rank v)
      (if (c.enter v par cid).state v = kActive then 1 else 0) (c.enter v par cid) [v] 0
    cases hg : buildLoopG (buildTreeG fuel) v par cid ((c.enter v par cid).adj v)
        ((c.enter v par cid).rank v)
        (if (c.enter v par cid).state v = kActive then 1 else 0) (c.enter v par cid) [v] 0 with
    | none =>
      rw [hg] at this
      simp only [Option.map_none'] at this
      rw [← this]
      rfl
    | some val =>
      obtain ⟨low, cnt, c2, e1, d1⟩ := val
      rw [hg] at this
      simp only [Option.map_some'] at this
      rw [← this]
      rfl

theorem censusG_fst (fuel : Nat) : ∀ (is : List Nat) (ne : Int) (c : ActiveVerticesConnected)
    (entered : List Nat) (trees : List (Nat × Nat)),
    (censusG fuel is ne c entered trees).1 = census fuel is ne c := by
  intro is
  induction is with
  | nil => intro ne c entered trees; rfl
  | cons i is ih =>
    intro ne c entered trees
    rw [censusG, census]
    by_cases h1 : c.state i ≠ kInactive ∧ c.rank i = kUnvisited
    · rw [if_pos h1, if_pos h1]
      have := buildTreeG_fst fuel i (-1) (i : Int) c
      cases hg : buildTreeG fuel i (-1) (i : Int) c with
      | none =>
        rw [hg] at this
        simp only [Option.map_none'] at this
        rw [← this]
      | some val =>
        obtain ⟨low, c1, e1, d1⟩ := val
        rw [hg] at this
        simp only [Option.map_some'] at this
        rw [← this]
        simp only
        by_cases h2 : c1.subtreeActiveCount i ≥ 1
        · rw [if_pos h2, if_pos h2]
          by_cases h3 : ne ≠ -1
          · rw [if_pos h3, if_pos h3]
          · rw [if_neg h3, if_neg h3]; exact ih _ _ _ _
        · rw [if_neg h2, if_neg h2]; exact ih _ _ _ _
    · rw [if_neg h1, if_neg h1]; exact ih _ _ _ _

/-- One iteration of the loop of `buildTree`: the neighbour is skipped, or it is unvisited
and the recursive call returns and meets its postcondition, or it was visited before; in
each case the loop invariant holds again. -/
theorem LoopInv.step {fuel n : Nat} {c0 : ActiveVerticesConnected} {v : Nat} {par cid : Int}
    {done : List Nat} {low cnt : Int} {ci : ActiveVerticesConnected} (w : Nat)
    (h : LoopInv c0 n v par cid done low cnt ci fuel) (hw : w < n) :
    (((w : Int) = par ∨ ci.state w = kInactive) ∧
        LoopInv c0 n v par cid (done ++ [w]) low cnt ci fuel) ∨
      (¬ ((w : Int) = par ∨ ci.state w = kInactive) ∧ ci.rank w = -1 ∧
        Pre ci n w (v : Int) fuel ∧
        ∃ r c1, buildTree fuel w (v : Int) cid ci = some (r, c1) ∧
          Post ci n w (v : Int) cid r c1 ∧
          LoopInv c0 n v par cid (done ++ [w]) (min low r)
            (cnt + c1.subtreeActiveCount w) c1 fuel) ∨
      (¬ ((w : Int) = par ∨ ci.state w = kInactive) ∧ ci.rank w ≠ -1 ∧
        LoopInv c0 n v par cid (done ++ [w]) (min low (ci.rank w)) cnt ci fuel) := by
  obtain ⟨l, k, c1, e, hres⟩ := buildLoop_ok (buildTree_ok n fuel) [w] done low cnt ci h
    (by intro x hx; simp at hx; subst hx; exact hw)
  by_cases hskip : (w : Int) = par ∨ ci.state w = kInactive
  · left
    rw [buildLoop, if_pos hskip, buildLoop] at e
    simp only [Option.some.injEq, Prod.mk.injEq] at e
    obtain ⟨e1, e2, e3⟩ := e
    subst e1; subst e2; subst e3
    exact ⟨hskip, hres⟩
  · right
    have hwst : ci.state w ≠ kInactive := fun e => hskip (Or.inr e)
    by_cases hun : ci.rank w = -1
    · left
      have hpre : Pre ci n w (v : Int) fuel :=
        { sized := h.sized
          adjBound := h.adjBound
          rankInv := h.rankInv
          hv := hw
          unvisited := hun
          alive := hwst
          parVisited := by
            intro p hp
            have : p = v := by exact_mod_cast hp
            subst this; exact h.root_visited
          fuel := h.fuel }
      obtain ⟨r, c2, ecall, hpost⟩ := buildTree_ok n fuel ci w (v : Int) cid hpre
      rw [buildLoop, if_neg hskip, if_pos hun, ecall] at e
      simp only at e
      rw [buildLoop] at e
      simp only [Option.some.injEq, Prod.mk.injEq] at e
      obtain ⟨e1, e2, e3⟩ := e
      subst e1; subst e2; subst e3
      exact ⟨hskip, hun, hpre, r, c2, ecall, hpost, hres⟩
    · right
      rw [buildLoop, if_neg hskip, if_neg hun, buildLoop] at e
      simp only [Option.some.injEq, Prod.mk.injEq] at e
      obtain ⟨e1, e2, e3⟩ := e
      subst e1; subst e2; subst e3
      exact ⟨hskip, hun, hres⟩

theorem LogInv.visited {c0 ci : ActiveVerticesConnected} {n : Nat} {entered : List Nat}
    (h : LogInv c0 ci n entered) (h0 : 0 ≤ c0.next_rank_) :
    ∀ x ∈ entered, ci.rank x ≠ -1 := by
  intro x hx
  have hm : ci.rank x ∈ entered.map ci.rank := List.mem_map_of_mem _ hx
  rw [h.ranks] at hm
  obtain ⟨i, _, hi⟩ := List.mem_map.mp hm
  omega

theorem range_map_add (a b : Nat) (k : Int) :
    (List.range (a + b)).map (fun (i : Nat) => k + (i : Int)) =
      (List.range a).map (fun (i : Nat) => k + (i : Int)) ++
        (List.range b).map (fun (i : Nat) => k + (a : Int) + (i : Int)) := by
  rw [List.range_add, List.map_append, List.map_map]
  congr 1
  apply List.map_congr_left
  intro i _
  simp only [Function.comp_apply]
  push_cast
  ring

/-- Appending the vertices entered by a later call keeps the ranks consecutive. -/
theorem LogInv.append {c0 ci c1 : ActiveVerticesConnected} {n : Nat} {e1 e2 : List Nat}
    (h1 : LogInv c0 ci n e1) (h2 : LogInv ci c1 n e2) (h0 : 0 ≤ c0.next_rank_)
    (hfr : ∀ x, ci.rank x ≠ -1 → c1.rank x = ci.rank x)
    (hold : ∀ x, x < n → c0.rank x ≠ -1 → ci.rank x ≠ -1) :
    LogInv c0 c1 n (e1 ++ e2) := by
  refine ⟨?_, ?_, ?_, ?_⟩
  · rw [List.map_append, List.length_append, range_map_add]
    congr 1
    · rw [← h1.ranks]
      apply List.map_congr_left
      intro x hx
      exact hfr x (h1.visited h0 x hx)
    · rw [h2.ranks, h1.next]
  · rw [h2.next, h1.next, List.length_append]
    push_cast
    ring
  · intro x hx
    rcases List.mem_append.mp hx with hx | hx
    · exact h1.fresh x hx
    · have := h2.fresh x hx
      refine ⟨this.1, ?_⟩
      by_contra hc
      exact hold x this.1 hc this.2
  · intro x hx hx0 hx1
    by_cases hxi : ci.rank x = -1
    · exact List.mem_append_right _ (h2.all x hx hxi hx1)
    · exact List.mem_append_left _ (h1.all x hx hx0 hxi)

theorem LogInv.entered_nodup {c0 ci : ActiveVerticesConnected} {n : Nat} {entered : List Nat}
    (h : LogInv c0 ci n entered) : entered.Nodup := by
  have : (entered.map ci.rank).Nodup := by
    rw [h.ranks]
    apply List.Nodup.map
    · intro a b hab
      simp only at hab
      omega
    · exact List.nodup_range _
  exact List.Nodup.of_map _ this

theorem LoopInv.next_nonneg {c0 : ActiveVerticesConnected} {n v : Nat} {par cid : Int}
    {done : List Nat} {low cnt : Int} {ci : ActiveVerticesConnected} {fuel : Nat}
    (h : LoopInv c0 n v par cid done low cnt ci fuel) : 0 ≤ c0.next_rank_ := by
  have := h.rankInv.bound v h.hv h.root_visited
  rw [h.hrank] at this
  exact this.1

theorem buildLoopG_ok {fuel n : Nat} (IH : GhostOk fuel n) {c0 : ActiveVerticesConnected}
    {v : Nat} {par cid : Int} :
    ∀ (rest done : List Nat) (low cnt : Int) (ci : ActiveVerticesConnected)
      (entered : List Nat) (depth : Nat),
      LoopInv c0 n v par cid done low cnt ci fuel → (∀ w ∈ rest, w < n) →
      LogInv c0 ci n entered → depth + 1 ≤ entered.length →
      ∃ low1 cnt1 c1 entered1 depth1,
        buildLoopG (buildTreeG fuel) v par cid rest low cnt ci entered depth =
          some (low1, cnt1, c1, entered1, depth1) ∧
        LogInv c0 c1 n entered1 ∧ depth1 + 1 ≤ entered1.length := by
  intro rest
  induction rest with
  | nil =>
    intro done low cnt ci entered depth _ _ hl hd
    exact ⟨low, cnt, ci, entered, depth, rfl, hl, hd⟩
  | cons w rest ih =>
    intro done low cnt ci entered depth h hb hl hd
    have hw : w < n := hb w (List.mem_cons_self _ _)
    have hb2 : ∀ w ∈ rest, w < n := fun x hx => hb x (List.mem_cons_of_mem _ hx)
    rcases h.step w hw with ⟨hskip, hinv⟩ | ⟨hskip, hun, hpre, r, c1, ecall, hpost, hinv⟩ |
      ⟨hskip, hun, hinv⟩
    · obtain ⟨l1, k1, c2, e1, d1, e, g⟩ := ih (done ++ [w]) low cnt ci entered depth hinv hb2
        hl hd
      refine ⟨l1, k1, c2, e1, d1, ?_, g⟩
      rw [buildLoopG, if_pos hskip]; exact e
    · obtain ⟨r2, c2, ew, dw, eg, hlw, hd1, hd2⟩ := IH ci w (v : Int) cid hpre
      have hfst := buildTreeG_fst fuel w (v : Int) cid ci
      rw [eg, ecall] at hfst
      simp only [Option.map_some', Option.some.injEq, Prod.mk.injEq] at hfst
      obtain ⟨e1, e2⟩ := hfst
      subst e1; subst e2
      have hl2 : LogInv c0 c2 n (entered ++ ew) :=
        hl.append hlw h.next_nonneg (fun x hx => (hpost.frame x hx).1)
          (fun x _ hx => by rw [(h.frame x hx).1]; exact hx)
      have hd3 : max depth dw + 1 ≤ (entered ++ ew).length := by
        rw [List.length_append]
        rcases max_cases depth dw with ⟨e, _⟩ | ⟨e, _⟩ <;> rw [e] <;> omega
      obtain ⟨l1, k1, c3, e1, d1, e, g⟩ := ih (done ++ [w]) _ _ c2 _ _ hinv hb2 hl2 hd3
      refine ⟨l1, k1, c3, e1, d1, ?_, g⟩
      rw [buildLoopG, if_neg hskip, if_pos hun, eg]; exact e
    · obtain ⟨l1, k1, c2, e1, d1, e, g⟩ := ih (done ++ [w]) _ cnt ci entered depth hinv hb2
        hl hd
      refine ⟨l1, k1, c2, e1, d1, ?_, g⟩
      rw [buildLoopG, if_neg hskip, if_neg hun]; exact e

theorem buildTreeG_ok (n : Nat) : ∀ fuel, GhostOk fuel n := by
  intro fuel
  induction fuel with
  | zero =>
    intro c v par cid h
    exfalso
    have h1 : 0 < unvisitedCount c n := by
      unfold unvisitedCount
      apply Finset.card_pos.mpr
      exact ⟨v, by simp [h.hv, h.unvisited]⟩
    have := h.fuel
    omega
  | succ fuel IH =>
    intro c v par cid h
    have hinv := enter_loopInv cid h
    have hadj : ∀ w ∈ (c.enter v par cid).adj v, w < n := fun w hw => hinv.adjBound v w hw
    have er := fun x => enter_rank h.sized h.hv par cid x
    have hl0 : LogInv c (c.enter v par cid) n [v] := by
      refine ⟨?_, ?_, ?_, ?_⟩
      · simp [List.range_succ]
        rw [hinv.hrank]
      · rw [enter_next]; simp
      · intro x hx
        simp at hx; subst hx
        exact ⟨h.hv, h.unvisited⟩
      · intro x _ hx0 hx1
        by_contra hxv
        simp at hxv
        rw [er, if_neg hxv] at hx1
        exact hx1 hx0
    obtain ⟨low, cnt, c2, e1, d1, e, hl, hd⟩ := buildLoopG_ok IH _ [] _ _ _ [v] 0 hinv hadj hl0
      (by simp)
    refine ⟨low, c2.leave v low cnt, e1, d1 + 1, ?_, ?_, by omega, hd⟩
    · simp only [buildTreeG]
      rw [e]
    · exact ⟨hl.ranks, hl.next, hl.fresh, hl.all⟩

theorem GhostInv.start {lits : List Lit} {edges : List (Nat × Nat)}
    {c : ActiveVerticesConnected} (hB : Built lits edges c) (hE : InRange lits.length edges) :
    GhostInv lits edges (resetDfs c) (resetDfs c) [] [] := by
  obtain ⟨hF, _⟩ := resetDfs_forest hB hE
  have hr := fun x hx => resetDfs_rank hB.sized x hx
  refine
    { forest := hF
      built := hB.of_static (resetDfs_static c) hF.sized
      zero := rfl
      unvisited := hr
      log := ⟨rfl, by simp, by intro x hx; simp at hx, fun x hx h0 h1 => absurd h0 h1⟩
      least := fun x hx h => absurd (hr x hx) h
      depth := by intro kd hkd; simp at hkd
      roots := ?_ }
  intro k
  constructor
  · rintro ⟨d, hd⟩; simp at hd
  · rintro ⟨hk, h, _⟩; exact absurd (hr k hk) h

/-- Building the tree of the next unvisited vertex keeps the invariant. -/
theorem GhostInv.grow_tree {lits : List Lit} {edges : List (Nat × Nat)}
    {z c : ActiveVerticesConnected} {entered : List Nat} {trees : List (Nat × Nat)}
    (h : GhostInv lits edges z c entered trees) (hE : InRange lits.length edges) {k : Nat}
    (hk : k < lits.length) (hk0 : c.rank k = -1) (hks : c.state k ≠ kInactive)
    (hdone : ∀ j, j < k → c.state j ≠ kInactive → c.rank j ≠ -1) :
    ∃ low c1 ek d, buildTreeG lits.length k (-1) (k : Int) c = some (low, c1, ek, d) ∧
      buildTree lits.length k (-1) (k : Int) c = some (low, c1) ∧
      GhostInv lits edges z c1 (entered ++ ek) (trees ++ [(k, d)]) ∧
      (∀ x, c.rank x ≠ -1 → c1.rank x ≠ -1) ∧ c1.rank k ≠ -1 ∧ c1.state_ = c.state_ := by
  have hF := h.forest
  have hpre := hF.pre hk hk0 hks
  obtain ⟨low, c1, ek, d, eg, hlk, hd1, hd2⟩ := buildTreeG_ok lits.length lits.length c k (-1)
    (k : Int) hpre
  obtain ⟨low2, c2, e, hpost⟩ := buildTree_ok lits.length lits.length c k (-1) (k : Int) hpre
  have hfst := buildTreeG_fst lits.length k (-1) (k : Int) c
  rw [eg, e] at hfst
  simp only [Option.map_some', Option.some.injEq, Prod.mk.injEq] at hfst
  obtain ⟨e1, e2⟩ := hfst
  subst e1; subst e2
  have hF1 := hF.grow hk0 hpost
  have hB1 : Built lits edges c1 := h.built.of_static hpost.static hF1.sized
  have hst : c1.state_ = c.state_ := hpost.static.2.2
  have hfr := hpost.frame
  have hold : ∀ x, c.rank x ≠ -1 → c1.rank x ≠ -1 := fun x hx => by
    rw [(hfr x hx).1]; exact hx
  obtain ⟨T, hT, hdT⟩ := hpost.tree
  have hz0 : 0 ≤ z.next_rank_ := by rw [h.zero]
  have hkv : c1.rank k ≠ -1 := hdT.root_ok.2.2
  have hnew : ∀ x, x < lits.length → c.rank x = -1 → c1.rank x ≠ -1 →
      c1.clusterId x = (k : Int) ∧ k ≤ x ∧ (x ≠ k → c1.parent x ≠ -1) := by
    intro x hx hx0 hx1
    have hxT : x ∈ T := (hT x).mpr ⟨hx, hx0, hx1⟩
    have hm := hdT.mem_ok x hxT
    refine ⟨by rw [hm.2.2.2.2, hpost.hcid], ?_, ?_⟩
    · by_contra hlt
      have hxs : c.state x ≠ kInactive := by
        rw [← hpost.static.state_eq]; exact hm.2.1
      exact hdone x (by omega) hxs hx0
    · intro hne hp
      obtain ⟨u, _, g, _⟩ := Tr.parentIn hdT (fun w hw => hw) x hxT hne
      rw [hp] at g
      omega
  refine ⟨low, c1, ek, d, eg, e, ?_, hold, hkv, hst⟩
  refine
    { forest := hF1
      built := hB1
      zero := h.zero
      unvisited := h.unvisited
      log := h.log.append hlk hz0 (fun x hx => (hfr x hx).1)
        (fun x hx hx0 => absurd (h.unvisited x hx) hx0)
      least := ?_
      depth := ?_
      roots := ?_ }
  · intro x hx hx1
    by_cases hx0 : c.rank x = -1
    · exact ⟨k, (hnew x hx hx0 hx1).1, (hnew x hx hx0 hx1).2.1⟩
    · rw [(hfr x hx0).2.2.1]
      exact h.least x hx hx0
  · intro kd hkd R hR
    rw [hst] at hR
    rcases List.mem_append.mp hkd with hkd | hkd
    · exact h.depth kd hkd R hR
    · simp at hkd
      subst hkd
      refine ⟨hd1, le_trans hd2 ?_⟩
      rw [← List.toFinset_card_of_nodup hlk.entered_nodup]
      apply Finset.card_le_card
      intro x hx
      rw [List.mem_toFinset] at hx
      have hxf := hlk.fresh x hx
      have hx1 : c1.rank x ≠ -1 := hlk.visited hpre.rankInv.nonneg x hx
      have hcon := hF1.cluster_connected hB1 hE hk hkv hxf.1 hx1
        (by rw [(hnew x hxf.1 hxf.2 hx1).1, hpost.hcid])
      rw [hst] at hcon
      exact hR x hxf.1 hcon
  · intro j
    constructor
    · rintro ⟨d1, hd⟩
      rcases List.mem_append.mp hd with hd | hd
      · obtain ⟨g1, g2, g3⟩ := (h.roots j).mp ⟨d1, hd⟩
        exact ⟨g1, hold j g2, by rw [(hfr j g2).2.1]; exact g3⟩
      · simp at hd
        rw [hd.1]
        exact ⟨hk, hkv, hpost.hpar⟩
    · rintro ⟨hj, hj1, hjp⟩
      by_cases hj0 : c.rank j = -1
      · have := (hnew j hj hj0 hj1).2.2
        by_cases hjk : j = k
        · subst hjk; exact ⟨d, by simp⟩
        · exact absurd hjp (this hjk)
      · rw [(hfr j hj0).2.1] at hjp
        obtain ⟨d1, hd⟩ := (h.roots j).mpr ⟨hj, hj0, hjp⟩
        exact ⟨d1, List.mem_append_left _ hd⟩

/-- The census loop with ghost values never runs out of fuel and keeps the invariant, from
any iteration `k` on. -/
theorem censusG_ok {lits : List Lit} {edges : List (Nat × Nat)} {z : ActiveVerticesConnected}
    (hE : InRange lits.length edges) :
    ∀ (m k : Nat) (ne : Int) (c : ActiveVerticesConnected) (entered : List Nat)
      (trees : List (Nat × Nat)), k + m = lits.length →
      GhostInv lits edges z c entered trees →
      (∀ j, j < k → c.state j ≠ kInactive → c.rank j ≠ -1) →
      ∃ res e1 t1, censusG lits.length (List.range' k m) ne c entered trees = (res, e1, t1) ∧
        ((∃ c1, res = Census.conflict c1 ∧ GhostInv lits edges z c1 e1 t1 ∧
            c1.state_ = c.state_) ∨
          (∃ ne1 c1, res = Census.done ne1 c1 ∧ GhostInv lits edges z c1 e1 t1 ∧
            c1.state_ = c.state_ ∧
            ∀ j, j < lits.length → c1.state j ≠ kInactive → c1.rank j ≠ -1)) := by
  intro m
  induction m with
  | zero =>
    intro k ne c entered trees hkm h hdone
    refine ⟨Census.done ne c, entered, trees, rfl, Or.inr ⟨ne, c, rfl, h, rfl, ?_⟩⟩
    intro j hj
    exact hdone j (by omega)
  | succ m ih =>
    intro k ne c entered trees hkm h hdone
    have hk : k < lits.length := by omega
    have e0 : List.range' k (m + 1) = k :: List.range' (k + 1) m := by
      simp [List.range'_succ]
    rw [e0, censusG]
    by_cases hc : c.state k ≠ kInactive ∧ c.rank k = kUnvisited
    · rw [if_pos hc]
      obtain ⟨low, c1, ek, d, eg, _, hinv, hold, hkv, hst⟩ := h.grow_tree hE hk hc.2 hc.1 hdone
      rw [eg]
      simp only
      have hdone1 : ∀ j, j < k + 1 → c1.state j ≠ kInactive → c1.rank j ≠ -1 := by
        intro j hj hjs
        by_cases hjk : j = k
        · subst hjk; exact hkv
        · apply hold
          apply hdone j (by omega)
          unfold state at hjs ⊢
          rw [← hst]; exact hjs
      have step : ∀ ne1 : Int,
          ∃ res e1 t1, censusG lits.length (List.range' (k + 1) m) ne1 c1 (entered ++ ek)
              (trees ++ [(k, d)]) = (res, e1, t1) ∧
            ((∃ c2, res = Census.conflict c2 ∧ GhostInv lits edges z c2 e1 t1 ∧
                c2.state_ = c.state_) ∨
              (∃ ne2 c2, res = Census.done ne2 c2 ∧ GhostInv lits edges z c2 e1 t1 ∧
                c2.state_ = c.state_ ∧
                ∀ j, j < lits.length → c2.state j ≠ kInactive → c2.rank j ≠ -1)) := by
        intro ne1
        obtain ⟨res, e1, t1, g1, g2⟩ := ih (k + 1) ne1 c1 _ _ (by omega) hinv hdone1
        refine ⟨res, e1, t1, g1, ?_⟩
        rcases g2 with ⟨c2, a1, a2, a3⟩ | ⟨ne2, c2, a1, a2, a3, a4⟩
        · exact Or.inl ⟨c2, a1, a2, a3.trans hst⟩
        · exact Or.inr ⟨ne2, c2, a1, a2, a3.trans hst, a4⟩
      by_cases h2 : c1.subtreeActiveCount k ≥ 1
      · rw [if_pos h2]
        by_cases h3 : ne ≠ -1
        · rw [if_pos h3]
          exact ⟨_, _, _, rfl, Or.inl ⟨c1, rfl, hinv, hst⟩⟩
        · rw [if_neg h3]; exact step _
      · rw [if_neg h2]; exact step _
    · rw [if_neg hc]
      have hdone1 : ∀ j, j < k + 1 → c.state j ≠ kInactive → c.rank j ≠ -1 := by
        intro j hj hjs
        by_cases hjk : j = k
        · subst hjk
          intro e
          exact hc ⟨hjs, e⟩
        · exact hdone j (by omega) hjs
      exact ih (k + 1) ne c entered trees (by omega) h hdone1

/-- The census loop of `propagate`, with ghost values, on the freshly reset vectors. -/
theorem censusG_start {lits : List Lit} {edges : List (Nat × Nat)}
    {c : ActiveVerticesConnected} (hB : Built lits edges c) (hE : InRange lits.length edges) :
    ∃ res e1 t1, censusG lits.length (List.range lits.length) (-1) (resetDfs c) [] [] =
        (res, e1, t1) ∧
      res = census lits.length (List.range lits.length) (-1) (resetDfs c) ∧
      ((∃ c1, res = Census.conflict c1 ∧ GhostInv lits edges (resetDfs c) c1 e1 t1 ∧
          c1.state_ = c.state_) ∨
        (∃ ne1 c1, res = Census.done ne1 c1 ∧ GhostInv lits edges (resetDfs c) c1 e1 t1 ∧
          c1.state_ = c.state_ ∧
          ∀ j, j < lits.length → c1.state j ≠ kInactive → c1.rank j ≠ -1)) := by
  obtain ⟨res, e1, t1, g1, g2⟩ := censusG_ok hE lits.length 0 (-1) (resetDfs c) [] []
    (by omega) (GhostInv.start hB hE) (by intro j hj; omega)
  rw [← List.range_eq_range'] at g1
  refine ⟨res, e1, t1, g1, ?_, g2⟩
  have := censusG_fst lits.length (List.range lits.length) (-1) (resetDfs c) [] []
  rw [g1] at this
  exact this

theorem propagate_of_census_done {S : Type} (ops : SolverOps S) (s : S) (p : Lit)
    (c : ActiveVerticesConnected) (st : List NodeState) (ne : Int)
    (c2 : ActiveVerticesConnected) (hr : refreshed ops s p c = some st)
    (hcen : census c.lits_.length (List.range c.lits_.length) (-1)
      (resetDfs { c with state_ := st }) = Census.done ne c2) :
    ∃ r, propagate ops s p c = Outcome.returned r ∧ r.self = c2 := by
  unfold refreshed at hr
  simp only [propagate, hr, hcen]
  by_cases hne : ne ≠ -1
  · rw [if_pos hne]; exact ⟨_, rfl, rfl⟩
  · rw [if_neg hne]; exact ⟨_, rfl, rfl⟩

theorem GhostInv.length_eq {lits : List Lit} {edges : List (Nat × Nat)}
    {z c : ActiveVerticesConnected} {entered : List Nat} {trees : List (Nat × Nat)}
    (h : GhostInv lits edges z c entered trees) :
    (entered.length : Int) = (((Finset.range lits.length).filter
      (fun x => c.rank x ≠ -1)).card : Int) := by
  have hz0 : 0 ≤ z.next_rank_ := by rw [h.zero]
  rw [← List.toFinset_card_of_nodup h.log.entered_nodup]
  congr 2
  ext x
  simp only [List.mem_toFinset, Finset.mem_filter, Finset.mem_range]
  constructor
  · intro hx
    exact ⟨(h.log.fresh x hx).1, h.log.visited hz0 x hx⟩
  · rintro ⟨hx, hx1⟩
    exact h.log.all x hx (h.unvisited x hx) hx1

/-- C15 (ranks and cluster ids after a complete forest construction). When the census loop
of `propagate` runs to completion (it ends with `Census.done`, not with its
`return false`), in the object left behind: a vertex is visited (its rank is not -1) iff
it is not Inactive, so every Inactive vertex keeps the rank -1; the ranks of the visited
vertices are distinct and lie in `0 .. k-1`, where `k` is the number of vertices that are
not Inactive; they are assigned in the order in which `buildTree` is entered (the `i`-th
vertex entered has rank `i`, and every vertex that is not Inactive is entered once; the
parent of a visited vertex is a visited neighbour with a smaller rank); two vertices that
are not Inactive have the same cluster id iff a path through vertices that are not
Inactive connects them; and that cluster id is the root of their depth-first tree, a
visited vertex without parent of which they are descendants, and which is the vertex of
least index of their connected component. -/
theorem forest_ranks_and_clusters {S : Type} (ops : SolverOps S) (s : S) (p : Lit)
    (lits : List Lit) (edges : List (Nat × Nat)) (c : ActiveVerticesConnected)
    (st : List NodeState) (ne : Int) (c2 : ActiveVerticesConnected)
    (hB : Built lits edges c) (hE : InRange lits.length edges)
    (hr : refreshed ops s p c = some st)
    (hcen : census lits.length (List.range lits.length) (-1)
      (resetDfs { c with state_ := st }) = Census.done ne c2) :
    (∃ r, propagate ops s p c = Outcome.returned r ∧ r.self = c2) ∧ c2.state_ = st ∧
    (∀ j, j < lits.length → (c2.rank j ≠ -1 ↔ st.getD j kUndecided ≠ kInactive)) ∧
    (∀ i j, i < lits.length → j < lits.length → c2.rank i ≠ -1 → c2.rank i = c2.rank j →
      i = j) ∧
    (∀ j, j < lits.length → c2.rank j ≠ -1 → 0 ≤ c2.rank j ∧
      c2.rank j < (((Finset.range lits.length).filter
        (fun x => st.getD x kUndecided ≠ kInactive)).card : Int)) ∧
    (∃ entered trees,
      censusG lits.length (List.range lits.length) (-1) (resetDfs { c with state_ := st })
        [] [] = (Census.done ne c2, entered, trees) ∧
      entered.Nodup ∧
      (∀ x, x ∈ entered ↔ x < lits.length ∧ st.getD x kUndecided ≠ kInactive) ∧
      entered.map c2.rank = (List.range entered.length).map (fun (i : Nat) => (i : Int))) ∧
    (∀ x u : Nat, x < lits.length → c2.rank x ≠ -1 → c2.parent x = (u : Int) →
      u < lits.length ∧ c2.rank u ≠ -1 ∧ c2.rank u < c2.rank x ∧ Adjacent edges u x) ∧
    (∀ a b, a < lits.length → b < lits.length → st.getD a kUndecided ≠ kInactive →
      st.getD b kUndecided ≠ kInactive →
      (c2.clusterId a = c2.clusterId b ↔ Connected edges st a b)) ∧
    (∀ a, a < lits.length → st.getD a kUndecided ≠ kInactive →
      ∃ r : Nat, c2.clusterId a = (r : Int) ∧ r < lits.length ∧ c2.rank r ≠ -1 ∧
        c2.parent r = -1 ∧ Desc c2 r a ∧ Connected edges st r a ∧
        ∀ b, b < lits.length → Connected edges st a b → r ≤ b) := by
  have hl := hB.hlits
  subst hl
  have hlen : st.length = c.state_.length := by
    unfold refreshed at hr
    exact refresh_length _ _ _ _ _ _ _ hr
  have hB0 : Built c.lits_ edges { c with state_ := st } :=
    ⟨rfl, hB.hadj, ⟨hB.sized.lits, hB.sized.adj, by rw [hlen]; exact hB.sized.state,
      hB.sized.rank, hB.sized.lowlink, hB.sized.cnt, hB.sized.cid, hB.sized.par⟩⟩
  obtain ⟨res, entered, trees, g1, g2, g3⟩ := censusG_start hB0 hE
  have g2' : res = Census.done ne c2 := g2.trans hcen
  subst g2'
  rcases g3 with ⟨c1, a1, _⟩ | ⟨ne1, c1, a1, hG, hst, hall⟩
  · cases a1
  · simp only [Census.done.injEq] at a1
    obtain ⟨e1, e2⟩ := a1
    subst e1; subst e2
    have hst2 : c2.state_ = st := hst
    have hsx : ∀ y, c2.state y = st.getD y kUndecided := by
      intro y; unfold state; rw [hst2]
    have hF := hG.forest
    have hB2 := hG.built
    have hz0 : 0 ≤ (resetDfs { c with state_ := st }).next_rank_ := by rw [hG.zero]
    have hvis : ∀ j, j < c.lits_.length →
        (c2.rank j ≠ -1 ↔ st.getD j kUndecided ≠ kInactive) := by
      intro j hj
      rw [← hsx]
      exact ⟨hF.alive j hj, hall j hj⟩
    have hmem : ∀ x, x ∈ entered ↔ x < c.lits_.length ∧ st.getD x kUndecided ≠ kInactive := by
      intro x
      constructor
      · intro hx
        have := (hG.log.fresh x hx).1
        exact ⟨this, (hvis x this).mp (hG.log.visited hz0 x hx)⟩
      · rintro ⟨hx, hxs⟩
        exact hG.log.all x hx (hG.unvisited x hx) ((hvis x hx).mpr hxs)
    have hlenE := hG.length_eq
    refine ⟨propagate_of_census_done ops s p c st ne c2 hr hcen, hst2, hvis, ?_, ?_, ?_, ?_,
      ?_, ?_⟩
    · intro i j hi hj hiv hij
      exact hF.rankInv.inj i j hi hj hiv hij
    · intro j hj hjv
      have hb := hF.rankInv.bound j hj hjv
      refine ⟨hb.1, ?_⟩
      have hn := hG.log.next
      rw [hG.zero, zero_add] at hn
      have hcard : ((Finset.range c.lits_.length).filter (fun x => c2.rank x ≠ -1)) =
          ((Finset.range c.lits_.length).filter
            (fun x => st.getD x kUndecided ≠ kInactive)) := by
        ext x
        simp only [Finset.mem_filter, Finset.mem_range]
        constructor
        · rintro ⟨hx, h1⟩; exact ⟨hx, (hvis x hx).mp h1⟩
        · rintro ⟨hx, h1⟩; exact ⟨hx, (hvis x hx).mpr h1⟩
      rw [← hcard, ← hlenE, ← hn]
      exact hb.2
    · refine ⟨entered, trees, g1, hG.log.entered_nodup, hmem, ?_⟩
      have := hG.log.ranks
      rw [hG.zero] at this
      simpa using this
    · intro x u hx hxv hp
      obtain ⟨a1, a2, a3, a4, _⟩ := hF.parent_visited hx hxv hp
      exact ⟨a1, a2, a3, (hB2.mem_adj hE u x).mp a4⟩
    · intro a b ha hb has hbs
      have hav := (hvis a ha).mpr has
      have hbv := (hvis b hb).mpr hbs
      constructor
      · intro e
        have := hF.cluster_connected hB2 hE ha hav hb hbv e
        rw [hst2] at this
        exact this
      · intro hcon
        rw [← hst2] at hcon
        exact (hF.path_cluster hB2 hE ha hav hcon).2.2.symm
    · intro a ha has
      have hav := (hvis a ha).mpr has
      obtain ⟨r, T, h1, h2, h3, h4, h5⟩ := hF.root a ha hav
      have haT : a ∈ T := (h5 a).mpr ⟨ha, hav, h1⟩
      have hrT := (h5 r).mp h4.root_mem
      have hra : Connected edges st r a := by
        have := hF.cluster_connected hB2 hE h2 hrT.2.1 ha hav (by rw [hrT.2.2, h1])
        rw [hst2] at this
        exact this
      refine ⟨r, h1, h2, hrT.2.1, h3, Tr.desc h4 a haT, hra, ?_⟩
      intro b hb hcon
      rw [← hst2] at hcon
      obtain ⟨_, hbv, hbc⟩ := hF.path_cluster hB2 hE ha hav hcon
      obtain ⟨r1, e1, hle⟩ := hG.least b hb hbv
      have : r1 = r := by
        rw [hbc, h1] at e1
        exact_mod_cast e1.symm
      subst this
      exact hle

/-- C19 (`buildTree` terminates, is entered once per vertex, and its recursion depth is
bounded). For every graph with indices in range (cycles, self-loops and duplicate edges
included) and every VertexState array: `propagate` never exhausts the fuel
`lits_.size()` of the model, that is, every call of `buildTree` returns; during the census
loop `buildTree` is entered at most once for a vertex, and only for vertices that are not
Inactive; and the recursion depth of every call `buildTree(k, -1, k)` made by the loop is
at least 1 and at most the size of any set that holds the vertices reachable from `k`
through vertices that are not Inactive, in particular at most their number. -/
theorem buildTree_terminates {S : Type} (ops : SolverOps S) (s : S) (p : Lit)
    (lits : List Lit) (edges : List (Nat × Nat)) (c : ActiveVerticesConnected)
    (hB : Built lits edges c) (hE : InRange lits.length edges) :
    propagate ops s p c ≠ Outcome.outOfFuel ∧
    ∀ st : List NodeState, st.length = lits.length →
      ∃ res entered trees,
        censusG lits.length (List.range lits.length) (-1) (resetDfs { c with state_ := st })
          [] [] = (res, entered, trees) ∧
        res = census lits.length (List.range lits.length) (-1)
          (resetDfs { c with state_ := st }) ∧
        res ≠ Census.outOfFuel ∧ entered.Nodup ∧
        (∀ x ∈ entered, x < lits.length ∧ st.getD x kUndecided ≠ kInactive) ∧
        (∀ k, (∃ d, (k, d) ∈ trees) → k ∈ entered) ∧
        ∀ kd ∈ trees, ∀ R : Finset Nat,
          (∀ y, y < lits.length → Connected edges st kd.1 y → y ∈ R) →
            1 ≤ kd.2 ∧ kd.2 ≤ R.card := by
  constructor
  · cases hr : refreshed ops s p c with
    | none =>
      rw [(propagate_aborted_iff ops s p c).mpr hr]
      simp
    | some st =>
      obtain ⟨r, h1, _⟩ := propagate_summary ops s p hB hE hr
      rw [h1]
      simp
  · intro st hlen
    have hB0 : Built lits edges { c with state_ := st } :=
      ⟨hB.hlits, hB.hadj, ⟨hB.sized.lits, hB.sized.adj, hlen,
        hB.sized.rank, hB.sized.lowlink, hB.sized.cnt, hB.sized.cid, hB.sized.par⟩⟩
    obtain ⟨res, entered, trees, g1, g2, g3⟩ := censusG_start hB0 hE
    have key : ∀ c1, GhostInv lits edges (resetDfs { c with state_ := st }) c1 entered trees →
        c1.state_ = st →
        entered.Nodup ∧
        (∀ x ∈ entered, x < lits.length ∧ st.getD x kUndecided ≠ kInactive) ∧
        (∀ k, (∃ d, (k, d) ∈ trees) → k ∈ entered) ∧
        ∀ kd ∈ trees, ∀ R : Finset Nat,
          (∀ y, y < lits.length → Connected edges st kd.1 y → y ∈ R) →
            1 ≤ kd.2 ∧ kd.2 ≤ R.card := by
      intro c1 hG hst
      have hz0 : 0 ≤ (resetDfs { c with state_ := st }).next_rank_ := by rw [hG.zero]
      refine ⟨hG.log.entered_nodup, ?_, ?_, ?_⟩
      · intro x hx
        have hxn := (hG.log.fresh x hx).1
        have := hG.forest.alive x hxn (hG.log.visited hz0 x hx)
        unfold state at this
        rw [hst] at this
        exact ⟨hxn, this⟩
      · intro k hk
        obtain ⟨a, b, _⟩ := (hG.roots k).mp hk
        exact hG.log.all k a (hG.unvisited k a) b
      · intro kd hkd R hR
        rw [← hst] at hR
        exact hG.depth kd hkd R hR
    refine ⟨res, entered, trees, g1, g2, ?_⟩
    rcases g3 with ⟨c1, a1, hG, hst⟩ | ⟨ne1, c1, a1, hG, hst, _⟩
    · exact ⟨by rw [a1]; simp, key c1 hG hst⟩
    · exact ⟨by rw [a1]; simp, key c1 hG hst⟩

/-! ### Instances on concrete graphs -/

theorem built_of_new (lits : List Lit) (edges : List (Nat × Nat)) (st : List NodeState)
    (h : st.length = lits.length) : Built lits edges { new lits edges with state_ := st } := by
  have hb := new_built lits edges
  exact ⟨rfl, rfl, ⟨hb.sized.lits, hb.sized.adj, h, hb.sized.rank, hb.sized.lowlink,
    hb.sized.cnt, hb.sized.cid, hb.sized.par⟩⟩

theorem returned_ret {S : Type} {o : Outcome (PropagateResult S)} {r : PropagateResult S}
    {b : Bool} (h : o = Outcome.returned r) (hb : retOf o = some b) : r.ret = b := by
  subst h; simpa [retOf] using hb

theorem returned_calls {S : Type} {o : Outcome (PropagateResult S)} {r : PropagateResult S}
    {l : List EnqCall} (h : o = Outcome.returned r) (hb : callsOf o = some l) :
    r.calls = l := by
  subst h; simpa [callsOf] using hb

/-- On the path 0-1-2-3-4 with vertex 1 deleted nothing is reachable from vertex 0. -/
theorem path_without_one (st : List NodeState) (b : Nat)
    (h : ConnectedWithout pathEdges st 1 0 b) : b = 0 := by
  unfold ConnectedWithout Path at h
  induction h with
  | refl => rfl
  | @tail x y _ hxy ih =>
    subst ih
    exfalso
    obtain ⟨hadj, _, _, hy⟩ := hxy
    unfold Adjacent pathEdges at hadj
    simp at hadj
    exact hy hadj

/-- In the graph 0-1-2 with the isolated vertex 3 nothing is reachable from vertex 3. -/
theorem isolated_three (st : List NodeState) (b : Nat)
    (h : Connected [(0, 1), (1, 2)] st 3 b) : b = 3 := by
  unfold Connected Path at h
  induction h with
  | refl => rfl
  | @tail x y _ hxy ih =>
    subst ih
    exfalso
    obtain ⟨hadj, _, _⟩ := hxy
    unfold Adjacent at hadj
    simp at hadj

theorem path_zero_two :
    Connected pathEdges [kActive, kUndecided, kActive, kUndecided, kUndecided] 0 2 := by
  unfold Connected Path
  refine Relation.ReflTransGen.tail (b := 1) (Relation.ReflTransGen.single ?_) ?_
  · exact ⟨Or.inl (by decide), by unfold NotInactive; decide, by unfold NotInactive; decide⟩
  · exact ⟨Or.inl (by decide), by unfold NotInactive; decide, by unfold NotInactive; decide⟩

theorem path_active_pairs (a b : Nat) (ha : a < 5) (hb : b < 5)
    (haA : [kActive, kUndecided, kActive, kUndecided, kUndecided].getD a kUndecided = kActive)
    (hbA : [kActive, kUndecided, kActive, kUndecided, kUndecided].getD b kUndecided = kActive) :
    Connected pathEdges [kActive, kUndecided, kActive, kUndecided, kUndecided] a b := by
  have h1 : a = 0 ∨ a = 2 := by
    interval_cases a <;> simp at haA ⊢
  have h2 : b = 0 ∨ b = 2 := by
    interval_cases b <;> simp at hbA ⊢
  rcases h1 with rfl | rfl <;> rcases h2 with rfl | rfl
  · exact Relation.ReflTransGen.refl
  · exact path_zero_two
  · exact Path.symm_path path_zero_two
  · exact Relation.ReflTransGen.refl

/-- An instance of the connectivity invariant: on the path 0-1-2-3-4 with the vertices 0
and 2 Active and vertex 1 Undecided, `propagate` returns `true` and the two Active
vertices are connected. -/
theorem propagate_true_implies_connected_witness :
    Built (vertexLits 5) pathEdges { new (vertexLits 5) pathEdges with
        state_ := [kUndecided, kUndecided, kActive, kUndecided, kUndecided] } ∧
      InRange (vertexLits 5).length pathEdges ∧
      refreshed Trail.ops (Trail.ofAssigned [0, 2] []) (mkLit 0)
        { new (vertexLits 5) pathEdges with
          state_ := [kUndecided, kUndecided, kActive, kUndecided, kUndecided] }
        = some [kActive, kUndecided, kActive, kUndecided, kUndecided] ∧
      Connected pathEdges [kActive, kUndecided, kActive, kUndecided, kUndecided] 0 2 := by
  have hB := built_of_new (vertexLits 5) pathEdges
    [kUndecided, kUndecided, kActive, kUndecided, kUndecided] (by decide)
  have hE : InRange (vertexLits 5).length pathEdges := by unfold InRange; decide
  have hr : refreshed Trail.ops (Trail.ofAssigned [0, 2] []) (mkLit 0)
      { new (vertexLits 5) pathEdges with
        state_ := [kUndecided, kUndecided, kActive, kUndecided, kUndecided] }
      = some [kActive, kUndecided, kActive, kUndecided, kUndecided] := by decide
  obtain ⟨r, h1, _, _, h4⟩ := propagate_true_implies_connected Trail.ops
    (Trail.ofAssigned [0, 2] []) (mkLit 0) (vertexLits 5) pathEdges _ _ hB hE hr
  have hret : r.ret = true := returned_ret h1 (by decide)
  exact ⟨hB, hE, hr, h4 hret 0 2 (by decide) (by decide) (by decide) (by decide)⟩

/-- C2 (a forced vertex need not be an articulation point). With the edge 0-1 listed
twice and vertex 1 Active, `propagate` calls `enqueue(lits[0])` for the Undecided vertex
0, although deleting vertex 0 leaves the only Active vertex, vertex 1, in one piece: the
loop of lines 73-83 counts the child 1 of vertex 0 once for each copy of the edge. -/
theorem duplicate_edge_forces_non_articulation :
    callsOf (propagate Trail.ops (Trail.ofAssigned [1] []) (mkLit 1)
        (new (vertexLits 2) [(0, 1), (0, 1)])) = some [⟨0, mkLit 0, true⟩] ∧
      stateOf (propagate Trail.ops (Trail.ofAssigned [1] []) (mkLit 1)
        (new (vertexLits 2) [(0, 1), (0, 1)])) = some [kUndecided, kActive] ∧
      ∀ a b, a < 2 → b < 2 → [kUndecided, kActive].getD a kUndecided = kActive →
        [kUndecided, kActive].getD b kUndecided = kActive →
        ConnectedWithout [(0, 1), (0, 1)] [kUndecided, kActive] 0 a b := by
  refine ⟨by decide, by decide, ?_⟩
  intro a b ha hb haA hbA
  have h1 : a = 1 := by interval_cases a <;> simp at haA ⊢
  have h2 : b = 1 := by interval_cases b <;> simp at hbA ⊢
  subst h1; subst h2
  exact Relation.ReflTransGen.refl

/-- An instance of the property of a vertex forced Inactive: on the path 0-1-2 with the
isolated vertex 3 and vertex 0 Active, vertex 3 is forced Inactive and is connected to no
Active vertex. -/
theorem forced_inactive_not_connected_witness :
    Built (vertexLits 4) [(0, 1), (1, 2)] (new (vertexLits 4) [(0, 1), (1, 2)]) ∧
      InRange (vertexLits 4).length [(0, 1), (1, 2)] ∧
      refreshed Trail.ops (Trail.ofAssigned [0] []) (mkLit 0)
        (new (vertexLits 4) [(0, 1), (1, 2)])
        = some [kActive, kUndecided, kUndecided, kUndecided] ∧
      callsOf (propagate Trail.ops (Trail.ofAssigned [0] []) (mkLit 0)
        (new (vertexLits 4) [(0, 1), (1, 2)])) = some [⟨3, (mkLit 3).neg, true⟩] ∧
      ∀ a, a < 4 → [kActive, kUndecided, kUndecided, kUndecided].getD a kUndecided = kActive →
        ¬ Connected [(0, 1), (1, 2)] [kActive, kUndecided, kUndecided, kUndecided] 3 a := by
  have hB := new_built (vertexLits 4) [(0, 1), (1, 2)]
  have hE : InRange (vertexLits 4).length [(0, 1), (1, 2)] := by unfold InRange; decide
  have hr : refreshed Trail.ops (Trail.ofAssigned [0] []) (mkLit 0)
      (new (vertexLits 4) [(0, 1), (1, 2)])
      = some [kActive, kUndecided, kUndecided, kUndecided] := by decide
  have hc : callsOf (propagate Trail.ops (Trail.ofAssigned [0] []) (mkLit 0)
      (new (vertexLits 4) [(0, 1), (1, 2)])) = some [⟨3, (mkLit 3).neg, true⟩] := by decide
  obtain ⟨r, h1, _, h3⟩ := forced_inactive_not_connected Trail.ops
    (Trail.ofAssigned [0] []) (mkLit 0) (vertexLits 4) [(0, 1), (1, 2)] _ _ hB hE hr
  have hcalls : r.calls = [⟨3, (mkLit 3).neg, true⟩] := returned_calls h1 hc
  have := h3.1 3 true (by rw [hcalls]; decide)
  exact ⟨hB, hE, hr, hc, this.2.2⟩

/-- An instance of the completeness of forcing, the example of the specification: on
the path 0-1-2-3-4 with the vertices 0 and 2 Active, vertex 1 is forced Active and
nothing else is forced. -/
theorem propagate_forces_every_implied_witness :
    Built (vertexLits 5) pathEdges { new (vertexLits 5) pathEdges with
        state_ := [kUndecided, kUndecided, kActive, kUndecided, kUndecided] } ∧
      InRange (vertexLits 5).length pathEdges ∧
      refreshed Trail.ops (Trail.ofAssigned [0, 2] []) (mkLit 0)
        { new (vertexLits 5) pathEdges with
          state_ := [kUndecided, kUndecided, kActive, kUndecided, kUndecided] }
        = some [kActive, kUndecided, kActive, kUndecided, kUndecided] ∧
      ¬ ConnectedWithout pathEdges [kActive, kUndecided, kActive, kUndecided, kUndecided]
        1 0 2 ∧
      (∃ r, propagate Trail.ops (Trail.ofAssigned [0, 2] []) (mkLit 0)
          { new (vertexLits 5) pathEdges with
            state_ := [kUndecided, kUndecided, kActive, kUndecided, kUndecided] }
          = Outcome.returned r ∧ r.ret = true ∧ (⟨1, mkLit 1, true⟩ : EnqCall) ∈ r.calls) ∧
      callsOf (propagate Trail.ops (Trail.ofAssigned [0, 2] []) (mkLit 0)
          { new (vertexLits 5) pathEdges with
            state_ := [kUndecided, kUndecided, kActive, kUndecided, kUndecided] })
        = some [⟨1, mkLit 1, true⟩] := by
  have hB := built_of_new (vertexLits 5) pathEdges
    [kUndecided, kUndecided, kActive, kUndecided, kUndecided] (by decide)
  have hE : InRange (vertexLits 5).length pathEdges := by unfold InRange; decide
  have hr : refreshed Trail.ops (Trail.ofAssigned [0, 2] []) (mkLit 0)
      { new (vertexLits 5) pathEdges with
        state_ := [kUndecided, kUndecided, kActive, kUndecided, kUndecided] }
      = some [kActive, kUndecided, kActive, kUndecided, kUndecided] := by decide
  have hc : callsOf (propagate Trail.ops (Trail.ofAssigned [0, 2] []) (mkLit 0)
      { new (vertexLits 5) pathEdges with
        state_ := [kUndecided, kUndecided, kActive, kUndecided, kUndecided] })
      = some [⟨1, mkLit 1, true⟩] := by decide
  have hsplit : ¬ ConnectedWithout pathEdges
      [kActive, kUndecided, kActive, kUndecided, kUndecided] 1 0 2 := by
    intro h
    have := path_without_one _ 2 h
    omega
  obtain ⟨r, h1, _, h3⟩ := propagate_forces_every_implied Trail.ops
    (Trail.ofAssigned [0, 2] []) (mkLit 0) (vertexLits 5) pathEdges _ _ hB hE hr
    ⟨0, by decide, by decide⟩ path_active_pairs
  have hcalls : r.calls = [⟨1, mkLit 1, true⟩] := returned_calls h1 hc
  obtain ⟨g1, g2, _⟩ := h3 (by rw [hcalls]; decide)
  have hm := g2 1 (by decide) (by decide)
    ⟨0, by decide, by decide, Path.symm_path (by
      unfold Path
      exact Relation.ReflTransGen.single
        ⟨Or.inl (by decide), by unfold NotInactive; decide, by unfold NotInactive; decide⟩)⟩
    ⟨0, 2, by decide, by decide, by decide, by decide, hsplit⟩
  exact ⟨hB, hE, hr, hsplit, ⟨r, h1, g1, hm⟩, hc⟩

/-- An instance of the property of a `false` return: on the path 0-1-2 with the vertices
0 and 2 Active and the literal of vertex 1 already False on the trail, `propagate`
returns `false` because `enqueue` was answered `false`. -/
theorem propagate_false_iff_conflict_witness :
    Built (vertexLits 3) [(0, 1), (1, 2)] { new (vertexLits 3) [(0, 1), (1, 2)] with
        state_ := [kUndecided, kUndecided, kActive] } ∧
      InRange (vertexLits 3).length [(0, 1), (1, 2)] ∧
      refreshed Trail.ops (Trail.ofAssigned [0, 2] [1]) (mkLit 0)
        { new (vertexLits 3) [(0, 1), (1, 2)] with
          state_ := [kUndecided, kUndecided, kActive] }
        = some [kActive, kUndecided, kActive] ∧
      ∃ r, propagate Trail.ops (Trail.ofAssigned [0, 2] [1]) (mkLit 0)
          { new (vertexLits 3) [(0, 1), (1, 2)] with
            state_ := [kUndecided, kUndecided, kActive] } = Outcome.returned r ∧
        r.ret = false ∧
        ((∃ a b, a < (vertexLits 3).length ∧ b < (vertexLits 3).length ∧
            [kActive, kUndecided, kActive].getD a kUndecided = kActive ∧
            [kActive, kUndecided, kActive].getD b kUndecided = kActive ∧
            ¬ Connected [(0, 1), (1, 2)] [kActive, kUndecided, kActive] a b) ∨
          ∃ e ∈ r.calls, e.answer = false) := by
  have hB := built_of_new (vertexLits 3) [(0, 1), (1, 2)]
    [kUndecided, kUndecided, kActive] (by decide)
  have hE : InRange (vertexLits 3).length [(0, 1), (1, 2)] := by unfold InRange; decide
  have hr : refreshed Trail.ops (Trail.ofAssigned [0, 2] [1]) (mkLit 0)
      { new (vertexLits 3) [(0, 1), (1, 2)] with
        state_ := [kUndecided, kUndecided, kActive] }
      = some [kActive, kUndecided, kActive] := by decide
  obtain ⟨r, h1, _, h3, _⟩ := propagate_false_iff_conflict Trail.ops
    (Trail.ofAssigned [0, 2] [1]) (mkLit 0) (vertexLits 3) [(0, 1), (1, 2)] _ _ hB hE hr
  have hret : r.ret = false := returned_ret h1 (by decide)
  exact ⟨hB, hE, hr, r, h1, hret, h3 hret⟩

/-- C6 fails as stated: after `propagate(x0)` has made the only vertex Active, the
sequence `propagate(x0)`, `undo(x0)` started from that array ends with the vertex
Undecided, not with the array before the first call of the sequence. -/
theorem undo_not_inverse_counterexample :
    stateOf (propagate Trail.ops (Trail.ofAssigned [0] []) (mkLit 0)
        (new (vertexLits 1) [])) = some [kActive] ∧
      undoneState Trail.ops [(Trail.ofAssigned [0] [], mkLit 0)]
        { new (vertexLits 1) [] with state_ := [kActive] } = some [kUndecided] := by
  constructor <;> decide

/-- An instance of the amended undo property: from the constructed object, a call
`propagate(x0)` followed by `undo(x0)` restores the all-Undecided array. -/
theorem undo_restores_undecided_witness :
    propagateAll Trail.ops [(Trail.ofAssigned [0] [], mkLit 0)] (new (vertexLits 1) []) =
        Outcome.returned
          { lits_ := [mkLit 0], adj_ := [[]], state_ := [kActive], rank_ := [0],
            lowlink_ := [0], subtree_active_count_ := [1], cluster_id_ := [0],
            parent_ := [-1], next_rank_ := 1 } ∧
      (undoAll [mkLit 0]
          { lits_ := [mkLit 0], adj_ := [[]], state_ := [kActive], rank_ := [0],
            lowlink_ := [0], subtree_active_count_ := [1], cluster_id_ := [0],
            parent_ := [-1], next_rank_ := 1 }).state_ = (new (vertexLits 1) []).state_ := by
  have h : propagateAll Trail.ops [(Trail.ofAssigned [0] [], mkLit 0)]
      (new (vertexLits 1) []) =
      Outcome.returned
        { lits_ := [mkLit 0], adj_ := [[]], state_ := [kActive], rank_ := [0],
          lowlink_ := [0], subtree_active_count_ := [1], cluster_id_ := [0],
          parent_ := [-1], next_rank_ := 1 } := by decide
  exact ⟨h, undo_restores_undecided Trail.ops [(Trail.ofAssigned [0] [], mkLit 0)]
    (new (vertexLits 1) []) _ h (by
      intro i _ _ _ _
      simp only [state, new, List.getD_eq_getElem?_getD, List.getElem?_replicate]
      split_ifs <;> rfl)⟩

/-- An instance of the explanation: with vertex 0 Active, vertex 1 Inactive and vertex 2
Undecided, the reason for a literal of `x2` is `x0, ~x1`. -/
theorem calcReason_eq_reasonSpec_witness :
    Agrees Trail.ops (Trail.ofAssigned [0] [1])
        { new (vertexLits 3) [] with state_ := [kActive, kInactive, kUndecided] } ∧
      calcReason Trail.ops (Trail.ofAssigned [0] [1]) (mkLit 2)
        { new (vertexLits 3) [] with state_ := [kActive, kInactive, kUndecided] } [] =
        Outcome.returned ([] ++ [mkLit 0, (mkLit 1).neg]) := by
  have ha : Agrees Trail.ops (Trail.ofAssigned [0] [1])
      { new (vertexLits 3) [] with state_ := [kActive, kInactive, kUndecided] } := by
    unfold Agrees; decide
  exact ⟨ha, (calcReason_eq_reasonSpec Trail.ops (Trail.ofAssigned [0] [1]) (mkLit 2)
    { new (vertexLits 3) [] with state_ := [kActive, kInactive, kUndecided] } []).2.1 ha⟩

/-- C8 fails as stated: with vertex 0 Active in agreement with the trail, `calcReason`
returns the literal `x0`, which is True on the trail, not False. -/
theorem calcReason_literal_not_false_counterexample :
    Agrees Trail.ops (Trail.ofAssigned [0] [])
        { new (vertexLits 2) [] with state_ := [kActive, kUndecided] } ∧
      calcReason Trail.ops (Trail.ofAssigned [0] []) (mkLit 1)
        { new (vertexLits 2) [] with state_ := [kActive, kUndecided] } [] =
        Outcome.returned [mkLit 0] ∧
      Trail.ops.value (Trail.ofAssigned [0] []) (mkLit 0) = l_True := by
  refine ⟨by unfold Agrees; decide, by decide, by decide⟩

/-- An instance of the amended property of the explanation: every literal of the reason
computed with vertex 0 Active and vertex 1 Inactive is True on the trail. -/
theorem calcReason_literals_true_witness :
    Agrees Trail.ops (Trail.ofAssigned [0] [1])
        { new (vertexLits 3) [] with state_ := [kActive, kInactive, kUndecided] } ∧
      ∃ added, calcReason Trail.ops (Trail.ofAssigned [0] [1]) (mkLit 2)
          { new (vertexLits 3) [] with state_ := [kActive, kInactive, kUndecided] } [] =
          Outcome.returned ([] ++ added) ∧
        ∀ l ∈ added, Trail.ops.value (Trail.ofAssigned [0] [1]) l = l_True := by
  have ha : Agrees Trail.ops (Trail.ofAssigned [0] [1])
      { new (vertexLits 3) [] with state_ := [kActive, kInactive, kUndecided] } := by
    unfold Agrees; decide
  exact ⟨ha, calcReason_literals_true Trail.ops (Trail.ofAssigned [0] [1]) (mkLit 2)
    { new (vertexLits 3) [] with state_ := [kActive, kInactive, kUndecided] } [] ha⟩

/-- C9 fails as stated: on the path 0-1-2-3-4, after the host has assigned `x0` and `x2`
and called `propagate` for each, the second call has enqueued `x1`; at its return the
literal of vertex 1 is True on the trail while vertex 1 is still Undecided. -/
theorem enqueued_vertex_stays_undecided_counterexample :
    observe (hostRun [HostEvent.assign (mkLit 0), HostEvent.propagateNext,
        HostEvent.assign (mkLit 2), HostEvent.propagateNext] Trail.empty
        (new (vertexLits 5) pathEdges)) 1 = some (l_True, kUndecided) := by
  decide

/-- An instance of the amended agreement property, for the run of the counterexample. -/
theorem state_agrees_with_propagated_trail_witness :
    InRange (vertexLits 5).length pathEdges ∧
      ∃ t c, hostRun [HostEvent.assign (mkLit 0), HostEvent.propagateNext,
          HostEvent.assign (mkLit 2), HostEvent.propagateNext] Trail.empty
          (new (vertexLits 5) pathEdges) = Outcome.returned (t, c) ∧
        c.lits_ = vertexLits 5 ∧
        ∀ i, i < (vertexLits 5).length →
          (c.state i = kActive ↔ t.value (c.lit i) = l_True ∧ ¬ t.Awaits (c.lit i).var) ∧
          (c.state i = kInactive ↔ t.value (c.lit i) = l_False ∧ ¬ t.Awaits (c.lit i).var) ∧
          (c.state i = kUndecided ↔ t.value (c.lit i) = l_Undef ∨ t.Awaits (c.lit i).var) := by
  have hE : InRange (vertexLits 5).length pathEdges := by unfold InRange; decide
  exact ⟨hE, state_agrees_with_propagated_trail (vertexLits 5) pathEdges hE _⟩

/-- An instance of the independence of `propagate` from the previous contents of the
search vectors. -/
theorem propagate_idempotent_witness :
    SameShape (new (vertexLits 5) pathEdges)
        { new (vertexLits 5) pathEdges with
          rank_ := [9, 9, 9, 9, 9], parent_ := [3, 3, 3, 3, 3], next_rank_ := 7 } ∧
      propagate Trail.ops (Trail.ofAssigned [2] []) (mkLit 2)
          { new (vertexLits 5) pathEdges with
            rank_ := [9, 9, 9, 9, 9], parent_ := [3, 3, 3, 3, 3], next_rank_ := 7 } =
        propagate Trail.ops (Trail.ofAssigned [2] []) (mkLit 2)
          (new (vertexLits 5) pathEdges) := by
  have h : SameShape (new (vertexLits 5) pathEdges)
      { new (vertexLits 5) pathEdges with
        rank_ := [9, 9, 9, 9, 9], parent_ := [3, 3, 3, 3, 3], next_rank_ := 7 } :=
    ⟨⟨rfl, rfl, rfl⟩, rfl, rfl, rfl, rfl, rfl⟩
  exact ⟨h, (propagate_idempotent Trail.ops (Trail.ofAssigned [2] []) (mkLit 2) _ _ h).1⟩

/-- On the path 0-1-2-3-4 with vertex 1 Inactive nothing is reachable from vertex 0. -/
theorem path_one_inactive (b : Nat)
    (h : Connected pathEdges [kActive, kInactive, kActive, kUndecided, kInactive] 0 b) :
    b = 0 := by
  unfold Connected Path at h
  induction h with
  | refl => rfl
  | @tail x y _ hxy ih =>
    subst ih
    exfalso
    obtain ⟨hadj, _, hy⟩ := hxy
    unfold Adjacent pathEdges at hadj
    simp at hadj
    subst hadj
    unfold NotInactive at hy
    exact hy (by decide)

/-- An instance of the failure of `calcReason`: the only vertex is Active while its literal
is unassigned on the trail, and the call reaches `abort()`. -/
theorem calcReason_aborts_iff_mismatch_witness :
    calcReason Trail.ops (Trail.ofAssigned [] []) (mkLit 1)
      { new (vertexLits 1) [] with state_ := [kActive] } [] = Outcome.aborted :=
  (calcReason_aborts_iff_mismatch Trail.ops (Trail.ofAssigned [] []) (mkLit 1)
    { new (vertexLits 1) [] with state_ := [kActive] } []).1.mpr
    ⟨0, by decide, Or.inl ⟨by decide, by decide⟩⟩

/-- An instance of the failure of `propagate`: on the path 0-1-2-3-4 with nothing assigned,
`propagate(x2)` reaches `abort()` because the value of `x2` is Unknown. -/
theorem propagate_aborts_iff_unknown_witness :
    Built (vertexLits 5) pathEdges (new (vertexLits 5) pathEdges) ∧
      InRange (vertexLits 5).length pathEdges ∧
      propagate Trail.ops (Trail.ofAssigned [] []) (mkLit 2) (new (vertexLits 5) pathEdges) =
        Outcome.aborted := by
  have hB := new_built (vertexLits 5) pathEdges
  have hE : InRange (vertexLits 5).length pathEdges := by unfold InRange; decide
  exact ⟨hB, hE, ((propagate_aborts_iff_unknown Trail.ops (Trail.ofAssigned [] []) (mkLit 2)
    (vertexLits 5) pathEdges _ hB hE).2.2 (Trail.ofAssigned [] [])).mpr
    ⟨2, by decide, by decide, by decide⟩⟩

/-- An instance of `getWatchers`: for the literals `x0, x0, ~x1` the watchers are
`x0, ~x0, x1, ~x1`, each once. -/
theorem getWatchers_both_polarities_once_witness :
    getWatchers (new [mkLit 0, mkLit 0, (mkLit 1).neg] []) [] =
        [mkLit 0, (mkLit 0).neg, mkLit 1, (mkLit 1).neg] ∧
      ∃ ws, getWatchers (new [mkLit 0, mkLit 0, (mkLit 1).neg] []) [] =
          [] ++ ws ∧ ws.Nodup ∧
        (∀ q, q ∈ ws ↔ ∃ l ∈ [mkLit 0, mkLit 0, (mkLit 1).neg], q = l ∨ q = l.neg) ∧
        (∀ l ∈ [mkLit 0, mkLit 0, (mkLit 1).neg], ws.count l = 1 ∧ ws.count l.neg = 1) :=
  ⟨by decide, getWatchers_both_polarities_once _ []⟩

/-- An instance of the case without Active vertices: on the path 0-1-2-3-4 with `x2` False
and nothing else assigned, `propagate(~x2)` returns `true` without a call of `enqueue`. -/
theorem propagate_no_active_no_forcing_witness :
    Built (vertexLits 5) pathEdges (new (vertexLits 5) pathEdges) ∧
      InRange (vertexLits 5).length pathEdges ∧
      refreshed Trail.ops (Trail.ofAssigned [] [2]) (mkLit 2).neg
        (new (vertexLits 5) pathEdges)
        = some [kUndecided, kUndecided, kInactive, kUndecided, kUndecided] ∧
      ∃ r, propagate Trail.ops (Trail.ofAssigned [] [2]) (mkLit 2).neg
          (new (vertexLits 5) pathEdges) = Outcome.returned r ∧
        r.self.state_ = [kUndecided, kUndecided, kInactive, kUndecided, kUndecided] ∧
        r.ret = true ∧ r.calls = [] ∧
        r.solver = Trail.ops.registerUndo (Trail.ofAssigned [] [2]) (mkLit 2).neg.var := by
  have hB := new_built (vertexLits 5) pathEdges
  have hE : InRange (vertexLits 5).length pathEdges := by unfold InRange; decide
  have hr : refreshed Trail.ops (Trail.ofAssigned [] [2]) (mkLit 2).neg
      (new (vertexLits 5) pathEdges)
      = some [kUndecided, kUndecided, kInactive, kUndecided, kUndecided] := by decide
  exact ⟨hB, hE, hr, propagate_no_active_no_forcing Trail.ops (Trail.ofAssigned [] [2])
    (mkLit 2).neg (vertexLits 5) pathEdges _ _ hB hE hr (by decide)⟩

/-- An instance of the census conflict: on the path 0-1-2-3-4 with the vertices 0 and 2
Active and the vertices 1 and 4 Inactive, `propagate(x0)` returns `false` without a call
of `enqueue`. -/
theorem propagate_census_conflict_immediate_witness :
    Built (vertexLits 5) pathEdges { new (vertexLits 5) pathEdges with
        state_ := [kUndecided, kInactive, kActive, kUndecided, kInactive] } ∧
      InRange (vertexLits 5).length pathEdges ∧
      refreshed Trail.ops (Trail.ofAssigned [0, 2] [1, 4]) (mkLit 0)
        { new (vertexLits 5) pathEdges with
          state_ := [kUndecided, kInactive, kActive, kUndecided, kInactive] }
        = some [kActive, kInactive, kActive, kUndecided, kInactive] ∧
      ¬ Connected pathEdges [kActive, kInactive, kActive, kUndecided, kInactive] 0 2 ∧
      ∃ r, propagate Trail.ops (Trail.ofAssigned [0, 2] [1, 4]) (mkLit 0)
          { new (vertexLits 5) pathEdges with
            state_ := [kUndecided, kInactive, kActive, kUndecided, kInactive] } =
          Outcome.returned r ∧
        r.ret = false ∧ r.calls = [] ∧
        r.solver = Trail.ops.registerUndo (Trail.ofAssigned [0, 2] [1, 4]) (mkLit 0).var := by
  have hB := built_of_new (vertexLits 5) pathEdges
    [kUndecided, kInactive, kActive, kUndecided, kInactive] (by decide)
  have hE : InRange (vertexLits 5).length pathEdges := by unfold InRange; decide
  have hr : refreshed Trail.ops (Trail.ofAssigned [0, 2] [1, 4]) (mkLit 0)
      { new (vertexLits 5) pathEdges with
        state_ := [kUndecided, kInactive, kActive, kUndecided, kInactive] }
      = some [kActive, kInactive, kActive, kUndecided, kInactive] := by decide
  have hn : ¬ Connected pathEdges [kActive, kInactive, kActive, kUndecided, kInactive] 0 2 :=
    fun h => absurd (path_one_inactive 2 h) (by decide)
  obtain ⟨r, h1, _, h3, h4, h5, _⟩ := (propagate_census_conflict_immediate Trail.ops
    (Trail.ofAssigned [0, 2] [1, 4]) (mkLit 0) (vertexLits 5) pathEdges _ _ hB hE hr
    ⟨0, 2, by decide, by decide, by decide, by decide, hn⟩).1
  exact ⟨hB, hE, hr, hn, r, h1, h3, h4, h5⟩

/-- An instance of the frame of `undo`: on three vertices with the literals `x0, x1, x0`,
`undo(x0)` leaves the Inactive vertex 1 as it is. -/
theorem propagate_undo_frame_witness :
    (undo (mkLit 0) { new [mkLit 0, mkLit 1, mkLit 0] [] with
        state_ := [kActive, kInactive, kActive] }).state 1 = kInactive :=
  ((propagate_undo_frame Trail.ops Trail.empty (mkLit 0)
    { new [mkLit 0, mkLit 1, mkLit 0] [] with
      state_ := [kActive, kInactive, kActive] }).2.2.2.2 1 (by decide)).trans (by decide)

theorem returned_self {S : Type} {o : Outcome (PropagateResult S)} {r : PropagateResult S}
    {c : ActiveVerticesConnected} (h : o = Outcome.returned r) (hb : selfOf o = some c) :
    r.self = c := by
  subst h; simpa [selfOf] using hb

/-- An instance of the subtree counts: on the path 0-1-2-3-4 with the vertices 0 and 2
Active, the search from vertex 0 stores the count 2 for vertex 0, the number of Active
vertices of its component, and the count 1 for vertex 1, whose subtree holds vertex 2. -/
theorem subtree_active_count_exact_witness :
    Built (vertexLits 5) pathEdges { new (vertexLits 5) pathEdges with
        state_ := [kUndecided, kUndecided, kActive, kUndecided, kUndecided] } ∧
      InRange (vertexLits 5).length pathEdges ∧
      refreshed Trail.ops (Trail.ofAssigned [0, 2] []) (mkLit 0)
        { new (vertexLits 5) pathEdges with
          state_ := [kUndecided, kUndecided, kActive, kUndecided, kUndecided] }
        = some [kActive, kUndecided, kActive, kUndecided, kUndecided] ∧
      ∃ r, propagate Trail.ops (Trail.ofAssigned [0, 2] []) (mkLit 0)
          { new (vertexLits 5) pathEdges with
            state_ := [kUndecided, kUndecided, kActive, kUndecided, kUndecided] } =
          Outcome.returned r ∧
        r.self.subtreeActiveCount 0 = 2 ∧ r.self.subtreeActiveCount 1 = 1 ∧
        (∃ Sk : Finset Nat, (∀ y, y ∈ Sk ↔ y < (vertexLits 5).length ∧
            Connected pathEdges [kActive, kUndecided, kActive, kUndecided, kUndecided] 0 y) ∧
          r.self.subtreeActiveCount 0 = ((Sk.filter (fun y =>
            [kActive, kUndecided, kActive, kUndecided, kUndecided].getD y kUndecided
              = kActive)).card : Int)) ∧
        ∃ Sv : Finset Nat, (∀ y, y ∈ Sv ↔ Desc r.self 1 y) ∧
          r.self.subtreeActiveCount 1 = ((Sv.filter (fun y =>
            [kActive, kUndecided, kActive, kUndecided, kUndecided].getD y kUndecided
              = kActive)).card : Int) := by
  have hB := built_of_new (vertexLits 5) pathEdges
    [kUndecided, kUndecided, kActive, kUndecided, kUndecided] (by decide)
  have hE : InRange (vertexLits 5).length pathEdges := by unfold InRange; decide
  have hr : refreshed Trail.ops (Trail.ofAssigned [0, 2] []) (mkLit 0)
      { new (vertexLits 5) pathEdges with
        state_ := [kUndecided, kUndecided, kActive, kUndecided, kUndecided] }
      = some [kActive, kUndecided, kActive, kUndecided, kUndecided] := by decide
  obtain ⟨r, h1, _, h3⟩ := (subtree_active_count_exact Trail.ops
    (Trail.ofAssigned [0, 2] []) (mkLit 0) (vertexLits 5) pathEdges _ _ hB hE hr).1
  have hself : r.self =
      { lits_ := vertexLits 5, adj_ := [[1], [0, 2], [1, 3], [2, 4], [3]],
        state_ := [kActive, kUndecided, kActive, kUndecided, kUndecided],
        rank_ := [0, 1, 2, 3, 4], lowlink_ := [0, 1, 2, 3, 4],
        subtree_active_count_ := [2, 1, 1, 0, 0], cluster_id_ := [0, 0, 0, 0, 0],
        parent_ := [-1, 0, 1, 2, 3], next_rank_ := 5 } := returned_self h1 (by decide)
  have g0 := h3 0 (by decide) (by rw [hself]; decide)
  have g1 := h3 1 (by decide) (by rw [hself]; decide)
  exact ⟨hB, hE, hr, r, h1, by rw [hself]; decide, by rw [hself]; decide,
    g0.2 (by rw [hself]; decide), g1.1⟩

/-- An instance of the low-link criterion: on the triangle 0-1-2 the search from vertex 0
visits 0, 1, 2 in this order; the child 2 of vertex 1 has low-link 0, smaller than the
rank 1 of vertex 1, and it is indeed connected to vertex 0, the parent of vertex 1, after
vertex 1 has been deleted. -/
theorem lowlink_exact_witness :
    Built (vertexLits 3) [(0, 1), (1, 2), (2, 0)] (new (vertexLits 3) [(0, 1), (1, 2), (2, 0)]) ∧
      InRange (vertexLits 3).length [(0, 1), (1, 2), (2, 0)] ∧
      refreshed Trail.ops (Trail.ofAssigned [0] []) (mkLit 0)
        (new (vertexLits 3) [(0, 1), (1, 2), (2, 0)])
        = some [kActive, kUndecided, kUndecided] ∧
      ∃ r, propagate Trail.ops (Trail.ofAssigned [0] []) (mkLit 0)
          (new (vertexLits 3) [(0, 1), (1, 2), (2, 0)]) = Outcome.returned r ∧
        r.self.lowlink 2 < r.self.rank 1 ∧
        ∃ u : Nat, r.self.parent 1 = (u : Int) ∧
          ConnectedWithout [(0, 1), (1, 2), (2, 0)] [kActive, kUndecided, kUndecided] 1 2 u := by
  have hB := new_built (vertexLits 3) [(0, 1), (1, 2), (2, 0)]
  have hE : InRange (vertexLits 3).length [(0, 1), (1, 2), (2, 0)] := by
    unfold InRange; decide
  have hr : refreshed Trail.ops (Trail.ofAssigned [0] []) (mkLit 0)
      (new (vertexLits 3) [(0, 1), (1, 2), (2, 0)])
      = some [kActive, kUndecided, kUndecided] := by decide
  obtain ⟨r, h1, _, h3⟩ := lowlink_exact Trail.ops (Trail.ofAssigned [0] []) (mkLit 0)
    (vertexLits 3) [(0, 1), (1, 2), (2, 0)] _ _ hB hE hr
  have hself : r.self =
      { lits_ := vertexLits 3, adj_ := [[1, 2], [0, 2], [1, 0]],
        state_ := [kActive, kUndecided, kUndecided],
        rank_ := [0, 1, 2], lowlink_ := [0, 0, 0],
        subtree_active_count_ := [1, 0, 0], cluster_id_ := [0, 0, 0],
        parent_ := [-1, 0, 1], next_rank_ := 3 } := returned_self h1 (by decide)
  have hc : TreeChild r.self 1 2 := by
    rw [hself]; unfold TreeChild; decide
  have hlow : r.self.lowlink 2 < r.self.rank 1 := by rw [hself]; decide
  exact ⟨hB, hE, hr, r, h1, hlow,
    ((h3 1 (by decide) (by rw [hself]; decide)).2.2.2 2 hc).2.mp hlow⟩

/-- An instance of the forest construction: on the path 0-1-2-3-4 with vertex 0 Active and
vertex 1 Inactive the census loop builds the trees of the roots 0 and 2; the vertices 2
and 4 carry the same cluster id and are connected, the vertices 0 and 2 carry different
cluster ids and are not. -/
theorem forest_ranks_and_clusters_witness :
    Built (vertexLits 5) pathEdges { new (vertexLits 5) pathEdges with
        state_ := [kUndecided, kInactive, kUndecided, kUndecided, kUndecided] } ∧
      InRange (vertexLits 5).length pathEdges ∧
      refreshed Trail.ops (Trail.ofAssigned [0] [1]) (mkLit 0)
        { new (vertexLits 5) pathEdges with
          state_ := [kUndecided, kInactive, kUndecided, kUndecided, kUndecided] }
        = some [kActive, kInactive, kUndecided, kUndecided, kUndecided] ∧
      Connected pathEdges [kActive, kInactive, kUndecided, kUndecided, kUndecided] 2 4 ∧
      ¬ Connected pathEdges [kActive, kInactive, kUndecided, kUndecided, kUndecided] 0 2 := by
  have hB := built_of_new (vertexLits 5) pathEdges
    [kUndecided, kInactive, kUndecided, kUndecided, kUndecided] (by decide)
  have hE : InRange (vertexLits 5).length pathEdges := by unfold InRange; decide
  have hr : refreshed Trail.ops (Trail.ofAssigned [0] [1]) (mkLit 0)
      { new (vertexLits 5) pathEdges with
        state_ := [kUndecided, kInactive, kUndecided, kUndecided, kUndecided] }
      = some [kActive, kInactive, kUndecided, kUndecided, kUndecided] := by decide
  have hcen : census (vertexLits 5).length (List.range (vertexLits 5).length) (-1)
      (resetDfs { { new (vertexLits 5) pathEdges with
          state_ := [kUndecided, kInactive, kUndecided, kUndecided, kUndecided] } with
        state_ := [kActive, kInactive, kUndecided, kUndecided, kUndecided] }) =
      Census.done 0
        { lits_ := vertexLits 5, adj_ := [[1], [0, 2], [1, 3], [2, 4], [3]],
          state_ := [kActive, kInactive, kUndecided, kUndecided, kUndecided],
          rank_ := [0, -1, 1, 2, 3], lowlink_ := [0, 0, 1, 2, 3],
          subtree_active_count_ := [1, 0, 0, 0, 0], cluster_id_ := [0, 0, 2, 2, 2],
          parent_ := [-1, -1, -1, 2, 3], next_rank_ := 4 } := by decide
  obtain ⟨_, _, _, _, _, _, _, h7, _⟩ := forest_ranks_and_clusters Trail.ops
    (Trail.ofAssigned [0] [1]) (mkLit 0) (vertexLits 5) pathEdges _ _ _ _ hB hE hr hcen
  exact ⟨hB, hE, hr,
    (h7 2 4 (by decide) (by decide) (by decide) (by decide)).mp (by decide),
    fun h => absurd ((h7 0 2 (by decide) (by decide) (by decide) (by decide)).mpr h)
      (by decide)⟩

/-- An instance of the bounds on entries and recursion depth: on the path 0-1-2-3-4 with
vertex 1 Inactive, `propagate` does not exhaust its fuel, no vertex is entered twice, and
the depth of every tree is bounded by the size of the component of its root. -/
theorem buildTree_terminates_witness :
    Built (vertexLits 5) pathEdges (new (vertexLits 5) pathEdges) ∧
      InRange (vertexLits 5).length pathEdges ∧
      propagate Trail.ops (Trail.ofAssigned [0] [1]) (mkLit 0)
        (new (vertexLits 5) pathEdges) ≠ Outcome.outOfFuel ∧
      ∃ res entered trees,
        censusG (vertexLits 5).length (List.range (vertexLits 5).length) (-1)
          (resetDfs { new (vertexLits 5) pathEdges with
            state_ := [kActive, kInactive, kUndecided, kUndecided, kUndecided] })
          [] [] = (res, entered, trees) ∧
        res ≠ Census.outOfFuel ∧ entered.Nodup ∧
        (∀ x ∈ entered, x < (vertexLits 5).length ∧
          [kActive, kInactive, kUndecided, kUndecided, kUndecided].getD x kUndecided
            ≠ kInactive) ∧
        ∀ kd ∈ trees, ∀ R : Finset Nat,
          (∀ y, y < (vertexLits 5).length →
            Connected pathEdges [kActive, kInactive, kUndecided, kUndecided, kUndecided]
              kd.1 y → y ∈ R) →
            1 ≤ kd.2 ∧ kd.2 ≤ R.card := by
  have hB := new_built (vertexLits 5) pathEdges
  have hE : InRange (vertexLits 5).length pathEdges := by unfold InRange; decide
  obtain ⟨h1, h2⟩ := buildTree_terminates Trail.ops (Trail.ofAssigned [0] [1]) (mkLit 0)
    (vertexLits 5) pathEdges _ hB hE
  obtain ⟨res, entered, trees, g1, _, g3, g4, g5, _, g7⟩ :=
    h2 [kActive, kInactive, kUndecided, kUndecided, kUndecided] (by decide)
  exact ⟨hB, hE, h1, res, entered, trees, g1, g3, g4, g5, g7⟩

end ActiveVerticesConnected
end Minisat
